import Mathlib

/-!
# DdrescueCmp: a verification development

A shallow embedding of `DdrescueCmp.cpp` together with theorems about it.

* `AdrType_t` is `unsigned long long`: values are natural numbers below `2 ^ 64`
  and every addition the source performs on them is reduced modulo `2 ^ 64`.
* `AdrMap_t` is `std::map<AdrType_t, AdrType_t>`: the sequence of its entries in
  iteration order, a list of `(start, length)` pairs with strictly ascending
  keys.  An iterator is a position in that list, `end()` is the length.
* An image file is the list of its bytes.
-/

namespace DdrescueCmp

/-! ## Basic types and constants -/

/-- The modulus of `AdrType_t` arithmetic (`unsigned long long`). -/
def ADR_MOD : Nat := 2 ^ 64

/-- Source constant `CDROM_BLOCK_SIZE`. -/
def CDROM_BLOCK_SIZE : Nat := 2048

/-- Source constant `BUFSIZE` of `main`. -/
def BUFSIZE : Nat := CDROM_BLOCK_SIZE * 1024

/-- Source type `AdrMap_t`: entries `(first, second)` in iteration order. -/
abbrev AdrMap_t := List (Nat × Nat)

/-- The iterator returned by `std::map::lower_bound`: the position of the first
entry whose key is not less than `k` (the length of the list for `end()`). -/
def lower_bound : AdrMap_t → Nat → Nat
  | [], _ => 0
  | e :: es, k => if e.1 < k then lower_bound es k + 1 else 0

/-- The assignment `res[k] = v` of `std::map`: overwrite the entry with key `k`
or insert a new entry at its place in key order. -/
def mapAssign : AdrMap_t → Nat → Nat → AdrMap_t
  | [], k, v => [(k, v)]
  | e :: es, k, v =>
    if k < e.1 then (k, v) :: e :: es
    else if k = e.1 then (k, v) :: es
    else e :: mapAssign es k v

deriving instance DecidableEq for Except

/-! ## The rescue log parser `readLog` -/

/-- The exceptions `readLog` throws. -/
inductive LogError where
  | zeroLength (addr : Nat)
  | overlap (existing : Nat × Nat) (added : Nat × Nat)
  deriving DecidableEq, Repr

/-- Dereference the iterator one position before `i` (`itor--; *itor`), when
`i` is not `begin()`. -/
def prevEntry (m : AdrMap_t) : Nat → Option (Nat × Nat)
  | 0 => none
  | j + 1 => m.get? j

/-- Lines 574-586 of `readLog`: the test against the entry `lower_bound` finds
(`m.get?` is `none` exactly at `end()`). -/
def checkNext (res : AdrMap_t) (addr len : Nat) : Option LogError :=
  match res.get? (lower_bound res addr) with
  | some e => if e.1 ≤ (addr + len) % ADR_MOD then some (.overlap e (addr, len)) else none
  | none => none

/-- Lines 588-599 of `readLog`: the test against the entry before it. -/
def checkPrev (res : AdrMap_t) (addr len : Nat) : Option LogError :=
  match prevEntry res (lower_bound res addr) with
  | some p => if addr ≤ (p.1 + p.2) % ADR_MOD then some (.overlap p (addr, len)) else none
  | none => none

/-- Lines 565-602 of `readLog`: what happens to a rescued range `addr len`
once its line has been parsed and its status found to be `+`. -/
def insertRange (res : AdrMap_t) (addr len : Nat) : Except LogError AdrMap_t :=
  if len = 0 then .error (.zeroLength addr)
  else if res.isEmpty then .ok (mapAssign res addr len)
  else
    match checkNext res addr len with
    | some err => .error err
    | none =>
      match checkPrev res addr len with
      | some err => .error err
      | none => .ok (mapAssign res addr len)

/-- The C library's `isspace` in the "C" locale. -/
def isspace (c : Char) : Bool :=
  c = ' ' || c = '\t' || c = '\n' || c = '\x0b' || c = '\x0c' || c = '\r'

/-- Value of a hexadecimal digit. -/
def hexDigit (c : Char) : Option Nat :=
  if '0' ≤ c ∧ c ≤ '9' then some (c.toNat - '0'.toNat)
  else if 'a' ≤ c ∧ c ≤ 'f' then some (c.toNat - 'a'.toNat + 10)
  else if 'A' ≤ c ∧ c ≤ 'F' then some (c.toNat - 'A'.toNat + 10)
  else none

/-- Consume the longest run of hexadecimal digits, accumulating their value. -/
def hexDigits : List Char → Nat → Nat × List Char
  | [], acc => (acc, [])
  | c :: cs, acc =>
    match hexDigit c with
    | some d => hexDigits cs (acc * 16 + d)
    | none => (acc, c :: cs)

/-- The conversion `%lx` of `sscanf` storing into a 64-bit unsigned object
(`unsigned long` of an LP64 platform, the size of `AdrType_t`): skip white
space, accept an optional sign and an optional `0x` prefix, then the
hexadecimal digits.  With neither a prefix nor a digit the conversion is a
matching failure; a prefix `0x` with no digit after it is read as the number
0 and the input goes on after the `x`, as the C library of the build does (it
collects `0x` and converts what it has collected).  A value that does not fit
is stored as the largest value, a negated one modulo `2 ^ 64`. -/
def scanHex (s : List Char) : Option (Nat × List Char) :=
  let s1 := s.dropWhile isspace
  let (neg, s2) :=
    match s1 with
    | '-' :: r => (true, r)
    | '+' :: r => (false, r)
    | r => (false, r)
  let (pre, s3) :=
    match s2 with
    | '0' :: x :: r => if x = 'x' ∨ x = 'X' then (true, r) else (false, s2)
    | r => (false, r)
  match s3 with
  | [] => if pre then some (0, []) else none
  | c :: _ =>
    if (hexDigit c).isSome then
      let (v, rest) := hexDigits s3 0
      if ADR_MOD ≤ v then some (ADR_MOD - 1, rest)
      else some (if neg then (ADR_MOD - v) % ADR_MOD else v, rest)
    else if pre then some (0, s3) else none

/-- The call `sscanf(line, "%lx %lx %c", &addr, &len, &stat)` of `readLog`:
`some (addr, len, stat)` exactly when it returns 3. -/
def sscanfLog (line : List Char) : Option (Nat × Nat × Char) :=
  match scanHex line with
  | none => none
  | some (addr, r1) =>
    match scanHex r1 with
    | none => none
    | some (len, r2) =>
      match r2.dropWhile isspace with
      | [] => none
      | c :: _ => some (addr, len, c)

/-- The state of the `while (std::getline ...)` loop of `readLog`. -/
structure LogState where
  skippedOne : Bool
  totalBytes : Nat
  res : AdrMap_t
  deriving DecidableEq, Repr

/-- One iteration of the loop of `readLog` on the line `lineBuf`. -/
def readLogLine (st : LogState) (lineBuf : List Char) : Except LogError LogState :=
  match lineBuf with
  | [] => .ok st
  | c :: _ =>
    if c = '#' then .ok st
    else if !st.skippedOne then .ok { st with skippedOne := true }
    else
      match sscanfLog lineBuf with
      | none => .ok st
      | some (addr, len, stat) =>
        if stat ≠ '+' then .ok st
        else
          match insertRange st.res addr len with
          | .error e => .error e
          | .ok res => .ok { st with res := res, totalBytes := (st.totalBytes + len) % ADR_MOD }

/-- The loop of `readLog` over the remaining lines of the stream. -/
def readLogLoop : LogState → List (List Char) → Except LogError LogState
  | st, [] => .ok st
  | st, l :: ls =>
    match readLogLine st l with
    | .error e => .error e
    | .ok st1 => readLogLoop st1 ls

/-- Source function `readLog`, on the lines `std::getline` delivers and the
map `res` passed in: the map it leaves in `res` and the total it prints, or the
exception it throws. -/
def readLog (lines : List String) (res : AdrMap_t) : Except LogError (AdrMap_t × Nat) :=
  match readLogLoop { skippedOne := false, totalBytes := 0, res := res } (lines.map String.toList) with
  | .error e => .error e
  | .ok st => .ok (st.res, st.totalBytes)


/-! ## The comparator of `main` (option `-c`) -/

/-- Lines 259-305 of `main` without the comparison of the images: the overlaps
the inner loop reports (`Overlap starting ... of length ...`) for the interval
`[f1First, f1Last)` of `f1Map`, walking `f2Map` from the iterator `i2` on.  An
overlap is recorded as the pair `(begin, end)`. -/
def walk (f1First f1Last : Nat) : AdrMap_t → List (Nat × Nat)
  | [] => []
  | i2 :: rest =>
    let f2First := i2.1
    let f2Last := (f2First + i2.2) % ADR_MOD
    if f2First ≥ f1Last then []
    else if f2First < f1Last ∧ f2Last > f1First then
      (max f1First f2First, min f1Last f2Last) :: walk f1First f1Last rest
    else walk f1First f1Last rest

/-- Lines 255-257 of `main`: `lower_bound`, then back up one unless at
`begin()`; the result is the part of `f2Map` from that iterator on. -/
def walkStart (f2Map : AdrMap_t) (key : Nat) : AdrMap_t :=
  let i2 := lower_bound f2Map key
  f2Map.drop (if i2 ≠ 0 then i2 - 1 else i2)

/-- Lines 253-305 of `main` for one entry `i1` of `f1Map`, comparison left out. -/
def overlapsOf (f2Map : AdrMap_t) (i1 : Nat × Nat) : List (Nat × Nat) :=
  let f1First := i1.1
  let f1Last := (f1First + i1.2) % ADR_MOD
  walk f1First f1Last (walkStart f2Map i1.1)

/-- Lines 249-306 of `main`, comparison left out: all overlaps the comparator
reports, in the order it reports them. -/
def intersectRuns : AdrMap_t → AdrMap_t → List (Nat × Nat)
  | [], _ => []
  | i1 :: rest, f2Map => overlapsOf f2Map i1 ++ intersectRuns rest f2Map

/-- The exceptions of the comparator.  The two `cannot seek` exceptions are
not modelled: `eof()` is tested right after `seekg`, and no read that reached
the end of a file is ever followed by another `seekg`, each short read being
thrown as `cannot read`. -/
inductive CmpError where
  | cannotRead1
  | cannotRead2
  | mismatch (addr : Nat)
  deriving DecidableEq, Repr

/-- The bytes `seekg(pos)` followed by `read(buf, n)` puts in the buffer; the
length of the result is `gcount()`. -/
def readAt (iso : List Nat) (pos n : Nat) : List Nat := (iso.drop pos).take n

/-- The `long` at index `i` of a buffer, for `sizeof(long) = sz`. -/
def longAt (sz : Nat) (buf : List Nat) (i : Nat) : List Nat := (buf.drop (i * sz)).take sz

/-- Lines 293-301 of `main`: the loop over the `long`s of the two buffers, with
`n` iterations left from index `i`; the index of the first pair of `long`s that
differ. -/
def longLoop (sz : Nat) (buf1 buf2 : List Nat) : Nat → Nat → Option Nat
  | 0, _ => none
  | n + 1, i =>
    if longAt sz buf1 i ≠ longAt sz buf2 i then some i
    else longLoop sz buf1 buf2 n (i + 1)

/-- Lines 273-303 of `main`: the loop `while (end > begin)` over the chunks of
one overlap.  The loop advances `begin` by at least one byte each time round,
so `fuel = end - begin` iterations always suffice. -/
def compareLoop (sz : Nat) (f1Iso f2Iso : List Nat) : Nat → Nat → Nat → Except CmpError Unit
  | 0, _, _ => .ok ()
  | fuel + 1, begin_, end_ =>
    if end_ > begin_ then
      let readLen := min BUFSIZE (end_ - begin_)
      let buf1 := readAt f1Iso begin_ readLen
      if buf1.length ≠ readLen then .error .cannotRead1
      else
        let buf2 := readAt f2Iso begin_ readLen
        if buf2.length ≠ readLen then .error .cannotRead2
        else
          match longLoop sz buf1 buf2 (readLen / sz) 0 with
          | some i => .error (.mismatch (begin_ + i * sz))
          | none => compareLoop sz f1Iso f2Iso fuel (begin_ + readLen) end_
    else .ok ()

/-- Lines 259-305 of `main`: the inner loop over `f2Map` from the iterator `i2`
on, for the interval `[f1First, f1Last)` of `f1Map`. -/
def compareWalk (sz : Nat) (f1Iso f2Iso : List Nat) (f1First f1Last : Nat) :
    AdrMap_t → Except CmpError Unit
  | [] => .ok ()
  | i2 :: rest =>
    let f2First := i2.1
    let f2Last := (f2First + i2.2) % ADR_MOD
    if f2First ≥ f1Last then .ok ()
    else if f2First < f1Last ∧ f2Last > f1First then
      let begin_ := max f1First f2First
      let end_ := min f1Last f2Last
      match compareLoop sz f1Iso f2Iso (end_ - begin_) begin_ end_ with
      | .error e => .error e
      | .ok _ => compareWalk sz f1Iso f2Iso f1First f1Last rest
    else compareWalk sz f1Iso f2Iso f1First f1Last rest

/-- Lines 249-306 of `main`: the comparator, for `sizeof(long) = sz`; `.ok ()`
when the loops run to their end without an exception. -/
def compareMaps (sz : Nat) (f1Iso f2Iso : List Nat) : AdrMap_t → AdrMap_t → Except CmpError Unit
  | [], _ => .ok ()
  | i1 :: rest, f2Map =>
    let f1First := i1.1
    let f1Last := (f1First + i1.2) % ADR_MOD
    match compareWalk sz f1Iso f2Iso f1First f1Last (walkStart f2Map i1.1) with
    | .error e => .error e
    | .ok _ => compareMaps sz f1Iso f2Iso rest f2Map


/-! ## The compaction of `f1Map` and the extractor of `main` (option `-x`) -/

/-- Lines 308-326 of `main`: the pass over `f1Map` that merges an entry with
the next one when `itor->first + itor->second == iNext->first`.  After a merge
`iNext` is erased and `itor++` moves on to the entry that followed it. -/
def compact : AdrMap_t → AdrMap_t
  | [] => []
  | [itor] => [itor]
  | itor :: iNext :: rest =>
    if (itor.1 + itor.2) % ADR_MOD = iNext.1 then
      (itor.1, (itor.2 + iNext.2) % ADR_MOD) :: compact rest
    else itor :: compact (iNext :: rest)

/-- Source type `FileDesc`. -/
structure FileDesc where
  pos : Nat
  len : Nat
  deriving DecidableEq, Repr

/-- Source type `FileDescMap_t`: entries `(name, FileDesc)` in iteration order. -/
abbrev FileDescMap_t := List (String × FileDesc)

/-- Lines 335-338 of `main`: `lower_bound` on the address, then one step back;
`none` when `lower_bound` returns `begin()`. -/
def findCoveringRun (f1Map : AdrMap_t) (address : Nat) : Option (Nat × Nat) :=
  prevEntry f1Map (lower_bound f1Map address)

/-- What the extractor prints. -/
inductive ExtractMsg where
  | extracted (name : String)
  | missing (name : String)
  deriving DecidableEq, Repr

/-- The exceptions of the extractor. -/
inductive ExtractError where
  | cannotCreate (name : String)
  | failedRead (name : String)
  deriving DecidableEq, Repr

/-- What the extractor has done so far: whether it has run `mkdir`, the output
files it has written with their contents, and the lines it has printed. -/
structure ExtractState where
  createdDir : Bool
  files : List (String × List Nat)
  messages : List ExtractMsg
  deriving DecidableEq, Repr

/-- Lines 359-369 of `main`: the loop that copies `[fiFirst, fiLast)` from the
image to the output file; `out` is what has been written, the result is `none`
for a short read.  The loop advances `fiFirst` by at least one byte each time
round, so `fuel = fiLast - fiFirst` iterations always suffice. -/
def copyLoop (f1Iso : List Nat) : Nat → Nat → Nat → List Nat → Option (List Nat)
  | 0, _, _, out => some out
  | fuel + 1, fiFirst, fiLast, out =>
    if fiFirst < fiLast then
      let toRead := min (fiLast - fiFirst) BUFSIZE
      let buf1 := readAt f1Iso fiFirst toRead
      if buf1.length ≠ toRead then none
      else copyLoop f1Iso fuel (fiFirst + toRead) fiLast (out ++ buf1)
    else some out

/-- Lines 335-375 of `main`: the body of the loop of the extractor for one
entry of `FileDescMap`.  `canCreate name` tells whether the output file of
that name can be opened. -/
def extractEntry (canCreate : String → Bool) (f1Map : AdrMap_t) (f1Iso : List Nat)
    (st : ExtractState) (fileItor : String × FileDesc) : Except ExtractError ExtractState :=
  match findCoveringRun f1Map fileItor.2.pos with
  | none => .ok st
  | some i1 =>
    let f1First := i1.1
    let f1Last := (f1First + i1.2) % ADR_MOD
    let fiFirst := fileItor.2.pos
    let fiLast := (fileItor.2.pos + fileItor.2.len) % ADR_MOD
    if fiFirst ≥ f1First ∧ fiLast ≤ f1Last then
      if !canCreate fileItor.1 then .error (.cannotCreate fileItor.1)
      else
        match copyLoop f1Iso (fiLast - fiFirst) fiFirst fiLast [] with
        | none => .error (.failedRead fileItor.1)
        | some out =>
          .ok { createdDir := true, files := st.files ++ [(fileItor.1, out)],
                messages := st.messages ++ [.extracted fileItor.1] }
    else .ok { st with messages := st.messages ++ [.missing fileItor.1] }

/-- Lines 329-376 of `main`: the loop of the extractor over `FileDescMap`. -/
def extractLoop (canCreate : String → Bool) (f1Map : AdrMap_t) (f1Iso : List Nat) :
    ExtractState → FileDescMap_t → Except ExtractError ExtractState
  | st, [] => .ok st
  | st, fileItor :: rest =>
    match extractEntry canCreate f1Map f1Iso st fileItor with
    | .error e => .error e
    | .ok st1 => extractLoop canCreate f1Map f1Iso st1 rest

/-- The extractor of `main` on the compacted map: `-x` processing from its
initial state. -/
def extract (canCreate : String → Bool) (f1Map : AdrMap_t) (f1Iso : List Nat)
    (FileDescMap : FileDescMap_t) : Except ExtractError ExtractState :=
  extractLoop canCreate f1Map f1Iso
    { createdDir := false, files := [], messages := [] } FileDescMap


/-! ## The signature scanner of `main` (option `-jpg`)

Bytes are natural numbers below 256.  A conversion to `int` is reduced modulo
`2 ^ 32` into the signed range; the additions on `int` and `long` variables,
whose overflow is undefined, are exact. -/

/-- The conversion `(int)` of an unsigned value. -/
def toInt32 (n : Nat) : Int :=
  if n % 2 ^ 32 < 2 ^ 31 then ((n % 2 ^ 32 : Nat) : Int) else ((n % 2 ^ 32 : Nat) : Int) - 2 ^ 32

/-- The enumeration of line 390, the type of `jpgfileInProgress`. -/
inductive JpgState where
  | NO_FILE
  | IN_PROGRESS
  | FOUND_0XFF
  | FOUND_BC0
  | FOUND_BC1
  | SKIPPING
  | COMPLETE
  deriving DecidableEq, Repr

/-- The variables of the scanner that live across the bytes, blocks and
buffers of an interval (lines 385-397). -/
structure ScanState where
  jpgfileInProgress : JpgState
  jpgFileLength : Int
  jpgFileBlockNum : Int
  skipping : Int
  fileCount : Int
  deriving DecidableEq, Repr

/-- What the scanner writes for a file it has found complete: the values of
`jpgFileBlockNum`, `jpgFileLength` and `fileCount` at lines 521-523. -/
structure JpgRecord where
  jpgFileBlockNum : Int
  jpgFileLength : Int
  fileCount : Int
  deriving DecidableEq, Repr

/-- The exceptions of the scanner. -/
inductive ScanError where
  | failedRead (f1First toRead : Nat)
  | notOnBoundary (f1First : Nat)
  deriving DecidableEq, Repr

/-- Lines 455-514 of `main`: the cases `IN_PROGRESS` to `SKIPPING` of the
switch, each of which consumes the byte `c = *p++`.  `skipping <<= 8;
skipping |= c` is `skipping * 256 + c` for the non-negative `skipping` the case
`FOUND_BC0` leaves and a byte `c`.  The switch has no case for `COMPLETE`, and
`NO_FILE` is the case `noFileCase`. -/
def jpgStep (st : ScanState) (c : Nat) : ScanState :=
  match st.jpgfileInProgress with
  | .IN_PROGRESS =>
    if c = 0xFF then { st with jpgfileInProgress := .FOUND_0XFF } else st
  | .FOUND_0XFF =>
    if c = 0xD9 then { st with jpgfileInProgress := .COMPLETE }
    else if c = 0xFF then st
    else if c = 0 then { st with jpgfileInProgress := .IN_PROGRESS }
    else if (c &&& 0xF0) = 0xD0 ∧ (c &&& 0x0F) ≤ 7 then
      { st with jpgfileInProgress := .IN_PROGRESS }
    else
      let top4 := c &&& 0xF0
      if top4 = 0xC0 ∨ top4 = 0xD0 ∨ top4 = 0xE0 ∨ top4 = 0xF0 then
        { st with jpgfileInProgress := .FOUND_BC0, skipping := 0 }
      else { st with jpgfileInProgress := .IN_PROGRESS }
  | .FOUND_BC0 =>
    { st with skipping := st.skipping + c, jpgfileInProgress := .FOUND_BC1 }
  | .FOUND_BC1 =>
    let skipping := st.skipping * 256 + c - 2
    if skipping > 0 then { st with skipping := skipping, jpgfileInProgress := .SKIPPING }
    else { st with skipping := skipping, jpgfileInProgress := .IN_PROGRESS }
  | .SKIPPING =>
    let skipping := st.skipping - 1
    if skipping ≤ 0 then { st with skipping := skipping, jpgfileInProgress := .IN_PROGRESS }
    else { st with skipping := skipping }
  | .NO_FILE => st
  | .COMPLETE => st

/-- Lines 420-453 of `main`: the case `NO_FILE` of the switch, for the block
`block` of index `i` in the buffer read at `f1First` and the position `p` in
the block; the state and the position it leaves.  The four tests of line 421
each advance `p`, as far as they are evaluated. -/
def noFileCase (f1First i : Nat) (block : List Nat) (st : ScanState) (p : Nat) :
    Except ScanError (ScanState × Nat) :=
  if block.getD p 0 ≠ 0xFF then .ok (st, p + 1)
  else if block.getD (p + 1) 0 ≠ 0xD8 then .ok (st, p + 2)
  else if block.getD (p + 2) 0 ≠ 0xFF then .ok (st, p + 3)
  else if block.getD (p + 3) 0 ≠ 0xE0 then .ok (st, p + 4)
  else
    let p := p + 4 + 2
    if block.getD p 0 = 0x4A ∧ block.getD (p + 1) 0 = 0x46 ∧ block.getD (p + 2) 0 = 0x49 ∧
        block.getD (p + 3) 0 = 0x46 ∧ block.getD (p + 4) 0 = 0 then
      let blockNumNow := toInt32 (f1First / CDROM_BLOCK_SIZE)
      if f1First % CDROM_BLOCK_SIZE ≠ 0 then .error (.notOnBoundary f1First)
      else
        let blockSize := (block.getD 5 0 &&& 0xFF) ||| ((block.getD 4 0 <<< 8) &&& 0xFF00)
        let p := blockSize + 4
        let blockNumNow := blockNumNow + i
        .ok ({ st with jpgFileBlockNum := blockNumNow, jpgFileLength := 0,
                       jpgfileInProgress := .IN_PROGRESS, fileCount := st.fileCount + 1 }, p)
    else .ok (st, p)

/-- Lines 418-516 of `main`: the switch, on the byte at position `p` of the
block. -/
def switchCase (f1First i : Nat) (block : List Nat) (st : ScanState) (p : Nat) :
    Except ScanError (ScanState × Nat) :=
  match st.jpgfileInProgress with
  | .NO_FILE => noFileCase f1First i block st p
  | .COMPLETE => .ok (st, p)
  | _ => .ok (jpgStep st (block.getD p 0), p + 1)

/-- Lines 416-528 of `main`: the loop `while (p - block < CDROM_BLOCK_SIZE)`
over one block, from the position `p`; the state and the position at which the
loop ends, and the record written if a file was found complete. -/
def blockLoop (f1First i : Nat) (block : List Nat) :
    Nat → ScanState → Nat → Except ScanError (ScanState × Nat × Option JpgRecord)
  | 0, st, p => .ok (st, p, none)
  | fuel + 1, st, p =>
    if p < CDROM_BLOCK_SIZE then
      match switchCase f1First i block st p with
      | .error e => .error e
      | .ok (st1, p1) =>
        if st1.jpgfileInProgress = .COMPLETE then
          let jpgFileLength := st1.jpgFileLength + toInt32 p1
          .ok ({ st1 with jpgfileInProgress := .NO_FILE, jpgFileLength := jpgFileLength }, p1,
            some { jpgFileBlockNum := st1.jpgFileBlockNum, jpgFileLength := jpgFileLength,
                   fileCount := st1.fileCount })
        else if st1.jpgfileInProgress = .NO_FILE then .ok (st1, p1, none)
        else blockLoop f1First i block fuel st1 p1
    else .ok (st, p, none)

/-- Lines 414-529 of `main`: the body of the loop over the blocks of a buffer,
for the block of index `i`.  The loop over the block ends after at most
`CDROM_BLOCK_SIZE + 1` rounds: the case `NO_FILE` is met in the first round
only, and every other round advances `p` by one. -/
def scanBlock (f1First i : Nat) (block : List Nat) (st : ScanState) :
    Except ScanError (ScanState × Option JpgRecord) :=
  match blockLoop f1First i block (CDROM_BLOCK_SIZE + 1) st 0 with
  | .error e => .error e
  | .ok (st1, _, rec) =>
    .ok ({ st1 with jpgFileLength := st1.jpgFileLength + CDROM_BLOCK_SIZE }, rec)

/-- The block of index `i` of the buffer, `&buf1[i * CDROM_BLOCK_SIZE]`. -/
def blockOf (buf1 : List Nat) (i : Nat) : List Nat :=
  (buf1.drop (i * CDROM_BLOCK_SIZE)).take CDROM_BLOCK_SIZE

/-- Lines 412-530 of `main`: the loop `for (int i = 0; i < numBlocks; i++)`,
with `n` rounds left from index `i`; the records written, in order. -/
def blocksLoop (f1First : Nat) (buf1 : List Nat) :
    Nat → Nat → ScanState → Except ScanError (ScanState × List JpgRecord)
  | 0, _, st => .ok (st, [])
  | n + 1, i, st =>
    match scanBlock f1First i (blockOf buf1 i) st with
    | .error e => .error e
    | .ok (st1, rec) =>
      match blocksLoop f1First buf1 n (i + 1) st1 with
      | .error e => .error e
      | .ok (st2, recs) => .ok (st2, rec.toList ++ recs)

/-- Lines 398-532 of `main`: the loop `while (f1First < f1Last)` over the
buffers of an interval, for a buffer of `bufsize` bytes.  The loop advances
`f1First` by at least one byte each time round, so `fuel = f1Last - f1First`
iterations always suffice. -/
def scanLoop (bufsize : Nat) (f1Iso : List Nat) :
    Nat → Nat → Nat → ScanState → Except ScanError (ScanState × List JpgRecord)
  | 0, _, _, st => .ok (st, [])
  | fuel + 1, f1First, f1Last, st =>
    if f1First < f1Last then
      let toRead := min (f1Last - f1First) bufsize
      let buf1 := readAt f1Iso f1First toRead
      if buf1.length ≠ toRead then .error (.failedRead f1First toRead)
      else
        let numBlocks := toInt32 (toRead / CDROM_BLOCK_SIZE)
        match blocksLoop f1First buf1 numBlocks.toNat 0 st with
        | .error e => .error e
        | .ok (st1, recs) =>
          match scanLoop bufsize f1Iso fuel (f1First + toRead) f1Last st1 with
          | .error e => .error e
          | .ok (st2, recs2) => .ok (st2, recs ++ recs2)
    else .ok (st, [])

/-- Lines 390-532 of `main`: the body of the loop over `f1Map` for the entry
`itor`, the count of files found so far being `fileCount`; the new count and
the records written. -/
def scanInterval (bufsize : Nat) (f1Iso : List Nat) (fileCount : Int) (itor : Nat × Nat) :
    Except ScanError (Int × List JpgRecord) :=
  let f1First := itor.1
  let f1Last := (f1First + itor.2) % ADR_MOD
  match scanLoop bufsize f1Iso (f1Last - f1First) f1First f1Last
      { jpgfileInProgress := .NO_FILE, jpgFileLength := 0, jpgFileBlockNum := 0, skipping := 0,
        fileCount := fileCount } with
  | .error e => .error e
  | .ok (st, recs) => .ok (st.fileCount, recs)

/-- Lines 385-533 of `main`: the loop of the scanner over `f1Map`. -/
def scanMapLoop (bufsize : Nat) (f1Iso : List Nat) :
    Int → AdrMap_t → Except ScanError (List JpgRecord)
  | _, [] => .ok []
  | fileCount, itor :: rest =>
    match scanInterval bufsize f1Iso fileCount itor with
    | .error e => .error e
    | .ok (fileCount1, recs) =>
      match scanMapLoop bufsize f1Iso fileCount1 rest with
      | .error e => .error e
      | .ok recs2 => .ok (recs ++ recs2)

/-- The scanner of `main` on the compacted map: the records it writes. -/
def scanMap (f1Map : AdrMap_t) (f1Iso : List Nat) : Except ScanError (List JpgRecord) :=
  scanMapLoop BUFSIZE f1Iso 0 f1Map


/-! ## The catalog parser of `main` (option `-x`) and the line the scanner writes

The conversions of `sscanf` store through the pointers they are given: `%x`
and `%d` store 32 bits into the low half of the 64-bit `addr` and `fileLen`
(little-endian), which line 225 and line 226 have set to zero. -/

/-- Value of a decimal digit. -/
def decDigit (c : Char) : Option Nat :=
  if '0' ≤ c ∧ c ≤ '9' then some (c.toNat - '0'.toNat) else none

/-- Consume the longest run of decimal digits, accumulating their value. -/
def decDigits : List Char → Nat → Nat × List Char
  | [], acc => (acc, [])
  | c :: cs, acc =>
    match decDigit c with
    | some d => decDigits cs (acc * 10 + d)
    | none => (acc, c :: cs)

/-- The conversion `%x` of `sscanf` into `addr`: the number is read as `%lx`
reads it and its low 32 bits are stored. -/
def scanHexInt (s : List Char) : Option (Nat × List Char) :=
  match scanHex s with
  | none => none
  | some (v, rest) => some (v % 2 ^ 32, rest)

/-- The conversion `%d` of `sscanf` into `fileLen`: skip white space, accept an
optional sign, then at least one decimal digit.  The number is read as a
`long` (a value that does not fit is the nearest `long`) and the 32 bits of its
conversion to `int` are stored. -/
def scanDecInt (s : List Char) : Option (Nat × List Char) :=
  let s1 := s.dropWhile isspace
  let (neg, s2) :=
    match s1 with
    | '-' :: r => (true, r)
    | '+' :: r => (false, r)
    | r => (false, r)
  match s2 with
  | [] => none
  | c :: _ =>
    if (decDigit c).isSome then
      let (v, rest) := decDigits s2 0
      let n : Int := if neg then max (-(v : Int)) (-(2 ^ 63)) else min (v : Int) (2 ^ 63 - 1)
      some ((n % 2 ^ 32).toNat, rest)
    else none

/-- The conversions `%s` and `%*s` of `sscanf`, with the field width if there
is one: skip white space, then take the characters up to the next white space
or the end of the input, at most `width` of them; a matching failure when
there is none. -/
def scanString (width : Option Nat) (s : List Char) : Option (List Char × List Char) :=
  let s1 := s.dropWhile isspace
  let word := s1.takeWhile (fun c => !isspace c)
  let tok :=
    match width with
    | some w => word.take w
    | none => word
  if tok = [] then none else some (tok, s1.drop tok.length)

/-- The call `sscanf(lineBuf.c_str(), " %x %d %*s %255s", &addr, &fileLen,
fName)` of line 232, for `addr` and `fileLen` zero and `fName` holding the
string `fName`: the number of items assigned (zero also where `sscanf` returns
`EOF`) and what `addr`, `fileLen` and `fName` hold after the call.  A
conversion that fails ends the call and leaves the later arguments as they
were. -/
def sscanfCatalog (line : List Char) (fName : List Char) : Nat × Nat × Nat × List Char :=
  match scanHexInt line with
  | none => (0, 0, 0, fName)
  | some (addr, r1) =>
    match scanDecInt r1 with
    | none => (1, addr, 0, fName)
    | some (fileLen, r2) =>
      match scanString none r2 with
      | none => (2, addr, fileLen, fName)
      | some (_, r3) =>
        match scanString (some 255) r3 with
        | none => (2, addr, fileLen, fName)
        | some (name, _) => (3, addr, fileLen, name)

/-- The assignment `FileDescMap[name] = fd` on a map sorted by name, the names
compared character by character as `std::string` compares them: overwrite the
entry of an equal name, else insert in order. -/
def catalogAssign : FileDescMap_t → String → FileDesc → FileDescMap_t
  | [], name, fd => [(name, fd)]
  | (k, v) :: rest, name, fd =>
    if name.toList < k.toList then (name, fd) :: (k, v) :: rest
    else if name = k then (name, fd) :: rest
    else (k, v) :: catalogAssign rest name fd

/-- The calls `lineBuf.find(c)` and `lineBuf.substr(bktPos + 1)` of lines
215-219: what follows the first `c` of the line, `none` when `find` returns
`npos`. -/
def afterChar (c : Char) : List Char → Option (List Char)
  | [] => none
  | x :: xs => if x = c then some xs else afterChar c xs

/-- The calls `lineBuf.find(";1")` and `lineBuf.substr(0, bktPos)` of lines
221-224: what precedes the first `;1` of the line, `none` when `find` returns
`npos`. -/
def beforeSemi1 : List Char → Option (List Char)
  | [] => none
  | [_] => none
  | x :: y :: rest =>
    if x = ';' ∧ y = '1' then some []
    else
      match beforeSemi1 (y :: rest) with
      | none => none
      | some pre => some (x :: pre)

/-- Lines 221-235 of `main`: what the parser does with the text `rest` that
follows the bracket, `fName0` being the string the array `fName` holds when it
is declared, without an initialiser, at line 227. -/
def catalogFields (fName0 : List Char) (FileDescMap : FileDescMap_t) (rest : List Char) :
    FileDescMap_t :=
  match beforeSemi1 rest with
  | none => FileDescMap
  | some fields =>
    let (_, addr, fileLen, fName) := sscanfCatalog fields fName0
    let addr := (addr * CDROM_BLOCK_SIZE) % ADR_MOD
    catalogAssign FileDescMap (String.mk fName) { pos := addr, len := fileLen }

/-- Lines 206-237 of `main`: the body of the loop `while (std::getline(ifs,
lineBuf))` of the catalog parser, on the line `lineBuf`.  Lines 209-214 erase
the NUL characters of the line. -/
def catalogLine (fName0 : List Char) (FileDescMap : FileDescMap_t) (lineBuf : List Char) :
    FileDescMap_t :=
  let lineBuf := lineBuf.filter (fun c => c ≠ '\x00')
  match afterChar ']' lineBuf with
  | none => FileDescMap
  | some rest => catalogFields fName0 FileDescMap rest

/-- The loop of the catalog parser over the remaining lines of the file;
`indet n` is the string the array `fName` holds when iteration `n` declares
it. -/
def catalogLoop (indet : Nat → List Char) : Nat → FileDescMap_t → List (List Char) → FileDescMap_t
  | _, FileDescMap, [] => FileDescMap
  | n, FileDescMap, l :: ls => catalogLoop indet (n + 1) (catalogLine (indet n) FileDescMap l) ls

/-- Lines 195-238 of `main`: the catalog parser, on the lines `std::getline`
delivers; the map `FileDescMap` it builds. -/
def readCatalog (indet : Nat → List Char) (lines : List String) : FileDescMap_t :=
  catalogLoop indet 0 [] (lines.map String.toList)

/-- The character of the digit `d`, in lower case as `std::hex` writes it. -/
def digitChar (d : Nat) : Char :=
  if d < 10 then Char.ofNat (48 + d) else Char.ofNat (87 + d)

/-- The digits of `n` in base `base`, most significant first, put before
`acc`. -/
def printDigits (base : Nat) : Nat → Nat → List Char → List Char
  | 0, _, acc => acc
  | fuel + 1, n, acc =>
    if n / base = 0 then digitChar (n % base) :: acc
    else printDigits base fuel (n / base) (digitChar (n % base) :: acc)

/-- The text `operator<<` writes for an unsigned number in base `base`.  The
fuel `n + 1` covers the digits of `n`. -/
def printNat (base n : Nat) : List Char :=
  printDigits base (n + 1) n []

/-- The text `operator<<` writes for an `int` or a `long` under `std::dec`. -/
def printDec (z : Int) : List Char :=
  if z < 0 then '-' :: printNat 10 (-z).toNat else printNat 10 z.toNat

/-- The text `operator<<` writes for a `long` under `std::hex`: the digits of
its 64-bit two's-complement representation. -/
def printHex (z : Int) : List Char :=
  printNat 16 (z % 2 ^ 64).toNat

/-- Lines 521-523 of `main`: the line the scanner writes for a record, without
the end of line. -/
def recordLine (r : JpgRecord) : List Char :=
  [']', ' '] ++ printHex r.jpgFileBlockNum ++ [' '] ++ printDec r.jpgFileLength ++
    [' ', '0', '0', '/', ' ', 'F', 'i', 'l', 'e'] ++ printDec r.fileCount ++
    ['.', 'j', 'p', 'g', ';', '1']


/-! ## What the scanner has written when it stops

The records go to the output file one by one (line 521), so those written
before an exception stay written.  The functions below are the loops of the
scanner once more, giving the records written together with the state the loop
ends in or the exception that ends it. -/

/-- Lines 412-530 of `main`: the loop over the blocks of a buffer, with `n`
rounds left from index `i`; the records written, and the state or the
exception the loop ends with. -/
def blocksWritten (f1First : Nat) (buf1 : List Nat) :
    Nat → Nat → ScanState → List JpgRecord × Except ScanError ScanState
  | 0, _, st => ([], .ok st)
  | n + 1, i, st =>
    match scanBlock f1First i (blockOf buf1 i) st with
    | .error e => ([], .error e)
    | .ok (st1, rec) =>
      match blocksWritten f1First buf1 n (i + 1) st1 with
      | (recs, res) => (rec.toList ++ recs, res)

/-- Lines 398-532 of `main`: the loop `while (f1First < f1Last)` over the
buffers of an interval, for a buffer of `bufsize` bytes; the records written,
and the state or the exception the loop ends with. -/
def scanWritten (bufsize : Nat) (f1Iso : List Nat) :
    Nat → Nat → Nat → ScanState → List JpgRecord × Except ScanError ScanState
  | 0, _, _, st => ([], .ok st)
  | fuel + 1, f1First, f1Last, st =>
    if f1First < f1Last then
      let toRead := min (f1Last - f1First) bufsize
      let buf1 := readAt f1Iso f1First toRead
      if buf1.length ≠ toRead then ([], .error (.failedRead f1First toRead))
      else
        let numBlocks := toInt32 (toRead / CDROM_BLOCK_SIZE)
        match blocksWritten f1First buf1 numBlocks.toNat 0 st with
        | (recs, .error e) => (recs, .error e)
        | (recs, .ok st1) =>
          match scanWritten bufsize f1Iso fuel (f1First + toRead) f1Last st1 with
          | (recs2, res) => (recs ++ recs2, res)
    else ([], .ok st)

/-- Lines 390-532 of `main`: the body of the loop over `f1Map` for the entry
`itor`, the count of files found so far being `fileCount`; the records
written, and the state or the exception the scan of the interval ends with. -/
def intervalWritten (bufsize : Nat) (f1Iso : List Nat) (fileCount : Int) (itor : Nat × Nat) :
    List JpgRecord × Except ScanError ScanState :=
  let f1First := itor.1
  let f1Last := (f1First + itor.2) % ADR_MOD
  scanWritten bufsize f1Iso (f1Last - f1First) f1First f1Last
    { jpgfileInProgress := .NO_FILE, jpgFileLength := 0, jpgFileBlockNum := 0, skipping := 0,
      fileCount := fileCount }

/-- Lines 385-533 of `main`: the loop of the scanner over `f1Map`; the records
written, and the exception that ends the loop if one does. -/
def scanMapWrittenLoop (bufsize : Nat) (f1Iso : List Nat) :
    Int → AdrMap_t → List JpgRecord × Option ScanError
  | _, [] => ([], none)
  | fileCount, itor :: rest =>
    match intervalWritten bufsize f1Iso fileCount itor with
    | (recs, .error e) => (recs, some e)
    | (recs, .ok st) =>
      match scanMapWrittenLoop bufsize f1Iso st.fileCount rest with
      | (recs2, res) => (recs ++ recs2, res)

/-- The scanner of `main` on the compacted map: the records it has written when
it stops, and the exception that stops it if one does. -/
def scanMapWritten (f1Map : AdrMap_t) (f1Iso : List Nat) : List JpgRecord × Option ScanError :=
  scanMapWrittenLoop BUFSIZE f1Iso 0 f1Map

/-! ## Predicates on rescue maps -/

/-- Byte address `x` belongs to the interval `e = (start, length)`. -/
def inRange (e : Nat × Nat) (x : Nat) : Prop := e.1 ≤ x ∧ x < e.1 + e.2

/-- Keys strictly ascending: what iteration over a `std::map` delivers. -/
def SortedKeys (m : AdrMap_t) : Prop := m.Pairwise (fun x y => x.1 < y.1)

/-- Consecutive intervals are separated by at least one byte. -/
def Gapped (m : AdrMap_t) : Prop := m.Pairwise (fun x y => x.1 + x.2 < y.1)

/-- Every interval has a positive length. -/
def Positive (m : AdrMap_t) : Prop := ∀ e ∈ m, 0 < e.2

/-- Every interval ends below `2 ^ 64`: `first + second` does not wrap. -/
def EndsFit (m : AdrMap_t) : Prop := ∀ e ∈ m, e.1 + e.2 < ADR_MOD

/-- No byte address belongs to two different intervals of the map. -/
def NonOverlapping (m : AdrMap_t) : Prop :=
  ∀ x ∈ m, ∀ y ∈ m, x ≠ y → ∀ a, ¬ (inRange x a ∧ inRange y a)

/-- The invariant of the map `readLog` builds, as long as no range end wraps. -/
def LogInv (m : AdrMap_t) : Prop := Gapped m ∧ Positive m ∧ EndsFit m

/-- The line does not hold a rescued (`+`) range whose end `addr + len` reaches
`2 ^ 64`. -/
def lineFits (l : List Char) : Bool :=
  match sscanfLog l with
  | some (a, n, c) => c != '+' || decide (a + n < ADR_MOD)
  | none => true

/-- No line of the log holds a rescued range whose end `addr + len` wraps. -/
def NoWrap (lines : List (List Char)) : Prop := ∀ l ∈ lines, lineFits l = true

/-- The range `r` overlaps the interval `e` (they share a byte address) or
exactly touches it (`e.start + e.length == r.start` or
`r.start + r.length == e.start`). -/
def Conflicts (e r : Nat × Nat) : Prop :=
  (∃ x, inRange e x ∧ inRange r x) ∨ e.1 + e.2 = r.1 ∨ r.1 + r.2 = e.1

instance (m : AdrMap_t) : Decidable (SortedKeys m) :=
  inferInstanceAs (Decidable (m.Pairwise (fun x y : Nat × Nat => x.1 < y.1)))

instance (m : AdrMap_t) : Decidable (Gapped m) :=
  inferInstanceAs (Decidable (m.Pairwise (fun x y : Nat × Nat => x.1 + x.2 < y.1)))

instance (m : AdrMap_t) : Decidable (Positive m) :=
  inferInstanceAs (Decidable (∀ e ∈ m, 0 < e.2))

instance (m : AdrMap_t) : Decidable (EndsFit m) :=
  inferInstanceAs (Decidable (∀ e ∈ m, e.1 + e.2 < ADR_MOD))

instance (lines : List (List Char)) : Decidable (NoWrap lines) :=
  inferInstanceAs (Decidable (∀ l ∈ lines, lineFits l = true))

/-- Consecutive intervals do not overlap (they may touch). -/
def DisjointRuns (m : AdrMap_t) : Prop := m.Pairwise (fun x y => x.1 + x.2 ≤ y.1)

instance (m : AdrMap_t) : Decidable (DisjointRuns m) :=
  inferInstanceAs (Decidable (m.Pairwise (fun x y : Nat × Nat => x.1 + x.2 ≤ y.1)))

/-- The intersection `[max(starts), min(ends))` of two intervals, as the pair
`(begin, end)`, when it is not empty. -/
def intersection (a b : Nat × Nat) : Option (Nat × Nat) :=
  if max a.1 b.1 < min (a.1 + a.2) (b.1 + b.2) then
    some (max a.1 b.1, min (a.1 + a.2) (b.1 + b.2))
  else none

/-- The non-empty intersections of all pairs `(a, b)` with `a` in `A` and `b`
in `B`, one for each pair, by `a` and then by `b`. -/
def allIntersections : AdrMap_t → AdrMap_t → List (Nat × Nat)
  | [], _ => []
  | a :: rest, B => B.filterMap (intersection a) ++ allIntersections rest B

/-- The comparison loop of one overlap, run on a list of overlaps in turn until
the first exception. -/
def compareAll (sz : Nat) (f1Iso f2Iso : List Nat) : List (Nat × Nat) → Except CmpError Unit
  | [] => .ok ()
  | o :: os =>
    match compareLoop sz f1Iso f2Iso (o.2 - o.1) o.1 o.2 with
    | .error e => .error e
    | .ok _ => compareAll sz f1Iso f2Iso os

/-- Byte address `d` lies inside an overlap of the two maps: in an interval of
`A` and in an interval of `B`. -/
def inOverlap (A B : AdrMap_t) (d : Nat) : Prop :=
  ∃ a ∈ A, ∃ b ∈ B, inRange a d ∧ inRange b d

/-- The keys and lengths of the map are values of `AdrType_t`. -/
def Typed (m : AdrMap_t) : Prop := ∀ e ∈ m, e.1 < ADR_MOD ∧ e.2 < ADR_MOD

instance (m : AdrMap_t) : Decidable (Typed m) :=
  inferInstanceAs (Decidable (∀ e ∈ m, e.1 < ADR_MOD ∧ e.2 < ADR_MOD))

/-- The intervals of the map whose end `first + second` does not wrap. -/
def fitting (m : AdrMap_t) : AdrMap_t := m.filter (fun e => decide (e.1 + e.2 < ADR_MOD))

/-- The reported overlaps `(begin, end)` with `end > begin`, those on which the
comparison loop does something. -/
def nonEmpties (os : List (Nat × Nat)) : List (Nat × Nat) :=
  os.filter (fun o => decide (o.1 < o.2))


/-! ## The transition table of the signature scanner, as specified -/

/-- The table for the state `InProgress`: `0xFF` leads to `Found0xFF`, anything
else stays in `InProgress`. -/
def tableInProgress (c : Nat) : JpgState :=
  if c = 0xFF then .FOUND_0XFF else .IN_PROGRESS

/-- The table for the state `Found0xFF`: `0xD9` leads to `Complete`, `0xFF`
stays, `0x00` and the restart markers `0xD0` to `0xD7` lead to `InProgress`;
otherwise a high nibble among `0xC`, `0xD`, `0xE`, `0xF` leads to `FoundLenHi`
(`FOUND_BC0`), anything else to `InProgress`. -/
def tableFound0xFF (c : Nat) : JpgState :=
  if c = 0xD9 then .COMPLETE
  else if c = 0xFF then .FOUND_0XFF
  else if c = 0x00 then .IN_PROGRESS
  else if 0xD0 ≤ c ∧ c ≤ 0xD7 then .IN_PROGRESS
  else if c / 16 = 0xC ∨ c / 16 = 0xD ∨ c / 16 = 0xE ∨ c / 16 = 0xF then .FOUND_BC0
  else .IN_PROGRESS

/-! ## Predicates on the scanner -/

/-- A file is in progress: the state is neither `NO_FILE` nor `COMPLETE`. -/
def Active (st : ScanState) : Prop :=
  st.jpgfileInProgress ≠ .NO_FILE ∧ st.jpgfileInProgress ≠ .COMPLETE

/-- The bytes of the image at address `h` are a JPEG header as line 421 and
line 430 test it: `FF D8 FF E0`, two bytes of length, then `JFIF` and a zero
byte. -/
def headerAt (f1Iso : List Nat) (h : Nat) : Prop :=
  f1Iso[h]? = some 0xFF ∧ f1Iso[h + 1]? = some 0xD8 ∧ f1Iso[h + 2]? = some 0xFF ∧
    f1Iso[h + 3]? = some 0xE0 ∧ f1Iso[h + 6]? = some 0x4A ∧ f1Iso[h + 7]? = some 0x46 ∧
    f1Iso[h + 8]? = some 0x49 ∧ f1Iso[h + 9]? = some 0x46 ∧ f1Iso[h + 10]? = some 0

/-- The record `r` stands for a file of the interval `[s, s + len)`: its header
is in the block at address `h`, the byte `D9` of its end-of-image marker is
the byte `k` of the block at address `a`, both blocks whole blocks of the
interval on block boundaries; the length written is the number of bytes from
`h` to that byte inclusive, and the block number written is `h / 2048`
whenever that fits an `int`. -/
def RecordOK (f1Iso : List Nat) (s len : Nat) (r : JpgRecord) : Prop :=
  ∃ h a k, s ≤ h ∧ h ≤ a ∧ CDROM_BLOCK_SIZE ∣ h ∧ CDROM_BLOCK_SIZE ∣ a ∧ k < CDROM_BLOCK_SIZE ∧
    a + CDROM_BLOCK_SIZE ≤ s + len ∧ headerAt f1Iso h ∧ f1Iso[a + k]? = some 0xD9 ∧
    r.jpgFileLength = ((a - h + k + 1 : Nat) : Int) ∧
    (h / CDROM_BLOCK_SIZE < 2 ^ 31 → r.jpgFileBlockNum = ((h / CDROM_BLOCK_SIZE : Nat) : Int))

/-- The invariant of the scanner at the start of the block at address `a` of an
interval that starts at `s`: either no file is in progress, or one is whose
header is in the block at address `h` before `a`, with `jpgFileLength` the
distance from `h` to `a`. -/
def ScanInv (f1Iso : List Nat) (s : Nat) (st : ScanState) (a : Nat) : Prop :=
  st.jpgfileInProgress = .NO_FILE ∨
    (Active st ∧ ∃ h, s ≤ h ∧ h < a ∧ CDROM_BLOCK_SIZE ∣ h ∧ CDROM_BLOCK_SIZE ∣ a ∧
      headerAt f1Iso h ∧ st.jpgFileLength = ((a - h : Nat) : Int) ∧
      (h / CDROM_BLOCK_SIZE < 2 ^ 31 → st.jpgFileBlockNum = ((h / CDROM_BLOCK_SIZE : Nat) : Int)))

/-- The block starts with a JPEG header as line 421 and line 430 test it. -/
def blockHeader (block : List Nat) : Prop :=
  block.getD 0 0 = 0xFF ∧ block.getD 1 0 = 0xD8 ∧ block.getD 2 0 = 0xFF ∧
    block.getD 3 0 = 0xE0 ∧ block.getD 6 0 = 0x4A ∧ block.getD 7 0 = 0x46 ∧
    block.getD 8 0 = 0x49 ∧ block.getD 9 0 = 0x46 ∧ block.getD 10 0 = 0

instance (block : List Nat) : Decidable (blockHeader block) := by
  unfold blockHeader
  infer_instance

/-- The state the case `NO_FILE` leaves when it finds a header (lines 443-449). -/
def headerState (f1First i : Nat) (st : ScanState) : ScanState :=
  { st with jpgFileBlockNum := toInt32 (f1First / CDROM_BLOCK_SIZE) + i, jpgFileLength := 0,
            jpgfileInProgress := .IN_PROGRESS, fileCount := st.fileCount + 1 }

/-- The position the case `NO_FILE` leaves when it finds a header (lines
440-442): past the segment whose length is in bytes 4 and 5 of the block. -/
def headerSkip (block : List Nat) : Nat :=
  ((block.getD 5 0 &&& 0xFF) ||| ((block.getD 4 0 <<< 8) &&& 0xFF00)) + 4

/-- An example block: a JPEG header whose first segment is 16 bytes long, a
segment `FF E1` of length 4 whose two bytes of content are `FF D9`, and the
end-of-image marker `FF D9` in bytes 28 and 29. -/
def jfifBlock : List Nat :=
  [0xFF, 0xD8, 0xFF, 0xE0, 0x00, 0x10, 0x4A, 0x46, 0x49, 0x46, 0x00] ++ List.replicate 9 1 ++
    [5, 0xFF, 0xE1, 0, 4, 0xFF, 0xD9, 7, 0xFF, 0xD9] ++ List.replicate 2018 0

/-- An example block: a JPEG header whose first segment is 16 bytes long,
followed by zero bytes to the end of the block. -/
def headerBlock : List Nat :=
  [0xFF, 0xD8, 0xFF, 0xE0, 0x00, 0x10, 0x4A, 0x46, 0x49, 0x46, 0x00] ++ List.replicate 2037 0

/-- An example block: three zero bytes, the end-of-image marker `FF D9` in
bytes 3 and 4, and zero bytes to the end of the block. -/
def eoiBlock : List Nat :=
  [0, 0, 0, 0xFF, 0xD9] ++ List.replicate 2043 0


/-! ## Predicates on the catalog parser -/

/-- A character of the fields of a line that is neither white space nor one of
the characters the parser looks for. -/
def PlainChar (c : Char) : Prop :=
  isspace c = false ∧ c ≠ '\x00' ∧ c ≠ ';' ∧ c ≠ 'x' ∧ c ≠ 'X' ∧ c ≠ '-' ∧ c ≠ '+'

instance (c : Char) : Decidable (PlainChar c) := by
  unfold PlainChar
  infer_instance

/-- The name the scanner gives the file of a record. -/
def recordName (r : JpgRecord) : List Char :=
  ['F', 'i', 'l', 'e'] ++ printDec r.fileCount ++ ['.', 'j', 'p', 'g']

/-! ## The rescued ranges of a log, as specified -/

/-- The line passes the tests of lines 555-556 of `readLog`: it is not empty
and its first character is not `#`.  A line of white space passes. -/
def isContent (l : List Char) : Bool :=
  match l with
  | [] => false
  | c :: _ => c != '#'

/-- The lines that come after the first line that is neither empty nor
starting with `#`, without the empty lines and the lines starting with `#`. -/
def dataLines (lines : List (List Char)) : List (List Char) :=
  (lines.filter isContent).drop 1

/-- A blank line in the usual sense of the word: it holds no character other
than white space. -/
def isBlank (l : List Char) : Bool := l.all isspace

/-- A comment line: its first character is `#`. -/
def isComment (l : List Char) : Bool :=
  match l with
  | [] => false
  | c :: _ => c == '#'

/-- The lines that come after the first non-comment, non-blank line, without
the comment lines and the blank lines, a blank line being one of white space
only: the data lines in the words of the specification. -/
def statedDataLines (lines : List (List Char)) : List (List Char) :=
  (lines.filter (fun l => !isComment l && !isBlank l)).drop 1

/-- The range of a line that parses as hexadecimal address, hexadecimal length
and status character with the status `+`; `none` for any other line. -/
def plusRange (l : List Char) : Option (Nat × Nat) :=
  match sscanfLog l with
  | some (addr, len, stat) => if stat = '+' then some (addr, len) else none
  | none => none

/-- The `(address, length)` pairs of the rescued ranges of a log, in the order
of the lines. -/
def plusRanges (lines : List (List Char)) : List (Nat × Nat) :=
  (dataLines lines).filterMap plusRange

/-- The `(address, length)` pairs of the rescued ranges among the data lines in
the words of the specification, in the order of the lines. -/
def statedRanges (lines : List (List Char)) : List (Nat × Nat) :=
  (statedDataLines lines).filterMap plusRange

/-- For every pair of consecutive intervals of the map, the end of the first as
the program computes it, in unsigned 64-bit arithmetic, is below the start of
the second. -/
def ModGapped (m : AdrMap_t) : Prop :=
  List.Chain' (fun x y : Nat × Nat => (x.1 + x.2) % ADR_MOD < y.1) m


/-! ## Predicates on the comparator -/

/-- The end `first + second` of an interval as the program computes it, in
unsigned 64-bit arithmetic. -/
def modEnd (e : Nat × Nat) : Nat := (e.1 + e.2) % ADR_MOD

/-- The start and the length line 270 prints for an overlap `(begin, end)`:
`begin` and `end - begin`, in unsigned 64-bit arithmetic. -/
def reported (o : Nat × Nat) : Nat × Nat := (o.1, (o.2 + ADR_MOD - o.1) % ADR_MOD)


/-! ## The scan of an interval block by block, as specified -/

/-- The `n` whole blocks of the image from the address `a` on, fed one after
another to the per-block state machine `scanBlock`, the state carried over;
the records written, and the state or the exception the scan ends with. -/
def blocksRef (f1Iso : List Nat) :
    Nat → Nat → ScanState → List JpgRecord × Except ScanError ScanState
  | 0, _, st => ([], .ok st)
  | n + 1, a, st =>
    match scanBlock a 0 (readAt f1Iso a CDROM_BLOCK_SIZE) st with
    | .error e => ([], .error e)
    | .ok (st1, rec) =>
      match blocksRef f1Iso n (a + CDROM_BLOCK_SIZE) st1 with
      | (recs, res) => (rec.toList ++ recs, res)

/-- The whole blocks of the interval `itor` fed one after another to the
per-block state machine, from the state `NO_FILE`. -/
def intervalRef (f1Iso : List Nat) (fileCount : Int) (itor : Nat × Nat) :
    List JpgRecord × Except ScanError ScanState :=
  blocksRef f1Iso (itor.2 / CDROM_BLOCK_SIZE) itor.1
    { jpgfileInProgress := .NO_FILE, jpgFileLength := 0, jpgFileBlockNum := 0, skipping := 0,
      fileCount := fileCount }

/-- Two results of a scan are the same but for the address an exception
names: the same records written, and the same state at the end or an exception
in both. -/
def SameScan (r1 r2 : List JpgRecord × Except ScanError ScanState) : Prop :=
  r1.1 = r2.1 ∧ r1.2.toOption = r2.2.toOption

/-- One scan followed by another from the state the first one ends in, when it
ends without an exception. -/
def andThenScan (r : List JpgRecord × Except ScanError ScanState)
    (f : ScanState → List JpgRecord × Except ScanError ScanState) :
    List JpgRecord × Except ScanError ScanState :=
  match r with
  | (recs, .error e) => (recs, .error e)
  | (recs, .ok st1) =>
    match f st1 with
    | (recs2, res) => (recs ++ recs2, res)

/-! ## Lemmas on `lower_bound`, `mapAssign` and `insertRange` -/

theorem lower_bound_split (m : AdrMap_t) (k : Nat) (hs : SortedKeys m) :
    ∃ l r, m = l ++ r ∧ lower_bound m k = l.length ∧ (∀ e ∈ l, e.1 < k) ∧ (∀ e ∈ r, k ≤ e.1) := by
  induction m with
  | nil => exact ⟨[], [], rfl, rfl, by simp, by simp⟩
  | cons e es ih =>
    have hs' := List.pairwise_cons.mp hs
    by_cases h : e.1 < k
    · obtain ⟨l, r, hm, hl, h1, h2⟩ := ih hs'.2
      refine ⟨e :: l, r, by simp [hm], by simp [lower_bound, h, hl], ?_, h2⟩
      intro x hx
      rcases List.mem_cons.mp hx with rfl | hx
      · exact h
      · exact h1 x hx
    · refine ⟨[], e :: es, rfl, by simp [lower_bound, h], by simp, ?_⟩
      intro x hx
      rcases List.mem_cons.mp hx with rfl | hx
      · omega
      · have := hs'.1 x hx; omega

theorem get?_split (l r : AdrMap_t) : (l ++ r).get? l.length = r.head? := by
  induction l with
  | nil => cases r <;> rfl
  | cons a l ih => simpa using ih

theorem prevEntry_split (l r : AdrMap_t) : prevEntry (l ++ r) l.length = l.getLast? := by
  induction l with
  | nil => rfl
  | cons a l ih =>
    cases l with
    | nil => simp [prevEntry]
    | cons b l =>
      simp only [prevEntry, List.length_cons, List.cons_append, List.get?_cons_succ] at ih ⊢
      rw [ih]; simp [List.getLast?_cons_cons]

theorem mapAssign_split (l r : AdrMap_t) (k v : Nat) (h1 : ∀ e ∈ l, e.1 < k)
    (h2 : ∀ e ∈ r, k < e.1) : mapAssign (l ++ r) k v = l ++ (k, v) :: r := by
  induction l with
  | nil =>
    cases r with
    | nil => rfl
    | cons b r => simp [mapAssign, h2 b (by simp)]
  | cons a l ih =>
    have ha := h1 a (by simp)
    have : ¬ k < a.1 := by omega
    have : ¬ k = a.1 := by omega
    simp [mapAssign, *]
    exact ih (fun e he => h1 e (by simp [he]))

theorem sortedKeys_of_gapped {m : AdrMap_t} (h : Gapped m) : SortedKeys m :=
  List.Pairwise.imp (R := fun x y : Nat × Nat => x.1 + x.2 < y.1)
    (S := fun x y : Nat × Nat => x.1 < y.1) (fun hab => by omega) h

theorem checkNext_split (l r : AdrMap_t) (addr len : Nat)
    (hl : lower_bound (l ++ r) addr = l.length) :
    checkNext (l ++ r) addr len =
      match r.head? with
      | some e => if e.1 ≤ (addr + len) % ADR_MOD then some (.overlap e (addr, len)) else none
      | none => none := by
  simp only [checkNext, hl, get?_split]

theorem checkPrev_split (l r : AdrMap_t) (addr len : Nat)
    (hl : lower_bound (l ++ r) addr = l.length) :
    checkPrev (l ++ r) addr len =
      match l.getLast? with
      | some p => if addr ≤ (p.1 + p.2) % ADR_MOD then some (.overlap p (addr, len)) else none
      | none => none := by
  simp only [checkPrev, hl, prevEntry_split]

/-- The two tests of `insertRange` read off a split of the map at `addr`. -/
theorem insertRange_split (l r : AdrMap_t) (addr len : Nat)
    (hl : lower_bound (l ++ r) addr = l.length) :
    insertRange (l ++ r) addr len =
      if len = 0 then .error (.zeroLength addr)
      else
        match r.head? with
        | some e =>
          if e.1 ≤ (addr + len) % ADR_MOD then .error (.overlap e (addr, len))
          else
            match l.getLast? with
            | some p =>
              if addr ≤ (p.1 + p.2) % ADR_MOD then .error (.overlap p (addr, len))
              else .ok (mapAssign (l ++ r) addr len)
            | none => .ok (mapAssign (l ++ r) addr len)
        | none =>
          match l.getLast? with
          | some p =>
            if addr ≤ (p.1 + p.2) % ADR_MOD then .error (.overlap p (addr, len))
            else .ok (mapAssign (l ++ r) addr len)
          | none => .ok (mapAssign (l ++ r) addr len) := by
  unfold insertRange
  by_cases h0 : len = 0
  · simp [h0]
  · simp only [h0, if_false]
    by_cases he : (l ++ r).isEmpty = true
    · have : l ++ r = [] := by simpa using he
      obtain ⟨rfl, rfl⟩ := List.append_eq_nil.mp this
      simp
    · simp only [he, checkNext_split l r addr len hl, checkPrev_split l r addr len hl]
      cases hr : r.head? with
      | none =>
        cases hp : l.getLast? with
        | none => simp
        | some p => by_cases hc : addr ≤ (p.1 + p.2) % ADR_MOD <;> simp [hc]
      | some e =>
        by_cases hn : e.1 ≤ (addr + len) % ADR_MOD
        · simp [hn]
        · cases hp : l.getLast? with
          | none => simp [hn]
          | some p => by_cases hc : addr ≤ (p.1 + p.2) % ADR_MOD <;> simp [hc, hn]

theorem insertRange_ok_iff (l r : AdrMap_t) (addr len : Nat) (m' : AdrMap_t)
    (hl : lower_bound (l ++ r) addr = l.length) :
    insertRange (l ++ r) addr len = .ok m' ↔
      len ≠ 0 ∧ (∀ e, r.head? = some e → (addr + len) % ADR_MOD < e.1) ∧
      (∀ p, l.getLast? = some p → (p.1 + p.2) % ADR_MOD < addr) ∧
      m' = mapAssign (l ++ r) addr len := by
  rw [insertRange_split l r addr len hl]
  by_cases h0 : len = 0
  · simp [h0]
  · simp only [h0, if_false, ne_eq, not_false_eq_true, true_and]
    cases hr : r.head? with
    | none =>
      cases hp : l.getLast? with
      | none => simp [eq_comm]
      | some p =>
        by_cases hc : addr ≤ (p.1 + p.2) % ADR_MOD
        · simp [hc]
        · simp [hc, eq_comm, Nat.lt_of_not_le hc]
    | some e =>
      by_cases hn : e.1 ≤ (addr + len) % ADR_MOD
      · simp [hn]
      · cases hp : l.getLast? with
        | none => simp [hn, eq_comm, Nat.lt_of_not_le hn]
        | some p =>
          by_cases hc : addr ≤ (p.1 + p.2) % ADR_MOD
          · simp [hc, hn]
          · simp [hc, hn, eq_comm, Nat.lt_of_not_le hn, Nat.lt_of_not_le hc]

theorem insertRange_ok_or_error (m : AdrMap_t) (addr len : Nat) :
    insertRange m addr len = .ok (mapAssign m addr len) ∨
      ∃ err, insertRange m addr len = .error err := by
  unfold insertRange
  split
  · exact Or.inr ⟨_, rfl⟩
  · split
    · exact Or.inl rfl
    · split
      · exact Or.inr ⟨_, rfl⟩
      · split
        · exact Or.inr ⟨_, rfl⟩
        · exact Or.inl rfl

theorem getLast?_gapped {l : AdrMap_t} {p : Nat × Nat} (hg : Gapped l)
    (hp : l.getLast? = some p) : ∀ e ∈ l, e = p ∨ e.1 + e.2 < p.1 := by
  intro e he
  obtain ⟨l', rfl⟩ : ∃ l', l = l' ++ [p] := by
    rcases List.eq_nil_or_concat l with h | ⟨l', b, h⟩
    · simp [h] at hp
    · subst h; simp at hp; subst hp; exact ⟨l', by simp⟩
  rcases List.mem_append.mp he with h | h
  · right
    exact (List.pairwise_append.mp hg).2.2 e h p (by simp)
  · left; simpa using h

theorem head?_gapped {r : AdrMap_t} {h : Nat × Nat} (hg : Gapped r)
    (hh : r.head? = some h) : ∀ e ∈ r, e = h ∨ h.1 + h.2 < e.1 := by
  intro e he
  cases r with
  | nil => simp at hh
  | cons a r =>
    simp at hh; subst hh
    rcases List.mem_cons.mp he with h | h
    · exact Or.inl h
    · exact Or.inr ((List.pairwise_cons.mp hg).1 e h)

/-- An accepted range lands between its neighbours and keeps the gaps. -/
theorem insertRange_ok_gapped (m : AdrMap_t) (addr len : Nat) (m' : AdrMap_t)
    (hg : Gapped m) (hb : EndsFit m) (hlen : addr + len < ADR_MOD)
    (h : insertRange m addr len = .ok m') :
    0 < len ∧ ∃ l r, m = l ++ r ∧ m' = l ++ (addr, len) :: r ∧ Gapped m' := by
  obtain ⟨l, r, rfl, hl, h1, h2⟩ := lower_bound_split m addr (sortedKeys_of_gapped hg)
  obtain ⟨h0, hn, hp, rfl⟩ := (insertRange_ok_iff l r addr len m' hl).mp h
  have hgl := (List.pairwise_append.mp hg).1
  have hgr := (List.pairwise_append.mp hg).2.1
  have hr : ∀ e ∈ r, addr + len < e.1 := by
    intro e he
    cases hh : r.head? with
    | none => cases r <;> simp_all
    | some x =>
      have := hn x hh
      rw [Nat.mod_eq_of_lt hlen] at this
      rcases head?_gapped hgr hh e he with rfl | h'
      · exact this
      · omega
  have hl' : ∀ e ∈ l, e.1 + e.2 < addr := by
    intro e he
    cases hh : l.getLast? with
    | none => simp [List.getLast?_eq_none_iff] at hh; simp [hh] at he
    | some p =>
      have hpm : p ∈ l := List.mem_of_getLast?_eq_some hh
      have := hp p hh
      rw [Nat.mod_eq_of_lt (hb p (by simp [hpm]))] at this
      rcases getLast?_gapped hgl hh e he with rfl | h'
      · exact this
      · omega
  have hm : mapAssign (l ++ r) addr len = l ++ (addr, len) :: r :=
    mapAssign_split l r addr len h1 (fun e he => by have := hr e he; omega)
  refine ⟨by omega, l, r, rfl, hm, ?_⟩
  rw [hm]
  refine List.pairwise_append.mpr ⟨hgl, List.pairwise_cons.mpr ⟨fun e he => hr e he, hgr⟩, ?_⟩
  intro a ha b hb'
  rcases List.mem_cons.mp hb' with rfl | hb'
  · exact hl' a ha
  · exact (List.pairwise_append.mp hg).2.2 a ha b hb'

theorem nonOverlapping_of_gapped {m : AdrMap_t} (h : Gapped m) : NonOverlapping m := by
  intro x hx y hy hxy a ⟨h1, h2⟩
  have hsym : m.Pairwise (fun x y : Nat × Nat => x.1 + x.2 < y.1 ∨ y.1 + y.2 < x.1) :=
    List.Pairwise.imp (R := fun x y : Nat × Nat => x.1 + x.2 < y.1) (fun hab => Or.inl hab) h
  have := List.Pairwise.forall (fun _ _ hab => Or.symm hab) hsym hx hy hxy
  unfold inRange at h1 h2
  omega

theorem insertRange_inv (m : AdrMap_t) (addr len : Nat) (m' : AdrMap_t) (hi : LogInv m)
    (hlen : addr + len < ADR_MOD) (h : insertRange m addr len = .ok m') : LogInv m' := by
  obtain ⟨hg, hp, hb⟩ := hi
  obtain ⟨h0, l, r, rfl, rfl, hg'⟩ := insertRange_ok_gapped m addr len m' hg hb hlen h
  refine ⟨hg', ?_, ?_⟩
  · intro e he
    rcases List.mem_append.mp he with h | h
    · exact hp e (by simp [h])
    · rcases List.mem_cons.mp h with rfl | h
      · exact h0
      · exact hp e (by simp [h])
  · intro e he
    rcases List.mem_append.mp he with h | h
    · exact hb e (by simp [h])
    · rcases List.mem_cons.mp h with rfl | h
      · exact hlen
      · exact hb e (by simp [h])

theorem readLogLine_inv (st st' : LogState) (line : List Char) (hi : LogInv st.res)
    (hno : lineFits line = true)
    (h : readLogLine st line = .ok st') : LogInv st'.res := by
  unfold readLogLine at h
  split at h
  · cases h; exact hi
  · split at h
    · cases h; exact hi
    · split at h
      · cases h; exact hi
      · split at h
        · cases h; exact hi
        · rename_i addr len stat hs
          split at h
          · cases h; exact hi
          · rename_i hstat
            have hstat' : stat = '+' := by simpa using hstat
            subst hstat'
            split at h
            · cases h
            · rename_i res hres
              cases h
              have hfit : addr + len < ADR_MOD := by
                simpa [lineFits, hs] using hno
              exact insertRange_inv _ addr len res hi hfit hres

theorem readLogLoop_inv (lines : List (List Char)) (st st' : LogState) (hi : LogInv st.res)
    (hno : NoWrap lines) (h : readLogLoop st lines = .ok st') : LogInv st'.res := by
  induction lines generalizing st with
  | nil => simp [readLogLoop] at h; subst h; exact hi
  | cons l ls ih =>
    simp only [readLogLoop] at h
    split at h
    · cases h
    · rename_i st1 h1
      exact ih st1 (readLogLine_inv st st1 l hi (hno l (by simp)) h1)
        (fun x hx => hno x (by simp [hx])) h

theorem readLog_inv (lines : List String) (m : AdrMap_t) (total : Nat)
    (hno : NoWrap (lines.map String.toList)) (h : readLog lines [] = .ok (m, total)) :
    LogInv m := by
  unfold readLog at h
  split at h
  · cases h
  · rename_i st hst
    cases h
    have hi : LogInv ([] : AdrMap_t) :=
      ⟨List.Pairwise.nil, fun e he => by simp at he, fun e he => by simp at he⟩
    exact readLogLoop_inv _ _ st hi hno hst

theorem conflicts_of_le {e r : Nat × Nat} (he : 0 < e.2) (hr : 0 < r.2)
    (h1 : e.1 ≤ r.1 + r.2) (h2 : r.1 ≤ e.1 + e.2) : Conflicts e r := by
  by_cases ha : e.1 + e.2 = r.1
  · exact Or.inr (Or.inl ha)
  · by_cases hb : r.1 + r.2 = e.1
    · exact Or.inr (Or.inr hb)
    · refine Or.inl ⟨max e.1 r.1, ?_, ?_⟩ <;> unfold inRange <;> omega

theorem le_of_conflicts {e r : Nat × Nat} (h : Conflicts e r) :
    e.1 ≤ r.1 + r.2 ∧ r.1 ≤ e.1 + e.2 := by
  rcases h with ⟨x, h1, h2⟩ | h | h
  · unfold inRange at h1 h2; omega
  · omega
  · omega

/-- Without a conflict the range is accepted and placed between its neighbours. -/
theorem insertRange_accepts (m : AdrMap_t) (addr len : Nat) (hg : Gapped m) (hp : Positive m)
    (hb : EndsFit m) (h0 : 0 < len) (hlen : addr + len < ADR_MOD)
    (hno : ¬ ∃ e ∈ m, Conflicts e (addr, len)) :
    ∃ l r, m = l ++ r ∧ (∀ e ∈ l, e.1 < addr) ∧ (∀ e ∈ r, addr < e.1) ∧
      insertRange m addr len = .ok (l ++ (addr, len) :: r) := by
  obtain ⟨l, r, rfl, hl, h1, h2⟩ := lower_bound_split m addr (sortedKeys_of_gapped hg)
  have hfree : ∀ e ∈ l ++ r, ¬ (e.1 ≤ addr + len ∧ addr ≤ e.1 + e.2) := by
    intro e he hc
    exact hno ⟨e, he, conflicts_of_le (hp e he) h0 hc.1 hc.2⟩
  have hr : ∀ e ∈ r, addr + len < e.1 := by
    intro e he
    have := hfree e (by simp [he])
    have := h2 e he
    omega
  have hm : mapAssign (l ++ r) addr len = l ++ (addr, len) :: r :=
    mapAssign_split l r addr len h1 (fun e he => by have := hr e he; omega)
  refine ⟨l, r, rfl, h1, fun e he => by have := hr e he; omega, ?_⟩
  rw [insertRange_ok_iff l r addr len _ hl]
  refine ⟨by omega, ?_, ?_, hm.symm⟩
  · intro e he
    rw [Nat.mod_eq_of_lt hlen]
    exact hr e (List.mem_of_mem_head? he)
  · intro p hpl
    have hpm : p ∈ l := List.mem_of_getLast?_eq_some hpl
    rw [Nat.mod_eq_of_lt (hb p (by simp [hpm]))]
    have := hfree p (by simp [hpm])
    have := h1 p hpm
    omega

/-- A range that conflicts with an interval of the map is rejected. -/
theorem insertRange_rejects (m : AdrMap_t) (addr len : Nat) (hg : Gapped m)
    (hb : EndsFit m) (hlen : addr + len < ADR_MOD)
    (hc : ∃ e ∈ m, Conflicts e (addr, len)) :
    ∃ err, insertRange m addr len = .error err := by
  rcases insertRange_ok_or_error m addr len with hok | herr
  · exfalso
    obtain ⟨e, he, hce⟩ := hc
    obtain ⟨_, l, r, rfl, hm', hg'⟩ := insertRange_ok_gapped m addr len _ hg hb hlen hok
    rw [hm'] at hg'
    have hle := le_of_conflicts hce
    simp only at hle
    rcases List.mem_append.mp he with h | h
    · have := (List.pairwise_append.mp hg').2.2 e h (addr, len) (by simp)
      simp only at this
      omega
    · have := (List.pairwise_cons.mp (List.pairwise_append.mp hg').2.1).1 e h
      simp only at this
      omega
  · exact herr

/-- The exception of a rejected range names an interval of the map that the
range conflicts with. -/
theorem insertRange_error_names (m : AdrMap_t) (addr len : Nat) (err : LogError)
    (hg : Gapped m) (hp : Positive m) (hb : EndsFit m) (h0 : 0 < len)
    (hlen : addr + len < ADR_MOD) (h : insertRange m addr len = .error err) :
    ∃ e ∈ m, Conflicts e (addr, len) ∧ err = .overlap e (addr, len) := by
  obtain ⟨l, r, rfl, hl, h1, h2⟩ := lower_bound_split m addr (sortedKeys_of_gapped hg)
  rw [insertRange_split l r addr len hl, if_neg (by omega), Nat.mod_eq_of_lt hlen] at h
  have hprev : ∀ p, l.getLast? = some p → addr ≤ (p.1 + p.2) % ADR_MOD →
      ∃ e ∈ l ++ r, Conflicts e (addr, len) ∧ LogError.overlap p (addr, len) = .overlap e (addr, len) := by
    intro p hpl hc
    have hpm : p ∈ l := List.mem_of_getLast?_eq_some hpl
    rw [Nat.mod_eq_of_lt (hb p (by simp [hpm]))] at hc
    have := h1 p hpm
    exact ⟨p, by simp [hpm], conflicts_of_le (hp p (by simp [hpm])) h0 (by simp only; omega) hc, rfl⟩
  cases hr : r.head? with
  | none =>
    rw [hr] at h
    simp only at h
    cases hpl : l.getLast? with
    | none => rw [hpl] at h; cases h
    | some p =>
      rw [hpl] at h
      simp only at h
      split at h
      · rename_i hc
        cases h
        exact hprev p hpl hc
      · cases h
  | some e =>
    rw [hr] at h
    simp only at h
    have hem : e ∈ r := List.mem_of_mem_head? hr
    split at h
    · rename_i hc
      cases h
      have := h2 e hem
      exact ⟨e, by simp [hem], conflicts_of_le (hp e (by simp [hem])) h0 hc (by simp only; omega), rfl⟩
    · cases hpl : l.getLast? with
      | none => rw [hpl] at h; cases h
      | some p =>
        rw [hpl] at h
        simp only at h
        split at h
        · rename_i hc
          cases h
          exact hprev p hpl hc
        · cases h

/-! ## The rescue log parser: claims C1 and C2 -/

/-- C1 (as stated, refuted): `readLog` accepts the log whose data lines are
`fffffffffffffff0 10 +` and `fffffffffffffff8 4 +`, because the end of the
first range wraps to 0 in 64-bit arithmetic, and byte address
`0xfffffffffffffff8` then belongs to both intervals of the resulting map. -/
theorem readLog_accepts_overlap_at_wrap :
    readLog ["hdr", "fffffffffffffff0 10 +", "fffffffffffffff8 4 +"] [] =
        .ok ([(0xfffffffffffffff0, 16), (0xfffffffffffffff8, 4)], 20) ∧
      ¬ NonOverlapping [(0xfffffffffffffff0, 16), (0xfffffffffffffff8, 4)] := by
  refine ⟨by rfl, fun h => ?_⟩
  exact h (0xfffffffffffffff0, 16) (by simp) (0xfffffffffffffff8, 4) (by simp) (by decide)
    0xfffffffffffffff8 ⟨by unfold inRange; omega, by unfold inRange; omega⟩

/-- C1 (amended): for every rescue log that `readLog` accepts and in which no
rescued range has `addr + len` reaching `2 ^ 64`, the resulting map is well
formed: its intervals are sorted by start address, every interval has a
positive length, and no byte address belongs to two intervals. -/
theorem readLog_wellFormed (lines : List String) (m : AdrMap_t) (total : Nat)
    (hno : NoWrap (lines.map String.toList)) (h : readLog lines [] = .ok (m, total)) :
    SortedKeys m ∧ Positive m ∧ NonOverlapping m := by
  obtain ⟨hg, hp, _⟩ := readLog_inv lines m total hno h
  exact ⟨sortedKeys_of_gapped hg, hp, nonOverlapping_of_gapped hg⟩

/-- Witness of `readLog_wellFormed`: the log of the specification's example. -/
theorem readLog_wellFormed_witness :
    NoWrap (["hdr", "0 400 +", "400 200 -", "600 300 +"].map String.toList) ∧
      readLog ["hdr", "0 400 +", "400 200 -", "600 300 +"] [] =
        .ok ([(0, 0x400), (0x600, 0x300)], 0x400 + 0x300) ∧
      SortedKeys [(0, 0x400), (0x600, 0x300)] ∧ Positive [(0, 0x400), (0x600, 0x300)] ∧
      NonOverlapping [(0, 0x400), (0x600, 0x300)] :=
  ⟨by decide, by rfl,
    readLog_wellFormed ["hdr", "0 400 +", "400 200 -", "600 300 +"] _ _ (by decide) (by rfl)⟩

/-- C2 (as stated, refuted): the map `{0xfffffffffffffff0: 0x10}` is sorted, has
no overlapping or touching intervals, and the range `0xfffffffffffffff8, 4` has
a positive length and an end below `2 ^ 64`; the range overlaps the interval of
the map, yet it is accepted and inserted, because the end of the existing
interval wraps to 0. -/
theorem insertRange_accepts_conflict_at_wrap :
    Gapped [(0xfffffffffffffff0, 16)] ∧ Positive [(0xfffffffffffffff0, 16)] ∧
      0xfffffffffffffff8 + 4 < ADR_MOD ∧
      Conflicts (0xfffffffffffffff0, 16) (0xfffffffffffffff8, 4) ∧
      insertRange [(0xfffffffffffffff0, 16)] 0xfffffffffffffff8 4 =
        .ok [(0xfffffffffffffff0, 16), (0xfffffffffffffff8, 4)] := by
  refine ⟨by decide, by decide, by decide, ?_, by rfl⟩
  exact Or.inl ⟨0xfffffffffffffff8, by unfold inRange; omega, by unfold inRange; omega⟩

/-- C2 (amended): for every map whose intervals are sorted, separated by gaps
(neither overlapping nor touching), of positive length and all ending below
`2 ^ 64`, and every rescued range `addr len` with `len > 0` and
`addr + len < 2 ^ 64`, `readLog` rejects the range if and only if it overlaps or
exactly touches some interval of the map, the exception naming such an
interval and the range; otherwise the range is inserted at its place in key
order, after every interval of a smaller start and before every interval of a
larger one, and all existing intervals are left unchanged. -/
theorem insertRange_rejects_iff_conflict (m : AdrMap_t) (addr len : Nat) (hg : Gapped m)
    (hp : Positive m) (hb : EndsFit m) (h0 : 0 < len) (hlen : addr + len < ADR_MOD) :
    ((∃ err, insertRange m addr len = .error err) ↔ ∃ e ∈ m, Conflicts e (addr, len)) ∧
      (∀ err, insertRange m addr len = .error err →
        ∃ e ∈ m, Conflicts e (addr, len) ∧ err = .overlap e (addr, len)) ∧
      ((¬ ∃ e ∈ m, Conflicts e (addr, len)) →
        ∃ l r, m = l ++ r ∧ (∀ e ∈ l, e.1 < addr) ∧ (∀ e ∈ r, addr < e.1) ∧
          insertRange m addr len = .ok (l ++ (addr, len) :: r)) := by
  refine ⟨⟨fun herr => ?_, insertRange_rejects m addr len hg hb hlen⟩,
    fun err herr => insertRange_error_names m addr len err hg hp hb h0 hlen herr,
    insertRange_accepts m addr len hg hp hb h0 hlen⟩
  obtain ⟨err, herr⟩ := herr
  obtain ⟨e, he, hc, _⟩ := insertRange_error_names m addr len err hg hp hb h0 hlen herr
  exact ⟨e, he, hc⟩

/-- Witness of `insertRange_rejects_iff_conflict` on the map of the
specification's example: the range `0x400, 0x100` touches the first interval
and is rejected with the exception that names it; the range `0x450, 0x100`,
which lies in the gap, is inserted between the two intervals. -/
theorem insertRange_rejects_iff_conflict_witness :
    ((∃ e ∈ [(0, 0x400), (0x600, 0x300)], Conflicts e (0x400, 0x100)) ∧
      insertRange [(0, 0x400), (0x600, 0x300)] 0x400 0x100 =
        .error (.overlap (0, 0x400) (0x400, 0x100)) ∧
      ((∃ err, insertRange [(0, 0x400), (0x600, 0x300)] 0x400 0x100 = .error err) ↔
        ∃ e ∈ [(0, 0x400), (0x600, 0x300)], Conflicts e (0x400, 0x100))) ∧
    ((¬ ∃ e ∈ [(0, 0x400), (0x600, 0x300)], Conflicts e (0x450, 0x100)) ∧
      insertRange [(0, 0x400), (0x600, 0x300)] 0x450 0x100 =
        .ok [(0, 0x400), (0x450, 0x100), (0x600, 0x300)] ∧
      ∃ l r, [(0, 0x400), (0x600, 0x300)] = l ++ r ∧ (∀ e ∈ l, e.1 < 0x450) ∧
        (∀ e ∈ r, 0x450 < e.1) ∧
        insertRange [(0, 0x400), (0x600, 0x300)] 0x450 0x100 =
          .ok (l ++ (0x450, 0x100) :: r)) :=
  have hfree : ¬ ∃ e ∈ [(0, 0x400), (0x600, 0x300)], Conflicts e (0x450, 0x100) := by
    rintro ⟨e, he, hc⟩
    have hle := le_of_conflicts hc
    simp only [List.mem_cons, List.mem_singleton, List.not_mem_nil, or_false] at he
    rcases he with rfl | rfl
    · simp only at hle; omega
    · simp only at hle; omega
  ⟨⟨⟨(0, 0x400), by simp, Or.inr (Or.inl rfl)⟩, by rfl,
    (insertRange_rejects_iff_conflict [(0, 0x400), (0x600, 0x300)] 0x400 0x100
      (by decide) (by decide) (by decide) (by decide) (by decide)).1⟩,
   ⟨hfree, by rfl,
    (insertRange_rejects_iff_conflict [(0, 0x400), (0x600, 0x300)] 0x450 0x100
      (by decide) (by decide) (by decide) (by decide) (by decide)).2.2 hfree⟩⟩

/-! ## The intersection walk of the comparator: claim C3 -/

theorem sortedKeys_of_disjointRuns {m : AdrMap_t} (h : DisjointRuns m) (hp : Positive m) :
    SortedKeys m := by
  induction m with
  | nil => exact List.Pairwise.nil
  | cons a m ih =>
    have h' := List.pairwise_cons.mp h
    refine List.pairwise_cons.mpr ⟨fun b hb => ?_, ih h'.2 (fun e he => hp e (by simp [he]))⟩
    have := h'.1 b hb
    have := hp a (by simp)
    omega

theorem disjointRuns_of_gapped {m : AdrMap_t} (h : Gapped m) : DisjointRuns m :=
  List.Pairwise.imp (R := fun x y : Nat × Nat => x.1 + x.2 < y.1)
    (S := fun x y : Nat × Nat => x.1 + x.2 ≤ y.1) (fun hab => by omega) h

theorem intersection_eq_none_of_le {a b : Nat × Nat} (h : a.1 + a.2 ≤ b.1) :
    intersection a b = none := by
  unfold intersection
  rw [if_neg]
  omega

theorem intersection_eq_none_of_ge {a b : Nat × Nat} (h : b.1 + b.2 ≤ a.1) :
    intersection a b = none := by
  unfold intersection
  rw [if_neg]
  omega

/-- The inner loop, started anywhere in a sorted map, reports the non-empty
intersections with the entries from there on. -/
theorem walk_eq_filterMap (a : Nat × Nat) (bs : AdrMap_t) (ha : 0 < a.2)
    (hs : SortedKeys bs) (hp : Positive bs) (hb : EndsFit bs) :
    walk a.1 (a.1 + a.2) bs = bs.filterMap (intersection a) := by
  induction bs with
  | nil => rfl
  | cons b bs ih =>
    have hs' := List.pairwise_cons.mp hs
    have hbp := hp b (by simp)
    have hbb := hb b (by simp)
    have ih' := ih hs'.2 (fun e he => hp e (by simp [he])) (fun e he => hb e (by simp [he]))
    simp only [walk, Nat.mod_eq_of_lt hbb]
    by_cases h1 : b.1 ≥ a.1 + a.2
    · rw [if_pos h1]
      symm
      rw [List.filterMap_eq_nil_iff]
      intro e he
      apply intersection_eq_none_of_le
      rcases List.mem_cons.mp he with rfl | he
      · exact h1
      · have := hs'.1 e he; omega
    · rw [if_neg h1]
      by_cases h2 : b.1 < a.1 + a.2 ∧ b.1 + b.2 > a.1
      · rw [if_pos h2, ih']
        have : intersection a b = some (max a.1 b.1, min (a.1 + a.2) (b.1 + b.2)) := by
          unfold intersection
          rw [if_pos]
          omega
        simp [List.filterMap_cons, this]
      · rw [if_neg h2, ih']
        have : intersection a b = none := by
          apply intersection_eq_none_of_ge
          omega
        simp [List.filterMap_cons, this]

/-- Backing up one from `lower_bound` leaves out only entries that end at or
before the key. -/
theorem walkStart_split (B : AdrMap_t) (k : Nat) (hd : DisjointRuns B) (hp : Positive B) :
    ∃ pre, B = pre ++ walkStart B k ∧ ∀ e ∈ pre, e.1 + e.2 ≤ k := by
  obtain ⟨l, r, rfl, hl, h1, _⟩ := lower_bound_split B k (sortedKeys_of_disjointRuns hd hp)
  unfold walkStart
  simp only [hl]
  rcases List.eq_nil_or_concat l with h | ⟨l', p, h⟩
  · subst h
    exact ⟨[], by simp, by simp⟩
  · rw [List.concat_eq_append] at h
    subst h
    refine ⟨l', ?_, ?_⟩
    · have hne : (l' ++ [p]).length ≠ 0 := by simp
      rw [if_pos hne]
      have hlen : l'.length = (l' ++ [p]).length - 1 := by simp
      rw [List.append_assoc, List.drop_left' hlen]
    · intro e he
      have h3 := (List.pairwise_append.mp (List.pairwise_append.mp hd).1).2.2 e he p (by simp)
      have h4 := h1 p (by simp)
      omega

theorem overlapsOf_eq_filterMap (a : Nat × Nat) (B : AdrMap_t) (ha : 0 < a.2)
    (hfa : a.1 + a.2 < ADR_MOD) (hd : DisjointRuns B) (hp : Positive B) (hb : EndsFit B) :
    overlapsOf B a = B.filterMap (intersection a) := by
  obtain ⟨pre, hB, hpre⟩ := walkStart_split B a.1 hd hp
  have hs := sortedKeys_of_disjointRuns hd hp
  have hsub : ∀ e ∈ walkStart B a.1, e ∈ B := by
    intro e he
    rw [hB]
    exact List.mem_append_right _ he
  have hs' : SortedKeys (walkStart B a.1) := by
    have : SortedKeys (pre ++ walkStart B a.1) := by rw [← hB]; exact hs
    exact (List.pairwise_append.mp this).2.1
  unfold overlapsOf
  simp only [Nat.mod_eq_of_lt hfa]
  rw [walk_eq_filterMap a _ ha hs' (fun e he => hp e (hsub e he)) (fun e he => hb e (hsub e he))]
  conv_rhs => rw [hB]
  rw [List.filterMap_append]
  have : pre.filterMap (intersection a) = [] := by
    rw [List.filterMap_eq_nil_iff]
    intro e he
    exact intersection_eq_none_of_ge (hpre e he)
  rw [this, List.nil_append]

theorem intersectRuns_eq (A B : AdrMap_t) (hpA : Positive A) (hbA : EndsFit A)
    (hd : DisjointRuns B) (hp : Positive B) (hb : EndsFit B) :
    intersectRuns A B = allIntersections A B := by
  induction A with
  | nil => rfl
  | cons a A ih =>
    simp only [intersectRuns, allIntersections]
    rw [overlapsOf_eq_filterMap a B (hpA a (by simp)) (hbA a (by simp)) hd hp hb,
      ih (fun e he => hpA e (by simp [he])) (fun e he => hbA e (by simp [he]))]

theorem intersection_eq_some {a b x : Nat × Nat} (h : intersection a b = some x) :
    x = (max a.1 b.1, min (a.1 + a.2) (b.1 + b.2)) ∧ x.1 < x.2 := by
  unfold intersection at h
  split at h
  · cases h; exact ⟨rfl, by assumption⟩
  · cases h

theorem mem_allIntersections {A B : AdrMap_t} {x : Nat × Nat} :
    x ∈ allIntersections A B ↔ ∃ a ∈ A, ∃ b ∈ B, intersection a b = some x := by
  induction A with
  | nil => simp [allIntersections]
  | cons a A ih =>
    simp only [allIntersections, List.mem_append, List.mem_filterMap, ih, List.mem_cons]
    constructor
    · rintro (⟨b, hb, h⟩ | ⟨a', ha', b, hb, h⟩)
      · exact ⟨a, Or.inl rfl, b, hb, h⟩
      · exact ⟨a', Or.inr ha', b, hb, h⟩
    · rintro ⟨a', rfl | ha', b, hb, h⟩
      · exact Or.inl ⟨b, hb, h⟩
      · exact Or.inr ⟨a', ha', b, hb, h⟩

theorem filterMap_intersection_ascending (a : Nat × Nat) (B : AdrMap_t) (hd : DisjointRuns B) :
    (B.filterMap (intersection a)).Pairwise (fun x y => x.2 ≤ y.1) := by
  refine List.Pairwise.filterMap (R := fun x y : Nat × Nat => x.1 + x.2 ≤ y.1)
    (intersection a) ?_ hd
  intro b b' hbb x hx y hy
  obtain ⟨rfl, _⟩ := intersection_eq_some (Option.mem_def.mp hx)
  obtain ⟨rfl, _⟩ := intersection_eq_some (Option.mem_def.mp hy)
  simp only
  omega

theorem allIntersections_ascending (A B : AdrMap_t) (hdA : DisjointRuns A)
    (hdB : DisjointRuns B) :
    (allIntersections A B).Pairwise (fun x y => x.2 ≤ y.1) := by
  induction A with
  | nil => exact List.Pairwise.nil
  | cons a A ih =>
    have hA := List.pairwise_cons.mp hdA
    simp only [allIntersections]
    refine List.pairwise_append.mpr ⟨filterMap_intersection_ascending a B hdB, ih hA.2, ?_⟩
    intro x hx y hy
    obtain ⟨b, _, hxb⟩ := List.mem_filterMap.mp hx
    obtain ⟨a', ha', b', _, hyb⟩ := mem_allIntersections.mp hy
    obtain ⟨rfl, _⟩ := intersection_eq_some hxb
    obtain ⟨rfl, _⟩ := intersection_eq_some hyb
    have := hA.1 a' ha'
    simp only
    omega

/-- C3 (as stated, refuted): the maps `A = B = {0xfffffffffffffff0: 0x10}` are
sorted and non-overlapping and their intervals intersect in all sixteen
bytes, but the walk yields nothing: the end of `A`'s interval wraps to 0, so
the loop leaves at its first test `f2First >= f1Last`. -/
theorem intersectRuns_misses_overlap_at_wrap :
    SortedKeys [(0xfffffffffffffff0, 16)] ∧ DisjointRuns [(0xfffffffffffffff0, 16)] ∧
      Positive [(0xfffffffffffffff0, 16)] ∧
      allIntersections [(0xfffffffffffffff0, 16)] [(0xfffffffffffffff0, 16)] =
        [(0xfffffffffffffff0, 0x10000000000000000)] ∧
      intersectRuns [(0xfffffffffffffff0, 16)] [(0xfffffffffffffff0, 16)] = [] := by
  refine ⟨by decide, by decide, by decide, by rfl, by rfl⟩

/-- C3 (amended): for all maps `A` and `B` that are each sorted and pairwise
non-overlapping, with intervals of positive length that end below `2 ^ 64`,
the comparator's intersection walk yields exactly the non-empty intersections
`[max(starts), min(ends))` of the pairs `(a, b)` with `a` in `A` and `b` in `B`:
one for each such pair and nothing else, in ascending address order. -/
theorem intersectRuns_exact (A B : AdrMap_t) (hdA : DisjointRuns A) (hpA : Positive A)
    (hbA : EndsFit A) (hdB : DisjointRuns B) (hpB : Positive B) (hbB : EndsFit B) :
    intersectRuns A B = allIntersections A B ∧
      (∀ x, x ∈ intersectRuns A B ↔ ∃ a ∈ A, ∃ b ∈ B, intersection a b = some x) ∧
      (intersectRuns A B).Pairwise (fun x y => x.1 < x.2 ∧ x.2 ≤ y.1) := by
  have heq := intersectRuns_eq A B hpA hbA hdB hpB hbB
  rw [heq]
  refine ⟨rfl, fun x => mem_allIntersections, ?_⟩
  have hasc := allIntersections_ascending A B hdA hdB
  have hpos : ∀ x ∈ allIntersections A B, x.1 < x.2 := by
    intro x hx
    obtain ⟨a, _, b, _, h⟩ := mem_allIntersections.mp hx
    exact (intersection_eq_some h).2
  exact List.Pairwise.imp_of_mem (fun {x y} hx _ hxy => ⟨hpos x hx, hxy⟩) hasc

/-- Witness of `intersectRuns_exact`: two maps of three and four intervals. -/
theorem intersectRuns_exact_witness :
    intersectRuns [(0, 10), (10, 5), (20, 10)] [(5, 10), (15, 1), (18, 4), (25, 100)] =
        allIntersections [(0, 10), (10, 5), (20, 10)] [(5, 10), (15, 1), (18, 4), (25, 100)] ∧
      (∀ x, x ∈ intersectRuns [(0, 10), (10, 5), (20, 10)] [(5, 10), (15, 1), (18, 4), (25, 100)] ↔
        ∃ a ∈ [(0, 10), (10, 5), (20, 10)], ∃ b ∈ [(5, 10), (15, 1), (18, 4), (25, 100)],
          intersection a b = some x) ∧
      (intersectRuns [(0, 10), (10, 5), (20, 10)]
        [(5, 10), (15, 1), (18, 4), (25, 100)]).Pairwise (fun x y => x.1 < x.2 ∧ x.2 ≤ y.1) :=
  intersectRuns_exact [(0, 10), (10, 5), (20, 10)] [(5, 10), (15, 1), (18, 4), (25, 100)]
    (by decide) (by decide) (by decide) (by decide) (by decide) (by decide)

/-! ## The comparison of the images: claims C4 and C5 -/

/-- The result of the comparison loop does not depend on the fuel, once there
is enough of it: `end - begin` iterations always suffice. -/
theorem compareLoop_fuel (sz : Nat) (f1 f2 : List Nat) (fuel fuel' begin_ end_ : Nat)
    (h : end_ - begin_ ≤ fuel) (h' : end_ - begin_ ≤ fuel') :
    compareLoop sz f1 f2 fuel begin_ end_ = compareLoop sz f1 f2 fuel' begin_ end_ := by
  induction fuel generalizing fuel' begin_ with
  | zero =>
    cases fuel' with
    | zero => rfl
    | succ n' =>
      have : ¬ end_ > begin_ := by omega
      simp [compareLoop, this]
  | succ n ih =>
    cases fuel' with
    | zero =>
      have : ¬ end_ > begin_ := by omega
      simp [compareLoop, this]
    | succ n' =>
      simp only [compareLoop]
      split
      · rename_i hlt
        have hpos : 0 < min BUFSIZE (end_ - begin_) := by
          have : 0 < BUFSIZE := by decide
          omega
        have hle : min BUFSIZE (end_ - begin_) ≤ end_ - begin_ := Nat.min_le_right _ _
        rw [ih n' (begin_ + min BUFSIZE (end_ - begin_)) (by omega) (by omega)]
      · rfl

theorem getElem?_readAt (iso : List Nat) (pos n k : Nat) (hk : k < n) :
    (readAt iso pos n)[k]? = iso[pos + k]? := by
  unfold readAt
  rw [List.getElem?_take_of_lt hk, List.getElem?_drop]

theorem getElem?_longAt (sz : Nat) (buf : List Nat) (i j : Nat) (hj : j < sz) :
    (longAt sz buf i)[j]? = buf[i * sz + j]? := by
  unfold longAt
  rw [List.getElem?_take_of_lt hj, List.getElem?_drop]

theorem longAt_eq_of_forall (sz : Nat) (b1 b2 : List Nat) (i : Nat)
    (h : ∀ j, j < sz → b1[i * sz + j]? = b2[i * sz + j]?) :
    longAt sz b1 i = longAt sz b2 i := by
  apply List.ext_getElem?
  intro j
  by_cases hj : j < sz
  · rw [getElem?_longAt sz b1 i j hj, getElem?_longAt sz b2 i j hj]
    exact h j hj
  · unfold longAt
    rw [List.getElem?_take_eq_none (by omega), List.getElem?_take_eq_none (by omega)]

theorem forall_of_longAt_eq (sz : Nat) (b1 b2 : List Nat) (i : Nat)
    (h : longAt sz b1 i = longAt sz b2 i) :
    ∀ j, j < sz → b1[i * sz + j]? = b2[i * sz + j]? := by
  intro j hj
  rw [← getElem?_longAt sz b1 i j hj, ← getElem?_longAt sz b2 i j hj, h]

theorem exists_of_longAt_ne (sz : Nat) (b1 b2 : List Nat) (i : Nat)
    (h : longAt sz b1 i ≠ longAt sz b2 i) :
    ∃ j, j < sz ∧ b1[i * sz + j]? ≠ b2[i * sz + j]? := by
  by_contra hno
  apply h
  apply longAt_eq_of_forall
  intro j hj
  by_contra hne
  exact hno ⟨j, hj, hne⟩

theorem longLoop_some (sz : Nat) (b1 b2 : List Nat) (n i0 i : Nat)
    (h : longLoop sz b1 b2 n i0 = some i) :
    i0 ≤ i ∧ i < i0 + n ∧ longAt sz b1 i ≠ longAt sz b2 i ∧
      ∀ j, i0 ≤ j → j < i → longAt sz b1 j = longAt sz b2 j := by
  induction n generalizing i0 with
  | zero => simp [longLoop] at h
  | succ n ih =>
    simp only [longLoop] at h
    split at h
    · rename_i hne
      cases h
      exact ⟨le_refl _, by omega, hne, fun j h1 h2 => by omega⟩
    · rename_i heq
      obtain ⟨h1, h2, h3, h4⟩ := ih (i0 + 1) h
      refine ⟨by omega, by omega, h3, fun j hj1 hj2 => ?_⟩
      by_cases hj : j = i0
      · subst hj; exact not_not.mp heq
      · exact h4 j (by omega) hj2

theorem longLoop_none (sz : Nat) (b1 b2 : List Nat) (n i0 : Nat)
    (h : longLoop sz b1 b2 n i0 = none) :
    ∀ j, i0 ≤ j → j < i0 + n → longAt sz b1 j = longAt sz b2 j := by
  induction n generalizing i0 with
  | zero => intro j h1 h2; omega
  | succ n ih =>
    simp only [longLoop] at h
    split at h
    · cases h
    · rename_i heq
      intro j hj1 hj2
      by_cases hj : j = i0
      · subst hj; exact not_not.mp heq
      · exact ih (i0 + 1) h j (by omega) (by omega)

/-- Equal `long`s below index `m` of the two buffers: equal bytes of the two
files on the first `m * sz` addresses of the chunk. -/
theorem chunk_equal_prefix (sz : Nat) (f1 f2 : List Nat) (begin_ readLen m : Nat)
    (hsz : 0 < sz) (hm : m * sz ≤ readLen)
    (hw : ∀ q, q < m →
      longAt sz (readAt f1 begin_ readLen) q = longAt sz (readAt f2 begin_ readLen) q) :
    ∀ d, begin_ ≤ d → d < begin_ + m * sz → f1[d]? = f2[d]? := by
  intro d h1 h2
  obtain ⟨k, rfl⟩ : ∃ k, d = begin_ + k := ⟨d - begin_, by omega⟩
  have hk : k < m * sz := by omega
  have hq : k / sz < m := (Nat.div_lt_iff_lt_mul hsz).mpr hk
  have hj : k % sz < sz := Nat.mod_lt _ hsz
  have hkk : k / sz * sz + k % sz = k := Nat.div_add_mod' k sz
  have := forall_of_longAt_eq sz _ _ (k / sz) (hw _ hq) (k % sz) hj
  rw [hkk, getElem?_readAt _ _ _ _ (by omega), getElem?_readAt _ _ _ _ (by omega)] at this
  exact this

theorem dvd_readLen (sz begin_ end_ : Nat) (hdiv : sz ∣ BUFSIZE) (hmul : sz ∣ end_ - begin_) :
    sz ∣ min BUFSIZE (end_ - begin_) := by
  rcases Nat.le_total BUFSIZE (end_ - begin_) with h | h
  · rw [Nat.min_eq_left h]; exact hdiv
  · rw [Nat.min_eq_right h]; exact hmul

/-- A mismatch reported in one overlap: the address is that of the first
`long` of the overlap, counted from its start, in which the files differ. -/
theorem compareLoop_mismatch (sz : Nat) (f1 f2 : List Nat) (hsz : 0 < sz)
    (hdiv : sz ∣ BUFSIZE) (fuel begin_ end_ r : Nat) (hmul : sz ∣ end_ - begin_)
    (h : compareLoop sz f1 f2 fuel begin_ end_ = .error (.mismatch r)) :
    begin_ ≤ r ∧ r + sz ≤ end_ ∧ sz ∣ r - begin_ ∧
      (∃ d, r ≤ d ∧ d < r + sz ∧ f1[d]? ≠ f2[d]?) ∧
      ∀ d, begin_ ≤ d → d < r → f1[d]? = f2[d]? := by
  induction fuel generalizing begin_ with
  | zero => simp [compareLoop] at h
  | succ fuel ih =>
    simp only [compareLoop] at h
    split at h
    · rename_i hlt
      have hrl := dvd_readLen sz begin_ end_ hdiv hmul
      have hle : min BUFSIZE (end_ - begin_) ≤ end_ - begin_ := Nat.min_le_right _ _
      generalize min BUFSIZE (end_ - begin_) = readLen at h hrl hle
      split at h
      · cases h
      · split at h
        · cases h
        · split at h
          · rename_i i hi
            cases h
            obtain ⟨_, h2, h3, h4⟩ := longLoop_some sz _ _ _ 0 i hi
            have hi1 : (i + 1) * sz ≤ readLen :=
              (Nat.le_div_iff_mul_le hsz).mp (by omega)
            have hi2 : (i + 1) * sz = i * sz + sz := by ring
            obtain ⟨j, hj, hne⟩ := exists_of_longAt_ne sz _ _ i h3
            rw [getElem?_readAt _ _ _ _ (by omega), getElem?_readAt _ _ _ _ (by omega)] at hne
            refine ⟨by omega, by omega, ⟨i, by rw [Nat.add_sub_cancel_left, Nat.mul_comm]⟩,
              ⟨begin_ + (i * sz + j), by omega, by omega, hne⟩, ?_⟩
            exact chunk_equal_prefix sz f1 f2 begin_ readLen i hsz (by omega)
              (fun q hq => h4 q (by omega) hq)
          · rename_i hnone
            obtain ⟨c, hc⟩ := hrl
            have hdiv' : readLen / sz = c := by rw [hc]; exact Nat.mul_div_cancel_left c hsz
            have hcm : c * sz = readLen := by rw [hc]; ring
            have hpre := chunk_equal_prefix sz f1 f2 begin_ readLen c hsz (by omega)
              (fun q hq => longLoop_none sz _ _ _ 0 hnone q (by omega) (by omega))
            have hmul' : sz ∣ end_ - (begin_ + readLen) := by
              have : end_ - (begin_ + readLen) = (end_ - begin_) - readLen := by omega
              rw [this]
              exact Nat.dvd_sub' hmul ⟨c, hc⟩
            obtain ⟨h1, h2, hal, h3, h4⟩ := ih (begin_ + readLen) hmul' h
            have hal' : sz ∣ r - begin_ := by
              have : r - begin_ = (r - (begin_ + readLen)) + readLen := by omega
              rw [this]
              exact Nat.dvd_add hal ⟨c, hc⟩
            refine ⟨by omega, h2, hal', h3, fun d hd1 hd2 => ?_⟩
            by_cases hd : d < begin_ + readLen
            · exact hpre d hd1 (by omega)
            · exact h4 d (by omega) hd2
    · cases h

/-- An overlap that passes the comparison and whose length is a multiple of
`sizeof(long)`: the files agree on all of it. -/
theorem compareLoop_ok (sz : Nat) (f1 f2 : List Nat) (hsz : 0 < sz)
    (hdiv : sz ∣ BUFSIZE) (fuel begin_ end_ : Nat) (hmul : sz ∣ end_ - begin_)
    (hfuel : end_ - begin_ ≤ fuel)
    (h : compareLoop sz f1 f2 fuel begin_ end_ = .ok ()) :
    ∀ d, begin_ ≤ d → d < end_ → f1[d]? = f2[d]? := by
  induction fuel generalizing begin_ with
  | zero => intro d h1 h2; omega
  | succ fuel ih =>
    simp only [compareLoop] at h
    split at h
    · rename_i hlt
      have hrl := dvd_readLen sz begin_ end_ hdiv hmul
      have hle : min BUFSIZE (end_ - begin_) ≤ end_ - begin_ := Nat.min_le_right _ _
      have hpos : 0 < min BUFSIZE (end_ - begin_) := by
        have : 0 < BUFSIZE := by decide
        omega
      generalize min BUFSIZE (end_ - begin_) = readLen at h hrl hle hpos
      split at h
      · cases h
      · split at h
        · cases h
        · split at h
          · cases h
          · rename_i hnone
            obtain ⟨c, hc⟩ := hrl
            have hdiv' : readLen / sz = c := by rw [hc]; exact Nat.mul_div_cancel_left c hsz
            have hcm : c * sz = readLen := by rw [hc]; ring
            have hpre := chunk_equal_prefix sz f1 f2 begin_ readLen c hsz (by omega)
              (fun q hq => longLoop_none sz _ _ _ 0 hnone q (by omega) (by omega))
            have hmul' : sz ∣ end_ - (begin_ + readLen) := by
              have : end_ - (begin_ + readLen) = (end_ - begin_) - readLen := by omega
              rw [this]
              exact Nat.dvd_sub' hmul ⟨c, hc⟩
            intro d hd1 hd2
            by_cases hd : d < begin_ + readLen
            · exact hpre d hd1 (by omega)
            · exact ih (begin_ + readLen) hmul' (by omega) h d (by omega) hd2
    · intro d h1 h2; omega

theorem compareAll_append (sz : Nat) (f1 f2 : List Nat) (xs ys : List (Nat × Nat)) :
    compareAll sz f1 f2 (xs ++ ys) =
      match compareAll sz f1 f2 xs with
      | .error e => .error e
      | .ok _ => compareAll sz f1 f2 ys := by
  induction xs with
  | nil => rfl
  | cons x xs ih =>
    simp only [List.cons_append, compareAll]
    split
    · rfl
    · exact ih

theorem compareWalk_eq (sz : Nat) (f1 f2 : List Nat) (s e : Nat) (bs : AdrMap_t) :
    compareWalk sz f1 f2 s e bs = compareAll sz f1 f2 (walk s e bs) := by
  induction bs with
  | nil => rfl
  | cons b bs ih =>
    simp only [compareWalk, walk]
    split
    · rfl
    · split
      · simp only [compareAll, ih]
      · exact ih

/-- The comparator is the comparison loop run on the overlaps of the walk. -/
theorem compareMaps_eq (sz : Nat) (f1 f2 : List Nat) (A B : AdrMap_t) :
    compareMaps sz f1 f2 A B = compareAll sz f1 f2 (intersectRuns A B) := by
  induction A with
  | nil => rfl
  | cons a A ih =>
    simp only [compareMaps, intersectRuns, compareAll_append, overlapsOf, compareWalk_eq, ih]

theorem compareAll_mismatch (sz : Nat) (f1 f2 : List Nat) (hsz : 0 < sz)
    (hdiv : sz ∣ BUFSIZE) (os : List (Nat × Nat)) (r : Nat)
    (hasc : os.Pairwise (fun x y => x.1 < x.2 ∧ x.2 ≤ y.1))
    (hmul : ∀ o ∈ os, sz ∣ o.2 - o.1)
    (h : compareAll sz f1 f2 os = .error (.mismatch r)) :
    (∃ o ∈ os, o.1 ≤ r ∧ r + sz ≤ o.2 ∧ sz ∣ r - o.1 ∧
        ∃ d, r ≤ d ∧ d < r + sz ∧ f1[d]? ≠ f2[d]?) ∧
      ∀ d, (∃ o ∈ os, o.1 ≤ d ∧ d < o.2) → d < r → f1[d]? = f2[d]? := by
  induction os with
  | nil => simp [compareAll] at h
  | cons o os ih =>
    have hasc' := List.pairwise_cons.mp hasc
    simp only [compareAll] at h
    split at h
    · rename_i e he
      cases h
      obtain ⟨h1, h2, hal, hd, h4⟩ :=
        compareLoop_mismatch sz f1 f2 hsz hdiv _ _ _ r (hmul o (by simp)) he
      refine ⟨⟨o, by simp, h1, h2, hal, hd⟩, ?_⟩
      rintro d' ⟨o', ho', hd1', hd2'⟩ hlt
      rcases List.mem_cons.mp ho' with rfl | ho'
      · exact h4 d' hd1' hlt
      · have := hasc'.1 o' ho'
        omega
    · rename_i u hok
      have hall := compareLoop_ok sz f1 f2 hsz hdiv _ _ _ (hmul o (by simp)) (le_refl _) hok
      obtain ⟨⟨o', ho', hd3⟩, h2⟩ :=
        ih hasc'.2 (fun x hx => hmul x (by simp [hx])) h
      refine ⟨⟨o', by simp [ho'], hd3⟩, ?_⟩
      rintro d' ⟨o'', ho'', hd1', hd2'⟩ hlt
      rcases List.mem_cons.mp ho'' with rfl | ho''
      · exact hall d' hd1' hd2'
      · exact h2 d' ⟨o'', ho'', hd1', hd2'⟩ hlt

theorem inOverlap_iff (A B : AdrMap_t) (d : Nat) :
    inOverlap A B d ↔ ∃ o ∈ allIntersections A B, o.1 ≤ d ∧ d < o.2 := by
  constructor
  · rintro ⟨a, ha, b, hb, h1, h2⟩
    unfold inRange at h1 h2
    refine ⟨(max a.1 b.1, min (a.1 + a.2) (b.1 + b.2)), ?_, ?_, ?_⟩
    · refine mem_allIntersections.mpr ⟨a, ha, b, hb, ?_⟩
      unfold intersection
      rw [if_pos]
      omega
    · simp only; omega
    · simp only; omega
  · rintro ⟨o, ho, h1, h2⟩
    obtain ⟨a, ha, b, hb, h⟩ := mem_allIntersections.mp ho
    obtain ⟨rfl, _⟩ := intersection_eq_some h
    simp only at h1 h2
    refine ⟨a, ha, b, hb, ?_, ?_⟩ <;> unfold inRange <;> omega

theorem compareLoop_of_le (sz : Nat) (f1 f2 : List Nat) (fuel begin_ end_ : Nat)
    (h : end_ ≤ begin_) : compareLoop sz f1 f2 fuel begin_ end_ = .ok () := by
  cases fuel with
  | zero => rfl
  | succ n =>
    have : ¬ end_ > begin_ := by omega
    simp [compareLoop, this]

theorem compareAll_nonEmpties (sz : Nat) (f1 f2 : List Nat) (os : List (Nat × Nat)) :
    compareAll sz f1 f2 os = compareAll sz f1 f2 (nonEmpties os) := by
  induction os with
  | nil => rfl
  | cons o os ih =>
    unfold nonEmpties at ih ⊢
    by_cases h : o.1 < o.2
    · rw [List.filter_cons_of_pos (by simpa using h)]
      simp only [compareAll, ih]
    · rw [List.filter_cons_of_neg (by simpa using h)]
      simp only [compareAll, compareLoop_of_le sz f1 f2 _ _ _ (Nat.le_of_not_lt h), ih]

theorem fitting_sublist (m : AdrMap_t) : (fitting m).Sublist m := List.filter_sublist m

theorem mem_fitting {m : AdrMap_t} {e : Nat × Nat} :
    e ∈ fitting m ↔ e ∈ m ∧ e.1 + e.2 < ADR_MOD := by
  simp [fitting]

theorem endsFit_fitting (m : AdrMap_t) : EndsFit (fitting m) :=
  fun _ he => (mem_fitting.mp he).2

theorem positive_fitting {m : AdrMap_t} (h : Positive m) : Positive (fitting m) :=
  fun e he => h e (mem_fitting.mp he).1

theorem disjointRuns_fitting {m : AdrMap_t} (h : DisjointRuns m) : DisjointRuns (fitting m) :=
  List.Pairwise.sublist (fitting_sublist m) h

/-- The inner loop, started anywhere in a sorted map: the overlaps it reports
that are not empty are the non-empty intersections with the entries from there
on whose end does not wrap. -/
theorem walk_nonEmpties (a : Nat × Nat) (bs : AdrMap_t) (ha : 0 < a.2)
    (hs : SortedKeys bs) (hp : Positive bs) (ht : Typed bs) :
    nonEmpties (walk a.1 (a.1 + a.2) bs) = (fitting bs).filterMap (intersection a) := by
  induction bs with
  | nil => rfl
  | cons b bs ih =>
    have hs' := List.pairwise_cons.mp hs
    have hbp := hp b (by simp)
    have hbt := ht b (by simp)
    have ih' := ih hs'.2 (fun e he => hp e (by simp [he])) (fun e he => ht e (by simp [he]))
    simp only [walk]
    by_cases h1 : b.1 ≥ a.1 + a.2
    · rw [if_pos h1]
      symm
      rw [show nonEmpties [] = ([] : List (Nat × Nat)) from rfl, List.filterMap_eq_nil_iff]
      intro e he
      apply intersection_eq_none_of_le
      rcases List.mem_cons.mp (mem_fitting.mp he).1 with rfl | he
      · exact h1
      · have := hs'.1 e he; omega
    · rw [if_neg h1]
      by_cases hfit : b.1 + b.2 < ADR_MOD
      · have hfb : fitting (b :: bs) = b :: fitting bs := by
          unfold fitting
          rw [List.filter_cons_of_pos (by simpa using hfit)]
        rw [hfb, Nat.mod_eq_of_lt hfit]
        by_cases h2 : b.1 < a.1 + a.2 ∧ b.1 + b.2 > a.1
        · rw [if_pos h2]
          have hi : intersection a b = some (max a.1 b.1, min (a.1 + a.2) (b.1 + b.2)) := by
            unfold intersection
            rw [if_pos]
            omega
          have hne : max a.1 b.1 < min (a.1 + a.2) (b.1 + b.2) := by omega
          unfold nonEmpties at ih' ⊢
          rw [List.filter_cons_of_pos (by simpa using hne), ih']
          simp [List.filterMap_cons, hi]
        · rw [if_neg h2, ih']
          have hi : intersection a b = none := by
            apply intersection_eq_none_of_ge
            omega
          simp [List.filterMap_cons, hi]
      · have hfb : fitting (b :: bs) = fitting bs := by
          unfold fitting
          rw [List.filter_cons_of_neg (by simpa using hfit)]
        rw [hfb]
        have hwrap : (b.1 + b.2) % ADR_MOD < b.1 := by
          have h3 : (b.1 + b.2) % ADR_MOD = b.1 + b.2 - ADR_MOD := by
            rw [Nat.mod_eq_sub_mod (by omega), Nat.mod_eq_of_lt (by omega)]
          omega
        split
        · unfold nonEmpties at ih' ⊢
          rw [List.filter_cons_of_neg (by simp only [decide_eq_true_eq]; omega), ih']
        · exact ih'

theorem walk_wrapped_nonEmpties (s e : Nat) (bs : AdrMap_t) (h : e ≤ s) :
    nonEmpties (walk s e bs) = [] := by
  induction bs with
  | nil => rfl
  | cons b bs ih =>
    simp only [walk]
    split
    · rfl
    · split
      · unfold nonEmpties at ih ⊢
        rw [List.filter_cons_of_neg (by simp only [decide_eq_true_eq]; omega), ih]
      · exact ih

theorem overlapsOf_nonEmpties (a : Nat × Nat) (B : AdrMap_t) (ha : 0 < a.2)
    (hta : a.1 < ADR_MOD ∧ a.2 < ADR_MOD)
    (hd : DisjointRuns B) (hp : Positive B) (ht : Typed B) :
    nonEmpties (overlapsOf B a) =
      if a.1 + a.2 < ADR_MOD then (fitting B).filterMap (intersection a) else [] := by
  unfold overlapsOf
  by_cases hfa : a.1 + a.2 < ADR_MOD
  · rw [if_pos hfa]
    obtain ⟨pre, hB, hpre⟩ := walkStart_split B a.1 hd hp
    have hs := sortedKeys_of_disjointRuns hd hp
    have hsub : ∀ e ∈ walkStart B a.1, e ∈ B := by
      intro e he
      rw [hB]
      exact List.mem_append_right _ he
    have hs' : SortedKeys (walkStart B a.1) := by
      have : SortedKeys (pre ++ walkStart B a.1) := by rw [← hB]; exact hs
      exact (List.pairwise_append.mp this).2.1
    simp only [Nat.mod_eq_of_lt hfa]
    rw [walk_nonEmpties a _ ha hs' (fun e he => hp e (hsub e he)) (fun e he => ht e (hsub e he))]
    conv_rhs => rw [hB]
    unfold fitting
    rw [List.filter_append, List.filterMap_append]
    have : (pre.filter (fun e => decide (e.1 + e.2 < ADR_MOD))).filterMap (intersection a) = [] := by
      rw [List.filterMap_eq_nil_iff]
      intro e he
      exact intersection_eq_none_of_ge (hpre e (List.mem_filter.mp he).1)
    rw [this, List.nil_append]
  · rw [if_neg hfa]
    apply walk_wrapped_nonEmpties
    have h3 : (a.1 + a.2) % ADR_MOD = a.1 + a.2 - ADR_MOD := by
      rw [Nat.mod_eq_sub_mod (by omega), Nat.mod_eq_of_lt (by omega)]
    omega

/-- The overlaps the comparator compares are the non-empty intersections of
the intervals of the two maps whose end does not wrap. -/
theorem intersectRuns_nonEmpties (A B : AdrMap_t) (hpA : Positive A) (htA : Typed A)
    (hd : DisjointRuns B) (hp : Positive B) (ht : Typed B) :
    nonEmpties (intersectRuns A B) = allIntersections (fitting A) (fitting B) := by
  induction A with
  | nil => rfl
  | cons a A ih =>
    have ih' := ih (fun e he => hpA e (by simp [he])) (fun e he => htA e (by simp [he]))
    have ho := overlapsOf_nonEmpties a B (hpA a (by simp)) (htA a (by simp)) hd hp ht
    simp only [intersectRuns]
    unfold nonEmpties at ih' ho ⊢
    rw [List.filter_append, ih', ho]
    by_cases hfa : a.1 + a.2 < ADR_MOD
    · have hfb : fitting (a :: A) = a :: fitting A := by
        unfold fitting
        rw [List.filter_cons_of_pos (by simpa using hfa)]
      rw [if_pos hfa, hfb]
      rfl
    · have hfb : fitting (a :: A) = fitting A := by
        unfold fitting
        rw [List.filter_cons_of_neg (by simpa using hfa)]
      rw [if_neg hfa, hfb]
      rfl

/-- In a map of non-overlapping intervals an interval whose end wraps lies
above all the others. -/
theorem above_of_not_fit (m : AdrMap_t) (hd : DisjointRuns m) (ht : Typed m)
    (a : Nat × Nat) (ha : a ∈ m) (hfa : ¬ a.1 + a.2 < ADR_MOD) :
    ∀ x ∈ m, x ≠ a → x.1 + x.2 ≤ a.1 := by
  intro x hx hxa
  have hsym : m.Pairwise (fun x y : Nat × Nat => x.1 + x.2 ≤ y.1 ∨ y.1 + y.2 ≤ x.1) :=
    List.Pairwise.imp (R := fun x y : Nat × Nat => x.1 + x.2 ≤ y.1) (fun hab => Or.inl hab) hd
  have := List.Pairwise.forall (fun _ _ hab => Or.symm hab) hsym hx ha hxa
  have := (ht x hx).1
  omega

/-- C4 (the code at the failing input): two logs with the single rescued range
`0 3 +` give maps whose overlap is `[0, 3)`; the images `01 02 03` and
`01 09 03` differ at address 1 inside it, and the comparator ends without an
exception, for `sizeof(long) = 8` and for `sizeof(long) = 4`: the loop over the
`long`s runs `readLen / sizeof(long) = 0` times. -/
theorem compareMaps_passes_differing_tail :
    readLog ["hdr", "0 3 +"] [] = .ok ([(0, 3)], 3) ∧
      intersectRuns [(0, 3)] [(0, 3)] = [(0, 3)] ∧
      inOverlap [(0, 3)] [(0, 3)] 1 ∧
      ([1, 2, 3] : List Nat)[1]? ≠ ([1, 9, 3] : List Nat)[1]? ∧
      compareMaps 8 [1, 2, 3] [1, 9, 3] [(0, 3)] [(0, 3)] = .ok () ∧
      compareMaps 4 [1, 2, 3] [1, 9, 3] [(0, 3)] [(0, 3)] = .ok () := by
  refine ⟨by rfl, by rfl, ?_, by decide, by rfl, by rfl⟩
  exact ⟨(0, 3), by simp, (0, 3), by simp, by unfold inRange; omega, by unfold inRange; omega⟩

/-- C5 (as stated, refuted): on the overlap `[0, 8)` the images differ at
address 3 only, and the comparator reports address 0, the start of the `long`
that holds the differing byte. -/
theorem compareMaps_reports_long_address :
    compareMaps 8 [0, 0, 0, 1, 0, 0, 0, 0] [0, 0, 0, 0, 0, 0, 0, 0] [(0, 8)] [(0, 8)] =
        .error (.mismatch 0) ∧
      inOverlap [(0, 8)] [(0, 8)] 3 ∧
      ([0, 0, 0, 1, 0, 0, 0, 0] : List Nat)[3]? ≠ ([0, 0, 0, 0, 0, 0, 0, 0] : List Nat)[3]? ∧
      ∀ d, d < 3 →
        ([0, 0, 0, 1, 0, 0, 0, 0] : List Nat)[d]? = ([0, 0, 0, 0, 0, 0, 0, 0] : List Nat)[d]? := by
  refine ⟨by rfl, ?_, by decide, by decide⟩
  exact ⟨(0, 8), by simp, (0, 8), by simp, by unfold inRange; omega, by unfold inRange; omega⟩

/-- C5 (amended): for maps that are sorted and pairwise non-overlapping, with
intervals of positive length, and all of whose overlaps have a length that is
a multiple of `sizeof(long) = sz`: whenever the comparator fails with a
mismatch error, the address `r` it reports is the lowest byte address `d`
inside the overlaps of the two maps at which the two images differ, rounded
down to a whole number of `long`s from the start of its overlap. -/
theorem compareMaps_mismatch_address (sz : Nat) (f1Iso f2Iso : List Nat) (A B : AdrMap_t)
    (r : Nat) (hsz : 0 < sz) (hdiv : sz ∣ BUFSIZE)
    (hdA : DisjointRuns A) (hpA : Positive A) (htA : Typed A)
    (hdB : DisjointRuns B) (hpB : Positive B) (htB : Typed B)
    (hmul : ∀ a ∈ A, ∀ b ∈ B, ∀ o, intersection a b = some o → sz ∣ o.2 - o.1)
    (h : compareMaps sz f1Iso f2Iso A B = .error (.mismatch r)) :
    ∃ d, inOverlap A B d ∧ f1Iso[d]? ≠ f2Iso[d]? ∧
      (∀ d', inOverlap A B d' → f1Iso[d']? ≠ f2Iso[d']? → d ≤ d') ∧
      ∃ a ∈ A, ∃ b ∈ B, ∃ o, intersection a b = some o ∧ o.1 ≤ d ∧ d < o.2 ∧
        r = o.1 + (d - o.1) / sz * sz := by
  rw [compareMaps_eq, compareAll_nonEmpties, intersectRuns_nonEmpties A B hpA htA hdB hpB htB] at h
  have hasc : (allIntersections (fitting A) (fitting B)).Pairwise
      (fun x y => x.1 < x.2 ∧ x.2 ≤ y.1) := by
    have hpos : ∀ x ∈ allIntersections (fitting A) (fitting B), x.1 < x.2 := by
      intro x hx
      obtain ⟨a, _, b, _, hab⟩ := mem_allIntersections.mp hx
      exact (intersection_eq_some hab).2
    exact List.Pairwise.imp_of_mem (fun {x y} hx _ hxy => ⟨hpos x hx, hxy⟩)
      (allIntersections_ascending _ _ (disjointRuns_fitting hdA) (disjointRuns_fitting hdB))
  have hmul' : ∀ o ∈ allIntersections (fitting A) (fitting B), sz ∣ o.2 - o.1 := by
    intro o ho
    obtain ⟨a, ha, b, hb, hab⟩ := mem_allIntersections.mp ho
    exact hmul a (mem_fitting.mp ha).1 b (mem_fitting.mp hb).1 o hab
  obtain ⟨⟨o, ho, ho1, ho2, ⟨c, hc⟩, hex⟩, hlow⟩ :=
    compareAll_mismatch sz f1Iso f2Iso hsz hdiv _ r hasc hmul' h
  obtain ⟨a0, ha0, b0, hb0, hab0⟩ := mem_allIntersections.mp ho
  obtain ⟨ha0A, ha0f⟩ := mem_fitting.mp ha0
  obtain ⟨hb0B, hb0f⟩ := mem_fitting.mp hb0
  obtain ⟨hoeq, _⟩ := intersection_eq_some hab0
  have ho2a : o.2 ≤ a0.1 + a0.2 := by rw [hoeq]; simp only; omega
  have ho2b : o.2 ≤ b0.1 + b0.2 := by rw [hoeq]; simp only; omega
  have ho1a : a0.1 ≤ o.1 := by rw [hoeq]; simp only; omega
  have ho1b : b0.1 ≤ o.1 := by rw [hoeq]; simp only; omega
  classical
  let d := Nat.find hex
  obtain ⟨hd1, hd2, hd3⟩ : r ≤ d ∧ d < r + sz ∧ f1Iso[d]? ≠ f2Iso[d]? := Nat.find_spec hex
  have hdo : inOverlap A B d :=
    ⟨a0, ha0A, b0, hb0B, by unfold inRange; omega, by unfold inRange; omega⟩
  refine ⟨d, hdo, hd3, ?_, a0, ha0A, b0, hb0B, o, hab0, by omega, by omega, ?_⟩
  · rintro d' ⟨a, ha, b, hb, hda, hdb⟩ hne
    unfold inRange at hda hdb
    by_cases hfa : a.1 + a.2 < ADR_MOD
    · by_cases hfb : b.1 + b.2 < ADR_MOD
      · have hin : ∃ o' ∈ allIntersections (fitting A) (fitting B), o'.1 ≤ d' ∧ d' < o'.2 :=
          (inOverlap_iff _ _ d').mp
            ⟨a, mem_fitting.mpr ⟨ha, hfa⟩, b, mem_fitting.mpr ⟨hb, hfb⟩, hda, hdb⟩
        have hr : r ≤ d' := by
          by_contra hlt
          exact hne (hlow d' hin (by omega))
        by_cases hlt : d' < r + sz
        · exact Nat.find_min' hex ⟨hr, hlt, hne⟩
        · omega
      · have hne' : b0 ≠ b := fun heq => hfb (heq ▸ hb0f)
        have := above_of_not_fit B hdB htB b hb hfb b0 hb0B hne'
        omega
    · have hne' : a0 ≠ a := fun heq => hfa (heq ▸ ha0f)
      have := above_of_not_fit A hdA htA a ha hfa a0 ha0A hne'
      omega
  · have h1 : d - o.1 = (d - r) + sz * c := by omega
    have h2 : (d - o.1) / sz = c := by
      rw [h1, Nat.add_mul_div_left _ _ hsz, Nat.div_eq_of_lt (by omega)]
      omega
    rw [h2, Nat.mul_comm]
    omega

/-- Witness of `compareMaps_mismatch_address`: one overlap of two `long`s, the
images differing at addresses 11 and 13; the address reported is 8. -/
theorem compareMaps_mismatch_address_witness :
    ∃ d, inOverlap [(0, 16)] [(0, 16)] d ∧
      ([0, 0, 0, 0, 0, 0, 0, 0, 0, 0, 0, 1, 0, 1, 0, 0] : List Nat)[d]? ≠
        ([0, 0, 0, 0, 0, 0, 0, 0, 0, 0, 0, 0, 0, 0, 0, 0] : List Nat)[d]? ∧
      (∀ d', inOverlap [(0, 16)] [(0, 16)] d' →
        ([0, 0, 0, 0, 0, 0, 0, 0, 0, 0, 0, 1, 0, 1, 0, 0] : List Nat)[d']? ≠
          ([0, 0, 0, 0, 0, 0, 0, 0, 0, 0, 0, 0, 0, 0, 0, 0] : List Nat)[d']? → d ≤ d') ∧
      ∃ a ∈ [(0, 16)], ∃ b ∈ [(0, 16)], ∃ o, intersection a b = some o ∧ o.1 ≤ d ∧ d < o.2 ∧
        8 = o.1 + (d - o.1) / 8 * 8 :=
  compareMaps_mismatch_address 8 [0, 0, 0, 0, 0, 0, 0, 0, 0, 0, 0, 1, 0, 1, 0, 0]
    [0, 0, 0, 0, 0, 0, 0, 0, 0, 0, 0, 0, 0, 0, 0, 0] [(0, 16)] [(0, 16)] 8
    (by decide) (by decide) (by decide) (by decide) (by decide) (by decide) (by decide)
    (by decide) (by decide) (by rfl)

/-! ## The extractor: claims C6 to C8 -/

/-- The result of the copy loop does not depend on the fuel, once there is
enough of it: `fiLast - fiFirst` iterations always suffice. -/
theorem copyLoop_fuel (f1Iso : List Nat) (fuel fuel' fiFirst fiLast : Nat) (out : List Nat)
    (h : fiLast - fiFirst ≤ fuel) (h' : fiLast - fiFirst ≤ fuel') :
    copyLoop f1Iso fuel fiFirst fiLast out = copyLoop f1Iso fuel' fiFirst fiLast out := by
  induction fuel generalizing fuel' fiFirst out with
  | zero =>
    cases fuel' with
    | zero => rfl
    | succ n' =>
      have : ¬ fiFirst < fiLast := by omega
      simp [copyLoop, this]
  | succ n ih =>
    cases fuel' with
    | zero =>
      have : ¬ fiFirst < fiLast := by omega
      simp [copyLoop, this]
    | succ n' =>
      simp only [copyLoop]
      split
      · rename_i hlt
        have hpos : 0 < min (fiLast - fiFirst) BUFSIZE := by
          have : 0 < BUFSIZE := by decide
          omega
        have hle : min (fiLast - fiFirst) BUFSIZE ≤ fiLast - fiFirst := Nat.min_le_left _ _
        rw [ih n' (fiFirst + min (fiLast - fiFirst) BUFSIZE) _ (by omega) (by omega)]
      · rfl

/-- What the lookup of the extractor returns on a sorted map: the entry with
the greatest key strictly below the address. -/
theorem findCoveringRun_some (m : AdrMap_t) (a : Nat) (e : Nat × Nat) (hs : SortedKeys m)
    (h : findCoveringRun m a = some e) :
    e ∈ m ∧ e.1 < a ∧ ∀ x ∈ m, x.1 < a → x.1 ≤ e.1 := by
  obtain ⟨l, r, rfl, hl, h1, h2⟩ := lower_bound_split m a hs
  unfold findCoveringRun at h
  rw [hl, prevEntry_split] at h
  have hel : e ∈ l := List.mem_of_getLast?_eq_some h
  refine ⟨by simp [hel], h1 e hel, ?_⟩
  intro x hx hxa
  rcases List.mem_append.mp hx with hxl | hxr
  · obtain ⟨l', rfl⟩ : ∃ l', l = l' ++ [e] := by
      rcases List.eq_nil_or_concat l with hn | ⟨l', b, hc⟩
      · simp [hn] at h
      · subst hc; simp at h; subst h; exact ⟨l', by simp⟩
    rcases List.mem_append.mp hxl with hx' | hx'
    · have := (List.pairwise_append.mp (List.pairwise_append.mp hs).1).2.2 x hx' e (by simp)
      omega
    · have : x = e := by simpa using hx'
      subst this; exact le_refl _
  · have := h2 x hxr
    omega

/-- The lookup of the extractor returns nothing exactly when no entry of the
sorted map has a key strictly below the address. -/
theorem findCoveringRun_none (m : AdrMap_t) (a : Nat) (hs : SortedKeys m) :
    findCoveringRun m a = none ↔ ∀ x ∈ m, a ≤ x.1 := by
  obtain ⟨l, r, rfl, hl, h1, h2⟩ := lower_bound_split m a hs
  unfold findCoveringRun
  rw [hl, prevEntry_split, List.getLast?_eq_none_iff]
  constructor
  · rintro rfl x hx
    exact h2 x (by simpa using hx)
  · intro h
    cases l with
    | nil => rfl
    | cons b l =>
      have := h b (by simp)
      have := h1 b (by simp)
      omega

/-- C6 (the code at the failing input): an entry whose range `[0, 4)` equals
the one rescued interval of the map is passed over without output file and
without message, `lower_bound` returning `begin()`; an entry whose range
`[0x1000, 0x1800)` equals the second rescued interval of a map is tested
against the first interval and reported as missing. -/
theorem extract_skips_entry_at_interval_start :
    compact [(0, 4)] = [(0, 4)] ∧
      extract (fun _ => true) [(0, 4)] [1, 2, 3, 4] [("F", ⟨0, 4⟩)] =
        .ok { createdDir := false, files := [], messages := [] } ∧
      compact [(0, 0x800), (0x1000, 0x800)] = [(0, 0x800), (0x1000, 0x800)] ∧
      extract (fun _ => true) [(0, 0x800), (0x1000, 0x800)] (List.replicate 0x1800 0)
          [("F", ⟨0x1000, 0x800⟩)] =
        .ok { createdDir := false, files := [], messages := [.missing "F"] } := by
  refine ⟨by rfl, by rfl, by rfl, by rfl⟩

/-- C7 (the code at the failing input): an entry whose range `[0, 0x10)` lies
before the only rescued interval `[0x1000, 0x2000)`, and any entry at all when
the map is empty, is passed over without the message that data is missing. -/
theorem extract_silent_before_first_interval :
    compact [(0x1000, 0x1000)] = [(0x1000, 0x1000)] ∧
      extract (fun _ => true) [(0x1000, 0x1000)] (List.replicate 0x2000 0) [("F", ⟨0, 0x10⟩)] =
        .ok { createdDir := false, files := [], messages := [] } ∧
      extract (fun _ => true) [] [] [("F", ⟨0, 0x10⟩)] =
        .ok { createdDir := false, files := [], messages := [] } := by
  refine ⟨by rfl, by rfl, by rfl⟩

/-- C8 (the code at the failing input): for an address equal to the start of
an interval the lookup of the extractor returns the interval before it, and
nothing when that interval is the first of the map. -/
theorem findCoveringRun_at_interval_start :
    SortedKeys [(0, 0x800), (0x1000, 0x800)] ∧ DisjointRuns [(0, 0x800), (0x1000, 0x800)] ∧
      findCoveringRun [(0, 0x800), (0x1000, 0x800)] 0x1000 = some (0, 0x800) ∧
      findCoveringRun [(0, 0x800), (0x1000, 0x800)] 0 = none := by
  refine ⟨by decide, by decide, by rfl, by rfl⟩

/-! ## One pass of the compaction on a map without overlap -/

/-- One pass of the compaction keeps the sum of the lengths and the addresses
covered, as long as the sum of the lengths is below `2 ^ 64`. -/
theorem compact_preserves (m : AdrMap_t) (hd : DisjointRuns m)
    (hk : ∀ e ∈ m, e.1 < ADR_MOD) (ht : (m.map Prod.snd).sum < ADR_MOD) :
    ((compact m).map Prod.snd).sum = (m.map Prod.snd).sum ∧
      ∀ x, (∃ e ∈ compact m, inRange e x) ↔ (∃ e ∈ m, inRange e x) := by
  induction m using compact.induct with
  | case1 => exact ⟨rfl, fun x => Iff.rfl⟩
  | case2 a => exact ⟨rfl, fun x => Iff.rfl⟩
  | case3 a b rest htouch ih =>
    have hd1 := List.pairwise_cons.mp hd
    have hd2 := List.pairwise_cons.mp hd1.2
    have hab := hd1.1 b (by simp)
    have hbk := hk b (by simp)
    simp only [List.map_cons, List.sum_cons] at ht
    have hfit : a.1 + a.2 < ADR_MOD := by omega
    have hc : compact (a :: b :: rest) = (a.1, (a.2 + b.2) % ADR_MOD) :: compact rest := by
      rw [compact, if_pos htouch]
    rw [Nat.mod_eq_of_lt hfit] at htouch
    obtain ⟨ih1, ih2⟩ := ih hd2.2 (fun e he => hk e (by simp [he])) (by omega)
    rw [hc, Nat.mod_eq_of_lt (by omega)]
    refine ⟨by simp only [List.map_cons, List.sum_cons, ih1]; omega, fun x => ?_⟩
    simp only [List.mem_cons, exists_eq_or_imp]
    rw [ih2 x]
    simp only [inRange]
    constructor
    · rintro (h | h)
      · by_cases hx : x < a.1 + a.2
        · exact Or.inl ⟨h.1, hx⟩
        · exact Or.inr (Or.inl ⟨by omega, by omega⟩)
      · exact Or.inr (Or.inr h)
    · rintro (h | h | h)
      · exact Or.inl ⟨h.1, by omega⟩
      · exact Or.inl ⟨by omega, by omega⟩
      · exact Or.inr h
  | case4 a b rest hnot ih =>
    have hd1 := List.pairwise_cons.mp hd
    simp only [List.map_cons, List.sum_cons] at ht
    obtain ⟨ih1, ih2⟩ := ih hd1.2 (fun e he => hk e (by simp [he]))
      (by simp only [List.map_cons, List.sum_cons]; omega)
    have hc : compact (a :: b :: rest) = a :: compact (b :: rest) := by
      rw [compact, if_neg hnot]
    rw [hc]
    refine ⟨by simp only [List.map_cons, List.sum_cons] at ih1 ⊢; omega, fun x => ?_⟩
    simp only [List.mem_cons, exists_eq_or_imp] at ih2 ⊢
    rw [ih2]

/-! ## The transition table of the scanner: claim C14 -/

set_option maxRecDepth 100000 in
theorem restart_marker_iff : ∀ c, c < 256 →
    (((c &&& 0xF0) = 0xD0 ∧ (c &&& 0x0F) ≤ 7) ↔ (0xD0 ≤ c ∧ c ≤ 0xD7)) := by
  decide

set_option maxRecDepth 100000 in
theorem top4_iff : ∀ c, c < 256 →
    (((c &&& 0xF0) = 0xC0 ∨ (c &&& 0xF0) = 0xD0 ∨ (c &&& 0xF0) = 0xE0 ∨ (c &&& 0xF0) = 0xF0) ↔
      (c / 16 = 0xC ∨ c / 16 = 0xD ∨ c / 16 = 0xE ∨ c / 16 = 0xF)) := by
  decide

theorem jpgStep_inProgress (st : ScanState) (c : Nat)
    (hs : st.jpgfileInProgress = .IN_PROGRESS) :
    jpgStep st c = { st with jpgfileInProgress := tableInProgress c } := by
  unfold jpgStep tableInProgress
  rw [hs]
  by_cases h : c = 0xFF
  · simp [h]
  · simp only [h, if_false]
    cases st
    simp_all

theorem jpgStep_found0xFF (st : ScanState) (c : Nat) (hc : c < 256)
    (hs : st.jpgfileInProgress = .FOUND_0XFF) :
    jpgStep st c =
      { st with jpgfileInProgress := tableFound0xFF c,
                skipping := if tableFound0xFF c = .FOUND_BC0 then 0 else st.skipping } := by
  unfold jpgStep tableFound0xFF
  rw [hs]
  simp only [restart_marker_iff c hc, top4_iff c hc]
  cases st
  simp only at hs
  subst hs
  split_ifs <;> simp_all

theorem jpgStep_lengthBytes (st : ScanState) (hi lo : Nat)
    (hs : st.jpgfileInProgress = .FOUND_BC0) (h0 : st.skipping = 0) :
    jpgStep (jpgStep st hi) lo =
      { st with skipping := (hi : Int) * 256 + lo - 2,
                jpgfileInProgress :=
                  if (hi : Int) * 256 + lo - 2 > 0 then .SKIPPING else .IN_PROGRESS } := by
  cases st
  simp only at hs h0
  subst hs h0
  simp only [jpgStep, Int.zero_add]
  split_ifs <;> rfl

theorem jpgStep_skipping (st : ScanState) (c : Nat) (hs : st.jpgfileInProgress = .SKIPPING) :
    jpgStep st c =
      { st with skipping := st.skipping - 1,
                jpgfileInProgress := if st.skipping - 1 ≤ 0 then .IN_PROGRESS else .SKIPPING } := by
  cases st
  simp only at hs
  subst hs
  simp only [jpgStep]
  split_ifs <;> rfl

/-- In the state `SKIPPING` with `n + 1` bytes to skip, the next `n + 1` bytes
are consumed whatever they are, the state being `SKIPPING` before each of
them and `IN_PROGRESS` after the last. -/
theorem jpgStep_skip_run (n : Nat) (st : ScanState) (bs : List Nat)
    (hs : st.jpgfileInProgress = .SKIPPING) (hk : st.skipping = (n : Int) + 1)
    (hl : bs.length = n + 1) :
    bs.foldl jpgStep st = { st with jpgfileInProgress := .IN_PROGRESS, skipping := 0 } ∧
      ∀ k, k < bs.length → ((bs.take k).foldl jpgStep st).jpgfileInProgress = .SKIPPING := by
  induction n generalizing st bs with
  | zero =>
    match bs, hl with
    | [c], _ =>
      simp only [List.foldl_cons, List.foldl_nil, jpgStep_skipping st c hs, hk]
      refine ⟨by simp, fun k hk' => ?_⟩
      have : k = 0 := by simpa using hk'
      subst this
      simpa using hs
  | succ n ih =>
    match bs, hl with
    | c :: bs, hl =>
      have hl' : bs.length = n + 1 := by simpa using hl
      have hstep := jpgStep_skipping st c hs
      have hpos : ¬ (st.skipping - 1 ≤ 0) := by rw [hk]; push_cast; omega
      rw [if_neg hpos] at hstep
      have hs1 : (jpgStep st c).jpgfileInProgress = .SKIPPING := by rw [hstep]
      have hk1 : (jpgStep st c).skipping = (n : Int) + 1 := by
        rw [hstep]; simp only; rw [hk]; push_cast; omega
      obtain ⟨h1, h2⟩ := ih (jpgStep st c) bs hs1 hk1 hl'
      refine ⟨?_, fun k hk' => ?_⟩
      · rw [List.foldl_cons, h1, hstep]
      · cases k with
        | zero => simpa using hs
        | succ k =>
          rw [List.take_succ_cons, List.foldl_cons]
          exact h2 k (by simpa using hk')

set_option maxRecDepth 100000 in
/-- C14: the per-byte transition function of the scanner is the specified
table.  In `IN_PROGRESS` and in `FOUND_0XFF` the next state is the one of the
table, for every byte `c`.  From `FOUND_BC0` (`FoundLenHi`, entered with the
skip counter at 0) two bytes `hi`, `lo` set the skip counter to
`hi * 256 + lo - 2`, leading to `SKIPPING` when that is positive and to
`IN_PROGRESS` otherwise.  `SKIPPING` with a counter `skip > 0` consumes exactly
`skip` further bytes, whatever they are, and then is `IN_PROGRESS`. -/
theorem jpgStep_follows_table :
    (∀ (st : ScanState) (c : Nat), st.jpgfileInProgress = .IN_PROGRESS →
        jpgStep st c = { st with jpgfileInProgress := tableInProgress c }) ∧
      (∀ (st : ScanState) (c : Nat), c < 256 → st.jpgfileInProgress = .FOUND_0XFF →
        jpgStep st c =
          { st with jpgfileInProgress := tableFound0xFF c,
                    skipping := if tableFound0xFF c = .FOUND_BC0 then 0 else st.skipping }) ∧
      (∀ (st : ScanState) (hi lo : Nat), st.jpgfileInProgress = .FOUND_BC0 → st.skipping = 0 →
        (jpgStep st hi).jpgfileInProgress = .FOUND_BC1 ∧
        jpgStep (jpgStep st hi) lo =
          { st with skipping := (hi : Int) * 256 + lo - 2,
                    jpgfileInProgress :=
                      if (hi : Int) * 256 + lo - 2 > 0 then .SKIPPING else .IN_PROGRESS }) ∧
      (∀ (st : ScanState) (bs : List Nat), st.jpgfileInProgress = .SKIPPING → 0 < st.skipping →
        (bs.length : Int) = st.skipping →
        bs.foldl jpgStep st = { st with jpgfileInProgress := .IN_PROGRESS, skipping := 0 } ∧
          ∀ k, k < bs.length → ((bs.take k).foldl jpgStep st).jpgfileInProgress = .SKIPPING) ∧
      jpgStep { jpgfileInProgress := .SKIPPING, jpgFileLength := 0, jpgFileBlockNum := 0,
                skipping := 2, fileCount := 1 } 0xFF =
        { jpgfileInProgress := .SKIPPING, jpgFileLength := 0, jpgFileBlockNum := 0,
          skipping := 1, fileCount := 1 } ∧
      jpgStep { jpgfileInProgress := .SKIPPING, jpgFileLength := 0, jpgFileBlockNum := 0,
                skipping := 1, fileCount := 1 } 0xD9 =
        { jpgfileInProgress := .IN_PROGRESS, jpgFileLength := 0, jpgFileBlockNum := 0,
          skipping := 0, fileCount := 1 } := by
  refine ⟨jpgStep_inProgress, jpgStep_found0xFF,
    fun st hi lo hs h0 => ⟨?_, jpgStep_lengthBytes st hi lo hs h0⟩,
    fun st bs hs hpos hl => ?_, by decide, by decide⟩
  · simp [jpgStep, hs]
  · obtain ⟨n, hn⟩ : ∃ n : Nat, bs.length = n + 1 := by
      cases bs with
      | nil => simp at hl; omega
      | cons c bs => exact ⟨bs.length, rfl⟩
    exact jpgStep_skip_run n st bs hs (by rw [← hl, hn]; push_cast; rfl) hn

/-! ## The invariant of the signature scanner -/

theorem jpgStep_fields (st : ScanState) (c : Nat) :
    (jpgStep st c).jpgFileLength = st.jpgFileLength ∧
      (jpgStep st c).jpgFileBlockNum = st.jpgFileBlockNum ∧
      (jpgStep st c).fileCount = st.fileCount := by
  unfold jpgStep
  split <;> (try simp only []) <;> (repeat' split) <;> simp

theorem jpgStep_not_noFile (st : ScanState) (c : Nat) (h : Active st) :
    (jpgStep st c).jpgfileInProgress ≠ .NO_FILE := by
  obtain ⟨h1, h2⟩ := h
  unfold jpgStep
  split <;> (try simp only []) <;> (repeat' split) <;> simp_all

theorem jpgStep_complete (st : ScanState) (c : Nat) (h : Active st)
    (hc : (jpgStep st c).jpgfileInProgress = .COMPLETE) : c = 0xD9 := by
  obtain ⟨h1, h2⟩ := h
  unfold jpgStep at hc
  split at hc <;> (try simp only [] at hc) <;> (repeat' split at hc) <;> simp_all

theorem toInt32_of_lt (n : Nat) (h : n < 2 ^ 31) : toInt32 n = (n : Int) := by
  unfold toInt32
  have : n % 2 ^ 32 = n := Nat.mod_eq_of_lt (by omega)
  rw [this, if_pos h]

theorem toInt32_toNat_le (n : Nat) : (toInt32 n).toNat ≤ n := by
  unfold toInt32
  have h1 : n % 2 ^ 32 ≤ n := Nat.mod_le _ _
  split_ifs <;> omega

theorem switchCase_active (f1First i : Nat) (block : List Nat) (st : ScanState) (p : Nat)
    (ha : Active st) :
    switchCase f1First i block st p = .ok (jpgStep st (block.getD p 0), p + 1) := by
  obtain ⟨h1, h2⟩ := ha
  unfold switchCase
  split <;> simp_all

/-- The loop over a block, entered with a file in progress: it ends without
exception, either with the file still in progress, or at the byte `D9` that
completes it, with the record of the file. -/
theorem blockLoop_active (f1First i : Nat) (block : List Nat) (fuel : Nat) (st : ScanState)
    (p : Nat) (ha : Active st) :
    ∃ st' p' rec, blockLoop f1First i block fuel st p = .ok (st', p', rec) ∧
      st'.jpgFileBlockNum = st.jpgFileBlockNum ∧ st'.fileCount = st.fileCount ∧
      ((rec = none ∧ Active st' ∧ st'.jpgFileLength = st.jpgFileLength) ∨
        (∃ k, p ≤ k ∧ k < CDROM_BLOCK_SIZE ∧ block.getD k 0 = 0xD9 ∧
          st'.jpgfileInProgress = .NO_FILE ∧
          st'.jpgFileLength = st.jpgFileLength + ((k + 1 : Nat) : Int) ∧
          rec = some { jpgFileBlockNum := st.jpgFileBlockNum,
                       jpgFileLength := st.jpgFileLength + ((k + 1 : Nat) : Int),
                       fileCount := st.fileCount })) := by
  induction fuel generalizing st p with
  | zero => exact ⟨st, p, none, rfl, rfl, rfl, Or.inl ⟨rfl, ha, rfl⟩⟩
  | succ fuel ih =>
    simp only [blockLoop]
    by_cases hp : p < CDROM_BLOCK_SIZE
    · rw [if_pos hp, switchCase_active f1First i block st p ha]
      simp only
      obtain ⟨hf1, hf2, hf3⟩ := jpgStep_fields st (block.getD p 0)
      by_cases hc : (jpgStep st (block.getD p 0)).jpgfileInProgress = .COMPLETE
      · rw [if_pos hc]
        have hd9 := jpgStep_complete st _ ha hc
        have hp' : p + 1 < 2 ^ 31 := by
          have : CDROM_BLOCK_SIZE = 2048 := rfl
          omega
        refine ⟨_, _, _, rfl, hf2, hf3, Or.inr ⟨p, le_refl _, hp, hd9, rfl, ?_, ?_⟩⟩
        · simp only [toInt32_of_lt _ hp', hf1]
        · simp only [toInt32_of_lt _ hp', hf1, hf2, hf3]
      · rw [if_neg hc, if_neg (jpgStep_not_noFile st _ ha)]
        obtain ⟨st', p', rec, h1, h2, h3, h4⟩ :=
          ih (jpgStep st (block.getD p 0)) (p + 1) ⟨jpgStep_not_noFile st _ ha, hc⟩
        refine ⟨st', p', rec, h1, by rw [h2, hf2], by rw [h3, hf3], ?_⟩
        rcases h4 with ⟨hr, hact, hlen⟩ | ⟨k, hk1, hk2, hk3, hk4, hk5, hk6⟩
        · exact Or.inl ⟨hr, hact, by rw [hlen, hf1]⟩
        · exact Or.inr ⟨k, by omega, hk2, hk3, hk4, by rw [hk5, hf1],
            by rw [hk6, hf1, hf2, hf3]⟩
    · rw [if_neg hp]
      exact ⟨st, p, none, rfl, rfl, rfl, Or.inl ⟨rfl, ha, rfl⟩⟩

theorem noFileCase_header (f1First i : Nat) (block : List Nat) (st : ScanState)
    (hh : blockHeader block) :
    noFileCase f1First i block st 0 =
      if f1First % CDROM_BLOCK_SIZE ≠ 0 then .error (.notOnBoundary f1First)
      else .ok (headerState f1First i st, headerSkip block) := by
  obtain ⟨h0, h1, h2, h3, h6, h7, h8, h9, h10⟩ := hh
  unfold noFileCase headerState headerSkip
  simp only [Nat.zero_add, h0, h1, h2, h3, h6, h7, h8, h9, h10, ne_eq, not_true_eq_false,
    if_false, and_self, if_true]

theorem noFileCase_noHeader (f1First i : Nat) (block : List Nat) (st : ScanState)
    (hh : ¬ blockHeader block) :
    ∃ q, noFileCase f1First i block st 0 = .ok (st, q) := by
  unfold noFileCase
  simp only [Nat.zero_add]
  split_ifs with c0 c1 c2 c3 c4 c5
  · exact ⟨_, rfl⟩
  · exact ⟨_, rfl⟩
  · exact ⟨_, rfl⟩
  · exact ⟨_, rfl⟩
  · exfalso
    apply hh
    simp only [ne_eq, not_not] at c0 c1 c2 c3
    exact ⟨c0, c1, c2, c3, c4.1, c4.2.1, c4.2.2.1, c4.2.2.2.1, c4.2.2.2.2⟩
  · exfalso
    apply hh
    simp only [ne_eq, not_not] at c0 c1 c2 c3
    exact ⟨c0, c1, c2, c3, c4.1, c4.2.1, c4.2.2.1, c4.2.2.2.1, c4.2.2.2.2⟩
  · exact ⟨_, rfl⟩

theorem switchCase_noFile (f1First i : Nat) (block : List Nat) (st : ScanState) (p : Nat)
    (hs : st.jpgfileInProgress = .NO_FILE) :
    switchCase f1First i block st p = noFileCase f1First i block st p := by
  unfold switchCase
  rw [hs]

theorem headerAt_of_blockHeader (f1Iso block : List Nat) (a : Nat)
    (hblock : ∀ j, j < CDROM_BLOCK_SIZE → f1Iso[a + j]? = some (block.getD j 0))
    (hh : blockHeader block) : headerAt f1Iso a := by
  obtain ⟨h0, h1, h2, h3, h6, h7, h8, h9, h10⟩ := hh
  have hb := fun j (hj : j < 2048) => hblock j hj
  refine ⟨?_, ?_, ?_, ?_, ?_, ?_, ?_, ?_, ?_⟩
  · rw [← h0]; exact hb 0 (by omega)
  · rw [← h1]; exact hb 1 (by omega)
  · rw [← h2]; exact hb 2 (by omega)
  · rw [← h3]; exact hb 3 (by omega)
  · rw [← h6]; exact hb 6 (by omega)
  · rw [← h7]; exact hb 7 (by omega)
  · rw [← h8]; exact hb 8 (by omega)
  · rw [← h9]; exact hb 9 (by omega)
  · rw [← h10]; exact hb 10 (by omega)

theorem blockLoop_succ (f1First i : Nat) (block : List Nat) (fuel : Nat) (st : ScanState)
    (p : Nat) :
    blockLoop f1First i block (fuel + 1) st p =
      if p < CDROM_BLOCK_SIZE then
        match switchCase f1First i block st p with
        | .error e => .error e
        | .ok (st1, p1) =>
          if st1.jpgfileInProgress = .COMPLETE then
            .ok ({ st1 with jpgfileInProgress := .NO_FILE,
                            jpgFileLength := st1.jpgFileLength + toInt32 p1 }, p1,
              some { jpgFileBlockNum := st1.jpgFileBlockNum,
                     jpgFileLength := st1.jpgFileLength + toInt32 p1,
                     fileCount := st1.fileCount })
          else if st1.jpgfileInProgress = .NO_FILE then .ok (st1, p1, none)
          else blockLoop f1First i block fuel st1 p1
      else .ok (st, p, none) := rfl

/-- One block of the scanner keeps the invariant, and a record it writes
stands for a file of the interval. -/
theorem scanBlock_spec (f1Iso : List Nat) (s len f1First i a : Nat) (block : List Nat)
    (st st' : ScanState) (rec : Option JpgRecord)
    (ha : a = f1First + i * CDROM_BLOCK_SIZE)
    (hblock : ∀ j, j < CDROM_BLOCK_SIZE → f1Iso[a + j]? = some (block.getD j 0))
    (hs : s ≤ a) (hend : a + CDROM_BLOCK_SIZE ≤ s + len)
    (hinv : ScanInv f1Iso s st a)
    (h : scanBlock f1First i block st = .ok (st', rec)) :
    ScanInv f1Iso s st' (a + CDROM_BLOCK_SIZE) ∧ ∀ r, rec = some r → RecordOK f1Iso s len r := by
  have hB : CDROM_BLOCK_SIZE = 2048 := rfl
  unfold scanBlock at h
  rcases hinv with hno | ⟨hact, h0, hs0, hlt0, hd0, hda, hhdr0, hlen0, hbn0⟩
  · -- no file in progress: the case `NO_FILE` looks at the start of the block
    rw [blockLoop_succ, if_pos (by omega), switchCase_noFile _ _ _ _ _ hno] at h
    by_cases hh : blockHeader block
    · rw [noFileCase_header _ _ _ _ hh] at h
      by_cases hal : f1First % CDROM_BLOCK_SIZE ≠ 0
      · rw [if_pos hal] at h
        cases h
      · rw [if_neg hal] at h
        simp only at h
        have hhs : (headerState f1First i st).jpgfileInProgress = .IN_PROGRESS := rfl
        rw [if_neg (by rw [hhs]; simp), if_neg (by rw [hhs]; simp)] at h
        have hact1 : Active (headerState f1First i st) := by
          unfold Active; rw [hhs]; simp
        obtain ⟨st2, p2, rec2, heq, hb2, hf2, hcase⟩ :=
          blockLoop_active f1First i block CDROM_BLOCK_SIZE (headerState f1First i st)
            (headerSkip block) hact1
        rw [heq] at h
        simp only [Except.ok.injEq, Prod.mk.injEq] at h
        obtain ⟨hst', hrec⟩ := h
        have hal' : f1First % CDROM_BLOCK_SIZE = 0 := by simpa using hal
        have hdiva : CDROM_BLOCK_SIZE ∣ a := by
          rw [ha]
          exact Nat.dvd_add (Nat.dvd_of_mod_eq_zero hal') (Nat.dvd_mul_left _ _)
        have hhdr := headerAt_of_blockHeader f1Iso block a hblock hh
        have hbn : a / CDROM_BLOCK_SIZE < 2 ^ 31 →
            (headerState f1First i st).jpgFileBlockNum = ((a / CDROM_BLOCK_SIZE : Nat) : Int) := by
          intro hfit
          have hq : a / CDROM_BLOCK_SIZE = f1First / CDROM_BLOCK_SIZE + i := by
            rw [ha, Nat.add_mul_div_right _ _ (by decide : 0 < CDROM_BLOCK_SIZE)]
          show toInt32 (f1First / CDROM_BLOCK_SIZE) + (i : Int) = _
          rw [toInt32_of_lt _ (by omega), hq]
          push_cast
          rfl
        have hl0 : (headerState f1First i st).jpgFileLength = 0 := rfl
        rcases hcase with ⟨hr, hact2, hlen2⟩ | ⟨k, _, hk2, hk3, hk4, hk5, hk6⟩
        · subst hst' hrec
          refine ⟨Or.inr ⟨hact2, a, hs, by omega, hdiva,
            Nat.dvd_add hdiva (dvd_refl _), hhdr, ?_, ?_⟩, ?_⟩
          · simp only [hlen2, hl0]
            have : a + CDROM_BLOCK_SIZE - a = CDROM_BLOCK_SIZE := by omega
            rw [this]; simp
          · intro hfit; simp only [hb2]; exact hbn hfit
          · intro r hr'; rw [hr] at hr'; cases hr'
        · subst hst' hrec
          refine ⟨Or.inl hk4, ?_⟩
          intro r hr
          rw [hk6] at hr
          cases hr
          refine ⟨a, a, k, hs, le_refl _, hdiva, hdiva, hk2, hend, hhdr, ?_, ?_, ?_⟩
          · rw [hblock k hk2, hk3]
          · simp only [hl0]; simp
          · intro hfit; exact hbn hfit
    · obtain ⟨q, hq⟩ := noFileCase_noHeader f1First i block st hh
      rw [hq] at h
      simp only at h
      rw [if_neg (by rw [hno]; simp), if_pos hno] at h
      simp only [Except.ok.injEq, Prod.mk.injEq] at h
      obtain ⟨hst', hrec⟩ := h
      subst hst' hrec
      exact ⟨Or.inl hno, fun r hr => by cases hr⟩
  · -- a file in progress
    obtain ⟨st2, p2, rec2, heq, hb2, hf2, hcase⟩ :=
      blockLoop_active f1First i block (CDROM_BLOCK_SIZE + 1) st 0 hact
    rw [heq] at h
    simp only [Except.ok.injEq, Prod.mk.injEq] at h
    obtain ⟨hst', hrec⟩ := h
    rcases hcase with ⟨hr, hact2, hlen2⟩ | ⟨k, _, hk2, hk3, hk4, hk5, hk6⟩
    · subst hst' hrec
      refine ⟨Or.inr ⟨hact2, h0, hs0, by omega, hd0, Nat.dvd_add hda (dvd_refl _), hhdr0, ?_, ?_⟩, ?_⟩
      · simp only [hlen2, hlen0]
        have : a + CDROM_BLOCK_SIZE - h0 = (a - h0) + CDROM_BLOCK_SIZE := by omega
        rw [this]; push_cast; rfl
      · intro hfit; simp only [hb2]; exact hbn0 hfit
      · intro r hr'; rw [hr] at hr'; cases hr'
    · subst hst' hrec
      refine ⟨Or.inl hk4, ?_⟩
      intro r hr
      rw [hk6] at hr
      cases hr
      refine ⟨h0, a, k, hs0, by omega, hd0, hda, hk2, hend, hhdr0, ?_, ?_, ?_⟩
      · rw [hblock k hk2, hk3]
      · simp only [hlen0]; push_cast; omega
      · intro hfit; exact hbn0 hfit

theorem blockOf_getD (f1Iso buf1 : List Nat) (f1First toRead i j : Nat)
    (hbuf : buf1 = readAt f1Iso f1First toRead) (hlen : buf1.length = toRead)
    (hi : (i + 1) * CDROM_BLOCK_SIZE ≤ toRead) (hj : j < CDROM_BLOCK_SIZE) :
    f1Iso[f1First + i * CDROM_BLOCK_SIZE + j]? = some ((blockOf buf1 i).getD j 0) := by
  have hk : i * CDROM_BLOCK_SIZE + j < toRead := by
    have : (i + 1) * CDROM_BLOCK_SIZE = i * CDROM_BLOCK_SIZE + CDROM_BLOCK_SIZE := by ring
    omega
  have h1 : (blockOf buf1 i)[j]? = buf1[i * CDROM_BLOCK_SIZE + j]? :=
    getElem?_longAt CDROM_BLOCK_SIZE buf1 i j hj
  have h2 : buf1[i * CDROM_BLOCK_SIZE + j]? = f1Iso[f1First + (i * CDROM_BLOCK_SIZE + j)]? := by
    rw [hbuf]; exact getElem?_readAt f1Iso f1First toRead _ hk
  have h3 : i * CDROM_BLOCK_SIZE + j < buf1.length := by omega
  have h4 : buf1[i * CDROM_BLOCK_SIZE + j]? = some (buf1[i * CDROM_BLOCK_SIZE + j]) :=
    List.getElem?_eq_getElem h3
  rw [Nat.add_assoc, ← h2, h4, List.getD_eq_getElem?_getD, h1, h4]
  rfl

/-- The blocks of one buffer keep the invariant, and the records written
stand for files of the interval. -/
theorem blocksLoop_spec (f1Iso : List Nat) (s len f1First toRead : Nat) (buf1 : List Nat)
    (hbuf : buf1 = readAt f1Iso f1First toRead) (hlen : buf1.length = toRead)
    (hs : s ≤ f1First) (hend : f1First + toRead ≤ s + len)
    (n i : Nat) (st st' : ScanState) (recs : List JpgRecord)
    (hn : (i + n) * CDROM_BLOCK_SIZE ≤ toRead)
    (hinv : ScanInv f1Iso s st (f1First + i * CDROM_BLOCK_SIZE))
    (h : blocksLoop f1First buf1 n i st = .ok (st', recs)) :
    ScanInv f1Iso s st' (f1First + (i + n) * CDROM_BLOCK_SIZE) ∧
      ∀ r ∈ recs, RecordOK f1Iso s len r := by
  induction n generalizing i st recs with
  | zero =>
    simp only [blocksLoop, Except.ok.injEq, Prod.mk.injEq] at h
    obtain ⟨rfl, rfl⟩ := h
    exact ⟨hinv, fun r hr => by cases hr⟩
  | succ n ih =>
    simp only [blocksLoop] at h
    split at h
    · cases h
    · rename_i st1 rec hblk
      split at h
      · cases h
      · rename_i st2 recs2 hrest
        simp only [Except.ok.injEq, Prod.mk.injEq] at h
        obtain ⟨rfl, rfl⟩ := h
        have hmul : (i + (n + 1)) * CDROM_BLOCK_SIZE =
            (i + 1 + n) * CDROM_BLOCK_SIZE := by ring
        have hmul1 : (i + 1 + n) * CDROM_BLOCK_SIZE =
            (i + 1) * CDROM_BLOCK_SIZE + n * CDROM_BLOCK_SIZE := by ring
        have hmul2 : (i + 1) * CDROM_BLOCK_SIZE = i * CDROM_BLOCK_SIZE + CDROM_BLOCK_SIZE := by
          ring
        obtain ⟨hinv1, hrec1⟩ := scanBlock_spec f1Iso s len f1First i
          (f1First + i * CDROM_BLOCK_SIZE) (blockOf buf1 i) st st1 rec rfl
          (fun j hj => blockOf_getD f1Iso buf1 f1First toRead i j hbuf hlen (by omega) hj)
          (by omega) (by omega) hinv hblk
        have hinv1' : ScanInv f1Iso s st1 (f1First + (i + 1) * CDROM_BLOCK_SIZE) := by
          rw [hmul2, ← Nat.add_assoc]; exact hinv1
        obtain ⟨hinv2, hrec2⟩ := ih (i + 1) st1 recs2 (by omega) hinv1' hrest
        refine ⟨by rw [hmul]; exact hinv2, fun r hr => ?_⟩
        rcases List.mem_append.mp hr with hr | hr
        · cases rec with
          | none => simp at hr
          | some r0 =>
            have : r = r0 := by simpa using hr
            subst this
            exact hrec1 r rfl
        · exact hrec2 r hr

theorem scanLoop_done (bufsize : Nat) (f1Iso : List Nat) (fuel f1First f1Last : Nat)
    (st : ScanState) (h : f1Last ≤ f1First) :
    scanLoop bufsize f1Iso fuel f1First f1Last st = .ok (st, []) := by
  cases fuel with
  | zero => rfl
  | succ n =>
    have : ¬ f1First < f1Last := by omega
    simp [scanLoop, this]

/-- The buffers of an interval: every record written stands for a file of the
interval. -/
theorem scanLoop_spec (bufsize : Nat) (hb1 : CDROM_BLOCK_SIZE ∣ bufsize)
    (hb2 : bufsize / CDROM_BLOCK_SIZE < 2 ^ 31) (f1Iso : List Nat) (s len f1Last : Nat)
    (hlast : f1Last ≤ s + len) (fuel f1First : Nat) (st st' : ScanState)
    (recs : List JpgRecord) (hs : s ≤ f1First) (hinv : ScanInv f1Iso s st f1First)
    (h : scanLoop bufsize f1Iso fuel f1First f1Last st = .ok (st', recs)) :
    ∀ r ∈ recs, RecordOK f1Iso s len r := by
  induction fuel generalizing f1First st st' recs with
  | zero =>
    simp only [scanLoop, Except.ok.injEq, Prod.mk.injEq] at h
    obtain ⟨_, rfl⟩ := h
    intro r hr; cases hr
  | succ fuel ih =>
    simp only [scanLoop] at h
    split at h
    · rename_i hlt
      have hle : min (f1Last - f1First) bufsize ≤ f1Last - f1First := Nat.min_le_left _ _
      have hcase : min (f1Last - f1First) bufsize = bufsize ∨
          min (f1Last - f1First) bufsize = f1Last - f1First := by
        rcases Nat.le_total (f1Last - f1First) bufsize with hc | hc
        · exact Or.inr (Nat.min_eq_left hc)
        · exact Or.inl (Nat.min_eq_right hc)
      generalize min (f1Last - f1First) bufsize = toRead at h hle hcase
      split at h
      · cases h
      · rename_i hlen
        have hlen' : (readAt f1Iso f1First toRead).length = toRead := by
          simpa using hlen
        split at h
        · cases h
        · rename_i st1 recs1 hblocks
          split at h
          · cases h
          · rename_i st2 recs2 hrest
            simp only [Except.ok.injEq, Prod.mk.injEq] at h
            obtain ⟨_, rfl⟩ := h
            have hnb : (toInt32 (toRead / CDROM_BLOCK_SIZE)).toNat * CDROM_BLOCK_SIZE ≤ toRead :=
              le_trans (Nat.mul_le_mul_right _ (toInt32_toNat_le _)) (Nat.div_mul_le_self _ _)
            obtain ⟨hinv1, hrec1⟩ := blocksLoop_spec f1Iso s len f1First toRead _ rfl hlen' hs
              (by omega) _ 0 st st1 recs1 (by simpa using hnb) (by simpa using hinv) hblocks
            intro r hr
            rcases List.mem_append.mp hr with hr | hr
            · exact hrec1 r hr
            · rcases hcase with hfull | hfin
              · -- a whole buffer: the next one starts where the last block ended
                have hq : (toInt32 (toRead / CDROM_BLOCK_SIZE)).toNat = toRead / CDROM_BLOCK_SIZE := by
                  rw [toInt32_of_lt _ (by rw [hfull]; exact hb2)]; exact Int.toNat_ofNat _
                have hall : toRead / CDROM_BLOCK_SIZE * CDROM_BLOCK_SIZE = toRead :=
                  Nat.div_mul_cancel (by rw [hfull]; exact hb1)
                rw [Nat.zero_add, hq, hall] at hinv1
                exact ih (f1First + toRead) st1 st2 recs2 (by omega) hinv1 hrest r hr
              · -- the last buffer: the loop ends
                rw [scanLoop_done _ _ _ _ _ _ (by omega)] at hrest
                simp only [Except.ok.injEq, Prod.mk.injEq] at hrest
                obtain ⟨_, rfl⟩ := hrest
                cases hr
    · simp only [Except.ok.injEq, Prod.mk.injEq] at h
      obtain ⟨_, rfl⟩ := h
      intro r hr; cases hr

/-- Every record the scanner writes for an interval stands for a file of that
interval. -/
theorem scanInterval_spec (bufsize : Nat) (hb1 : CDROM_BLOCK_SIZE ∣ bufsize)
    (hb2 : bufsize / CDROM_BLOCK_SIZE < 2 ^ 31) (f1Iso : List Nat) (fileCount fileCount' : Int)
    (itor : Nat × Nat) (recs : List JpgRecord)
    (h : scanInterval bufsize f1Iso fileCount itor = .ok (fileCount', recs)) :
    ∀ r ∈ recs, RecordOK f1Iso itor.1 itor.2 r := by
  unfold scanInterval at h
  simp only at h
  split at h
  · cases h
  · rename_i st recs' hloop
    simp only [Except.ok.injEq, Prod.mk.injEq] at h
    obtain ⟨_, rfl⟩ := h
    exact scanLoop_spec bufsize hb1 hb2 f1Iso itor.1 itor.2 _
      (le_trans (Nat.mod_le _ _) (le_refl _)) _ _ _ _ _ (le_refl _) (Or.inl rfl) hloop

theorem readAt_append_left (pre blk : List Nat) (n : Nat) (hl : blk.length = n) :
    readAt (pre ++ blk) pre.length n = blk := by
  unfold readAt
  rw [List.drop_left, List.take_of_length_le (by omega)]

theorem blockOf_zero (blk : List Nat) (hl : blk.length = CDROM_BLOCK_SIZE) :
    blockOf blk 0 = blk := by
  unfold blockOf
  rw [Nat.zero_mul, List.drop_zero, List.take_of_length_le (by omega)]

theorem scanLoop_succ (bufsize : Nat) (f1Iso : List Nat) (fuel f1First f1Last : Nat)
    (st : ScanState) :
    scanLoop bufsize f1Iso (fuel + 1) f1First f1Last st =
      if f1First < f1Last then
        if (readAt f1Iso f1First (min (f1Last - f1First) bufsize)).length ≠
            min (f1Last - f1First) bufsize then
          .error (.failedRead f1First (min (f1Last - f1First) bufsize))
        else
          match blocksLoop f1First (readAt f1Iso f1First (min (f1Last - f1First) bufsize))
              (toInt32 (min (f1Last - f1First) bufsize / CDROM_BLOCK_SIZE)).toNat 0 st with
          | .error e => .error e
          | .ok (st1, recs) =>
            match scanLoop bufsize f1Iso fuel (f1First + min (f1Last - f1First) bufsize)
                f1Last st1 with
            | .error e => .error e
            | .ok (st2, recs2) => .ok (st2, recs ++ recs2)
      else .ok (st, []) := rfl

theorem blocksLoop_one (f1First : Nat) (buf1 : List Nat) (st : ScanState) :
    blocksLoop f1First buf1 1 0 st =
      match scanBlock f1First 0 (blockOf buf1 0) st with
      | .error e => .error e
      | .ok (st1, rec) => .ok (st1, rec.toList ++ []) := by
  show blocksLoop f1First buf1 (0 + 1) 0 st = _
  rw [blocksLoop]
  cases scanBlock f1First 0 (blockOf buf1 0) st with
  | error e => rfl
  | ok v => rfl

/-- The scanner on a map of one interval of one block, the last block of the
image: what the scan of that block writes. -/
theorem scanMap_one_block (pre blk : List Nat) (hl : blk.length = CDROM_BLOCK_SIZE)
    (hfit : pre.length + CDROM_BLOCK_SIZE < ADR_MOD) :
    scanMap [(pre.length, CDROM_BLOCK_SIZE)] (pre ++ blk) =
      match scanBlock pre.length 0 blk
          { jpgfileInProgress := .NO_FILE, jpgFileLength := 0, jpgFileBlockNum := 0,
            skipping := 0, fileCount := 0 } with
      | .error e => .error e
      | .ok (_, rec) => .ok rec.toList := by
  have hfuel : pre.length + CDROM_BLOCK_SIZE - pre.length = 2047 + 1 := by
    have : CDROM_BLOCK_SIZE = 2047 + 1 := rfl
    omega
  have hmin : min (2047 + 1) BUFSIZE = CDROM_BLOCK_SIZE := by decide
  have hnum : (toInt32 (CDROM_BLOCK_SIZE / CDROM_BLOCK_SIZE)).toNat = 1 := by decide
  unfold scanMap
  rw [scanMapLoop]
  unfold scanInterval
  simp only [Nat.mod_eq_of_lt hfit]
  rw [hfuel, scanLoop_succ, if_pos (by omega), hfuel, hmin, readAt_append_left pre blk _ hl,
    if_neg (by simp [hl]), hnum, blocksLoop_one, blockOf_zero blk hl]
  cases scanBlock pre.length 0 blk
      { jpgfileInProgress := .NO_FILE, jpgFileLength := 0, jpgFileBlockNum := 0,
        skipping := 0, fileCount := 0 } with
  | error e => rfl
  | ok v =>
    simp only [List.append_nil]
    rw [scanLoop_done _ _ _ _ _ _ (le_refl _)]
    simp only [scanMapLoop, List.append_nil]

theorem scanMapLoop_spec (bufsize : Nat) (hb1 : CDROM_BLOCK_SIZE ∣ bufsize)
    (hb2 : bufsize / CDROM_BLOCK_SIZE < 2 ^ 31) (f1Iso : List Nat) (fileCount : Int)
    (f1Map : AdrMap_t) (recs : List JpgRecord)
    (h : scanMapLoop bufsize f1Iso fileCount f1Map = .ok recs) :
    ∀ r ∈ recs, ∃ itor ∈ f1Map, RecordOK f1Iso itor.1 itor.2 r := by
  induction f1Map generalizing fileCount recs with
  | nil =>
    simp only [scanMapLoop, Except.ok.injEq] at h
    subst h
    intro r hr; cases hr
  | cons itor rest ih =>
    simp only [scanMapLoop] at h
    split at h
    · cases h
    · rename_i fc1 recs1 h1
      split at h
      · cases h
      · rename_i recs2 h2
        simp only [Except.ok.injEq] at h
        subst h
        intro r hr
        rcases List.mem_append.mp hr with hr | hr
        · exact ⟨itor, by simp, scanInterval_spec bufsize hb1 hb2 f1Iso _ _ itor recs1 h1 r hr⟩
        · obtain ⟨it, hit, hok⟩ := ih fc1 recs2 h2 r hr
          exact ⟨it, by simp [hit], hok⟩

theorem jfifBlock_length : jfifBlock.length = CDROM_BLOCK_SIZE := by
  simp only [jfifBlock, List.length_append, List.length_replicate, List.length_cons,
    List.length_nil, CDROM_BLOCK_SIZE]

set_option maxRecDepth 100000 in
theorem scanBlock_jfifBlock_far :
    scanBlock 0x80000000000 0 jfifBlock
        { jpgfileInProgress := .NO_FILE, jpgFileLength := 0, jpgFileBlockNum := 0,
          skipping := 0, fileCount := 0 } =
      .ok ({ jpgfileInProgress := .NO_FILE, jpgFileLength := 2078, jpgFileBlockNum := 0,
             skipping := 0, fileCount := 1 },
        some { jpgFileBlockNum := 0, jpgFileLength := 30, fileCount := 1 }) := by
  decide

set_option maxRecDepth 100000 in
theorem scanBlock_jfifBlock_near :
    scanBlock 4096 0 jfifBlock
        { jpgfileInProgress := .NO_FILE, jpgFileLength := 0, jpgFileBlockNum := 0,
          skipping := 0, fileCount := 0 } =
      .ok ({ jpgfileInProgress := .NO_FILE, jpgFileLength := 2078, jpgFileBlockNum := 2,
             skipping := 0, fileCount := 1 },
        some { jpgFileBlockNum := 2, jpgFileLength := 30, fileCount := 1 }) := by
  decide

theorem scanMap_jfifBlock_at (pre : List Nat) (n : Nat) (hpre : pre.length = n)
    (hfit : n + CDROM_BLOCK_SIZE < ADR_MOD) (rec : Option JpgRecord) (st : ScanState)
    (hb : scanBlock n 0 jfifBlock
        { jpgfileInProgress := .NO_FILE, jpgFileLength := 0, jpgFileBlockNum := 0,
          skipping := 0, fileCount := 0 } = .ok (st, rec)) :
    scanMap [(n, CDROM_BLOCK_SIZE)] (pre ++ jfifBlock) = .ok rec.toList := by
  subst hpre
  rw [scanMap_one_block pre jfifBlock jfifBlock_length hfit, hb]

theorem blockLoop_quiet (f1First i : Nat) (block : List Nat) (fuel : Nat) (st : ScanState)
    (p : Nat) (hs : st.jpgfileInProgress = .IN_PROGRESS)
    (hq : ∀ q, p ≤ q → block.getD q 0 ≠ 0xFF) :
    ∃ p', blockLoop f1First i block fuel st p = .ok (st, p', none) := by
  induction fuel generalizing p with
  | zero => exact ⟨p, rfl⟩
  | succ fuel ih =>
    rw [blockLoop_succ]
    split
    · have ha : Active st := by simp [Active, hs]
      have hstep : jpgStep st (block.getD p 0) = st := by
        rw [jpgStep_inProgress st _ hs]
        simp only [tableInProgress, hq p (le_refl _), if_false]
        cases st
        simp only at hs
        subst hs
        rfl
      rw [switchCase_active _ _ _ _ _ ha, hstep]
      simp only [hs, reduceCtorEq, if_false]
      exact ih (p + 1) (fun q hq' => hq q (by omega))
    · exact ⟨p, rfl⟩

theorem headerBlock_length : headerBlock.length = CDROM_BLOCK_SIZE := by
  simp only [headerBlock, List.length_append, List.length_replicate, List.length_cons,
    List.length_nil, CDROM_BLOCK_SIZE]

theorem eoiBlock_length : eoiBlock.length = CDROM_BLOCK_SIZE := by
  simp only [eoiBlock, List.length_append, List.length_replicate, List.length_cons,
    List.length_nil, CDROM_BLOCK_SIZE]

theorem headerBlock_quiet (q : Nat) (hq : 20 ≤ q) : headerBlock.getD q 0 ≠ 0xFF := by
  unfold headerBlock
  rw [List.getD_append_right _ _ _ _ (by simp only [List.length_cons, List.length_nil]; omega)]
  rw [List.getD_eq_getElem?_getD, List.getElem?_replicate]
  split <;> simp


theorem blockHeader_headerBlock : blockHeader headerBlock := by
  unfold headerBlock
  generalize List.replicate 2037 0 = rest
  simp [blockHeader]

theorem headerSkip_headerBlock : headerSkip headerBlock = 20 := by
  unfold headerBlock
  generalize List.replicate 2037 0 = rest
  simp [headerSkip]
  decide

/-- The scan of a block that starts with a header and holds no byte `FF` from
the end of the first segment on, as the block of index `i` of a buffer read at
a block boundary: the header is found, no marker is, and the block adds 2048
to the length. -/
theorem scanBlock_header_quiet (f1First i : Nat) (block : List Nat) (st : ScanState)
    (hs : st.jpgfileInProgress = .NO_FILE) (hal : f1First % CDROM_BLOCK_SIZE = 0)
    (hh : blockHeader block) (hq : ∀ q, headerSkip block ≤ q → block.getD q 0 ≠ 0xFF) :
    scanBlock f1First i block st =
      .ok ({ headerState f1First i st with jpgFileLength := 0 + CDROM_BLOCK_SIZE }, none) := by
  obtain ⟨p', hp'⟩ := blockLoop_quiet f1First i block CDROM_BLOCK_SIZE
    (headerState f1First i st) (headerSkip block) rfl hq
  unfold scanBlock
  rw [blockLoop_succ, if_pos (by decide), switchCase_noFile _ _ _ _ _ hs,
    noFileCase_header _ _ _ _ hh, if_neg (by simpa using hal)]
  have h1 : (headerState f1First i st).jpgfileInProgress ≠ .COMPLETE := by
    simp [headerState]
  have h2 : (headerState f1First i st).jpgfileInProgress ≠ .NO_FILE := by
    simp [headerState]
  simp only [h1, h2, if_false]
  rw [hp']
  rfl


theorem scanBlock_headerBlock :
    scanBlock 0 0 headerBlock
        { jpgfileInProgress := .NO_FILE, jpgFileLength := 0, jpgFileBlockNum := 0,
          skipping := 0, fileCount := 0 } =
      .ok ({ jpgfileInProgress := .IN_PROGRESS, jpgFileLength := 2048, jpgFileBlockNum := 0,
             skipping := 0, fileCount := 1 }, none) := by
  have hst : ({ headerState 0 0
      { jpgfileInProgress := .NO_FILE, jpgFileLength := 0, jpgFileBlockNum := 0,
        skipping := 0, fileCount := 0 } with jpgFileLength := 0 + CDROM_BLOCK_SIZE } : ScanState) =
      { jpgfileInProgress := .IN_PROGRESS, jpgFileLength := 2048, jpgFileBlockNum := 0,
        skipping := 0, fileCount := 1 } := by decide
  have h := scanBlock_header_quiet 0 0 headerBlock
    { jpgfileInProgress := .NO_FILE, jpgFileLength := 0, jpgFileBlockNum := 0,
      skipping := 0, fileCount := 0 } rfl (by decide) blockHeader_headerBlock
    (fun q hq => headerBlock_quiet q (by rw [headerSkip_headerBlock] at hq; exact hq))
  rw [hst] at h
  exact h

theorem scanBlock_eoiBlock :
    scanBlock 0 1 eoiBlock
        { jpgfileInProgress := .IN_PROGRESS, jpgFileLength := 2048, jpgFileBlockNum := 0,
          skipping := 0, fileCount := 1 } =
      .ok ({ jpgfileInProgress := .NO_FILE, jpgFileLength := 2048 + 5 + 2048,
             jpgFileBlockNum := 0, skipping := 0, fileCount := 1 },
        some { jpgFileBlockNum := 0, jpgFileLength := 2048 + 5, fileCount := 1 }) := by
  decide


theorem blocksLoop_single (f1First : Nat) (buf1 : List Nat) (i : Nat) (st : ScanState) :
    blocksLoop f1First buf1 1 i st =
      match scanBlock f1First i (blockOf buf1 i) st with
      | .error e => .error e
      | .ok (st1, rec) => .ok (st1, rec.toList ++ []) := by
  show blocksLoop f1First buf1 (0 + 1) i st = _
  rw [blocksLoop]
  cases scanBlock f1First i (blockOf buf1 i) st with
  | error e => rfl
  | ok v => rfl

theorem blocksLoop_two (f1First : Nat) (buf1 : List Nat) (st : ScanState) :
    blocksLoop f1First buf1 2 0 st =
      match scanBlock f1First 0 (blockOf buf1 0) st with
      | .error e => .error e
      | .ok (st1, rec1) =>
        match scanBlock f1First 1 (blockOf buf1 1) st1 with
        | .error e => .error e
        | .ok (st2, rec2) => .ok (st2, rec1.toList ++ (rec2.toList ++ [])) := by
  show blocksLoop f1First buf1 (1 + 1) 0 st = _
  rw [blocksLoop]
  cases scanBlock f1First 0 (blockOf buf1 0) st with
  | error e => rfl
  | ok v =>
    obtain ⟨st1, rec1⟩ := v
    simp only [Nat.zero_add]
    rw [blocksLoop_single]
    cases scanBlock f1First 1 (blockOf buf1 1) st1 with
    | error e => rfl
    | ok w => rfl

theorem blockOf_append (blk1 blk2 : List Nat) (hl1 : blk1.length = CDROM_BLOCK_SIZE)
    (hl2 : blk2.length = CDROM_BLOCK_SIZE) :
    blockOf (blk1 ++ blk2) 0 = blk1 ∧ blockOf (blk1 ++ blk2) 1 = blk2 := by
  unfold blockOf
  constructor
  · rw [Nat.zero_mul, List.drop_zero, List.take_append_of_le_length (by omega),
      List.take_of_length_le (by omega)]
  · rw [Nat.one_mul, ← hl1, List.drop_left, List.take_of_length_le (by omega)]


/-- The scanner on a map of one interval of two blocks, the last blocks of the
image, when the scan of the first block writes nothing and the scan of the
second one writes the record `r`. -/
theorem scanMap_two_blocks (pre blk1 blk2 : List Nat) (n : Nat) (hpre : pre.length = n)
    (hl1 : blk1.length = CDROM_BLOCK_SIZE) (hl2 : blk2.length = CDROM_BLOCK_SIZE)
    (hfit : n + 2 * CDROM_BLOCK_SIZE < ADR_MOD) (st1 st2 : ScanState) (r : JpgRecord)
    (h1 : scanBlock n 0 blk1
        { jpgfileInProgress := .NO_FILE, jpgFileLength := 0, jpgFileBlockNum := 0,
          skipping := 0, fileCount := 0 } = .ok (st1, none))
    (h2 : scanBlock n 1 blk2 st1 = .ok (st2, some r)) :
    scanMap [(n, 2 * CDROM_BLOCK_SIZE)] (pre ++ (blk1 ++ blk2)) = .ok [r] := by
  subst hpre
  have hfuel : pre.length + 2 * CDROM_BLOCK_SIZE - pre.length = 4095 + 1 := by
    have : CDROM_BLOCK_SIZE = 2047 + 1 := rfl
    omega
  have hmin : min (4095 + 1) BUFSIZE = 2 * CDROM_BLOCK_SIZE := by decide
  have hnum : (toInt32 (2 * CDROM_BLOCK_SIZE / CDROM_BLOCK_SIZE)).toNat = 2 := by decide
  have hlen : (blk1 ++ blk2).length = 2 * CDROM_BLOCK_SIZE := by
    rw [List.length_append, hl1, hl2]; omega
  obtain ⟨hb0, hb1⟩ := blockOf_append blk1 blk2 hl1 hl2
  unfold scanMap
  rw [scanMapLoop]
  unfold scanInterval
  simp only [Nat.mod_eq_of_lt hfit]
  rw [hfuel, scanLoop_succ, if_pos (by omega), hfuel, hmin,
    readAt_append_left pre (blk1 ++ blk2) _ hlen,
    if_neg (by simp [hlen]), hnum, blocksLoop_two, hb0, hb1, h1]
  simp only []
  rw [h2]
  simp only []
  rw [scanLoop_done _ _ _ _ _ _ (le_refl _)]
  simp only [scanMapLoop, Option.toList, List.append_nil, List.nil_append]

/-- The scanner on the image of `headerBlock` and `eoiBlock`: one record, of
block 0 and length `2048 + 5`. -/
theorem scanMap_two_block_file :
    scanMap [(0, 2 * CDROM_BLOCK_SIZE)] ([] ++ (headerBlock ++ eoiBlock)) =
      .ok [{ jpgFileBlockNum := 0, jpgFileLength := 2048 + 5, fileCount := 1 }] :=
  scanMap_two_blocks [] headerBlock eoiBlock 0 rfl headerBlock_length eoiBlock_length
    (by decide) _ _ _ scanBlock_headerBlock scanBlock_eoiBlock


/-! ## The text the scanner writes, read back by the catalog parser -/

theorem hexDigit_digitChar : ∀ d < 16, hexDigit (digitChar d) = some d := by decide

theorem decDigit_digitChar : ∀ d < 10, decDigit (digitChar d) = some d := by decide

theorem digitChar_plain : ∀ d < 16, PlainChar (digitChar d) := by decide

theorem printDigits_append (base : Nat) (fuel n : Nat) (acc : List Char) :
    printDigits base fuel n acc = printDigits base fuel n [] ++ acc := by
  induction fuel generalizing n acc with
  | zero => simp [printDigits]
  | succ fuel ih =>
    simp only [printDigits]
    split
    · simp
    · rw [ih, ih (n / base) [digitChar (n % base)]]
      simp

theorem printDigits_mem (base : Nat) (hb : 0 < base) (fuel n : Nat) (acc : List Char) :
    ∀ c ∈ printDigits base fuel n acc, c ∈ acc ∨ ∃ d < base, c = digitChar d := by
  induction fuel generalizing n acc with
  | zero => intro c hc; exact Or.inl (by simpa [printDigits] using hc)
  | succ fuel ih =>
    intro c hc
    simp only [printDigits] at hc
    split at hc
    · rcases List.mem_cons.mp hc with h | h
      · exact Or.inr ⟨n % base, Nat.mod_lt _ hb, h⟩
      · exact Or.inl h
    · rcases ih _ _ c hc with h | h
      · rcases List.mem_cons.mp h with h | h
        · exact Or.inr ⟨n % base, Nat.mod_lt _ hb, h⟩
        · exact Or.inl h
      · exact Or.inr h

theorem printDigits_head (base : Nat) (hb : 0 < base) (fuel n : Nat) (acc : List Char) :
    ∃ d cs, d < base ∧ printDigits base (fuel + 1) n acc = digitChar d :: cs := by
  induction fuel generalizing n acc with
  | zero =>
    simp only [printDigits]
    split
    · exact ⟨_, _, Nat.mod_lt _ hb, rfl⟩
    · exact ⟨_, _, Nat.mod_lt _ hb, rfl⟩
  | succ fuel ih =>
    rw [printDigits]
    split
    · exact ⟨_, _, Nat.mod_lt _ hb, rfl⟩
    · exact ih _ _

theorem printDigits_length (base : Nat) (fuel n k : Nat) (acc : List Char)
    (hk : 0 < k) (hn : n < base ^ k) :
    (printDigits base fuel n acc).length ≤ k + acc.length := by
  induction fuel generalizing n k acc with
  | zero => simp [printDigits]
  | succ fuel ih =>
    simp only [printDigits]
    split
    · simp only [List.length_cons]; omega
    · rename_i hne
      obtain ⟨k', rfl⟩ : ∃ k', k = k' + 1 := ⟨k - 1, by omega⟩
      have hk' : 0 < k' := by
        rcases Nat.eq_zero_or_pos k' with h | h
        · subst h
          exact absurd (Nat.div_eq_of_lt (by simpa using hn)) hne
        · exact h
      have hdiv : n / base < base ^ k' := by
        apply Nat.div_lt_of_lt_mul
        rw [← Nat.pow_succ']
        exact hn
      have := ih (n / base) k' (digitChar (n % base) :: acc) hk' hdiv
      simp only [List.length_cons] at this
      omega

theorem hexDigits_printDigits (fuel n : Nat) (hn : n < fuel) :
    ∃ k, ∀ a tl, hexDigits (printDigits 16 fuel n tl) a = hexDigits tl (a * 16 ^ k + n) := by
  induction fuel generalizing n with
  | zero => omega
  | succ fuel ih =>
    simp only [printDigits]
    split
    · rename_i h0
      refine ⟨1, fun a tl => ?_⟩
      rw [hexDigits, hexDigit_digitChar _ (Nat.mod_lt _ (by decide))]
      have : n % 16 = n := by omega
      simp [this]
    · rename_i h0
      obtain ⟨k, hk⟩ := ih (n / 16) (by omega)
      refine ⟨k + 1, fun a tl => ?_⟩
      rw [hk, hexDigits, hexDigit_digitChar _ (Nat.mod_lt _ (by decide))]
      simp only
      congr 1
      have := Nat.div_add_mod n 16
      rw [pow_succ]
      nlinarith [Nat.div_add_mod n 16]

theorem decDigits_printDigits (fuel n : Nat) (hn : n < fuel) :
    ∃ k, ∀ a tl, decDigits (printDigits 10 fuel n tl) a = decDigits tl (a * 10 ^ k + n) := by
  induction fuel generalizing n with
  | zero => omega
  | succ fuel ih =>
    simp only [printDigits]
    split
    · rename_i h0
      refine ⟨1, fun a tl => ?_⟩
      rw [decDigits, decDigit_digitChar _ (Nat.mod_lt _ (by decide))]
      have : n % 10 = n := by omega
      simp [this]
    · rename_i h0
      obtain ⟨k, hk⟩ := ih (n / 10) (by omega)
      refine ⟨k + 1, fun a tl => ?_⟩
      rw [hk, decDigits, decDigit_digitChar _ (Nat.mod_lt _ (by decide))]
      simp only
      congr 1
      rw [pow_succ]
      nlinarith [Nat.div_add_mod n 10]

theorem dropWhile_isspace_plain (c : Char) (r : List Char) (hc : isspace c = false) :
    (' ' :: c :: r).dropWhile isspace = c :: r := by
  have h1 : isspace ' ' = true := by decide
  simp [List.dropWhile, h1, hc]

theorem scanHex_plain (c : Char) (r : List Char) (hc : (hexDigit c).isSome = true)
    (hp : PlainChar c) (hx : ∀ x r', r = x :: r' → x ≠ 'x' ∧ x ≠ 'X')
    (v : Nat) (rest : List Char) (hv : hexDigits (c :: r) 0 = (v, rest)) (hlt : v < ADR_MOD) :
    scanHex (' ' :: c :: r) = some (v, rest) := by
  obtain ⟨hs, -, -, -, -, hm, hpl⟩ := hp
  have hsign : scanHex.match_1 (fun _ => Bool × List Char) (c :: r) (fun r => (true, r))
      (fun r => (false, r)) (fun r => (false, r)) = (false, c :: r) := by
    split
    · rename_i r1 h1
      cases h1
      exact absurd rfl hm
    · rename_i r1 h1
      cases h1
      exact absurd rfl hpl
    · rfl
  have hpre : scanHex.match_2 (fun _ => Bool × List Char) (c :: r)
      (fun x r' => if x = 'x' ∨ x = 'X' then (true, r') else (false, c :: r))
      (fun r' => (false, r')) = (false, c :: r) := by
    split
    · rename_i x r' h3
      cases h3
      have := hx x r' rfl
      simp only [this.1, this.2, or_self, if_false]
    · rfl
  unfold scanHex
  rw [dropWhile_isspace_plain c r hs]
  simp only [hsign, hpre, hc, if_true, hv, Nat.not_le.mpr hlt, if_false, Bool.false_eq_true]


theorem scanDecInt_plain (c : Char) (r : List Char) (hc : (decDigit c).isSome = true)
    (hp : PlainChar c) (v : Nat) (rest : List Char) (hv : decDigits (c :: r) 0 = (v, rest))
    (hlt : v < 2 ^ 31) :
    scanDecInt (' ' :: c :: r) = some (v, rest) := by
  obtain ⟨hs, -, -, -, -, hm, hpl⟩ := hp
  have hsign : scanHex.match_1 (fun _ => Bool × List Char) (c :: r) (fun r => (true, r))
      (fun r => (false, r)) (fun r => (false, r)) = (false, c :: r) := by
    split
    · rename_i r1 h1
      cases h1
      exact absurd rfl hm
    · rename_i r1 h1
      cases h1
      exact absurd rfl hpl
    · rfl
  have hval : ((min (v : Int) (2 ^ 63 - 1)) % 2 ^ 32).toNat = v := by
    have h1 : min (v : Int) (2 ^ 63 - 1) = (v : Int) := by
      apply min_eq_left
      omega
    rw [h1]
    omega
  unfold scanDecInt
  rw [dropWhile_isspace_plain c r hs]
  simp only [hsign, hc, if_true, hv, if_false, Bool.false_eq_true, hval]

theorem takeWhile_not_isspace (w tl : List Char) (hw : ∀ c ∈ w, isspace c = false) :
    (w ++ ' ' :: tl).takeWhile (fun c => !isspace c) = w ∧
      (w ++ []).takeWhile (fun c => !isspace c) = w := by
  induction w with
  | nil =>
    have h1 : isspace ' ' = true := by decide
    simp [List.takeWhile, h1]
  | cons c w ih =>
    have hc := hw c (by simp)
    have := ih (fun c hc => hw c (by simp [hc]))
    rw [List.cons_append, List.cons_append, List.takeWhile_cons, List.takeWhile_cons]
    simp only [hc, Bool.not_false, if_true]
    exact ⟨by rw [this.1], by rw [this.2]⟩

theorem scanString_word (c : Char) (w tl : List Char) (hw : ∀ x ∈ c :: w, isspace x = false) :
    scanString none (' ' :: c :: w ++ ' ' :: tl) = some (c :: w, ' ' :: tl) := by
  have hc := hw c (by simp)
  unfold scanString
  have hd : (' ' :: c :: w ++ ' ' :: tl).dropWhile isspace = c :: w ++ ' ' :: tl :=
    dropWhile_isspace_plain c (w ++ ' ' :: tl) hc
  rw [hd]
  simp only [(takeWhile_not_isspace (c :: w) tl hw).1]
  simp

theorem scanString_last (c : Char) (w : List Char) (hw : ∀ x ∈ c :: w, isspace x = false)
    (hl : (c :: w).length ≤ 255) :
    ∃ rest, scanString (some 255) (' ' :: c :: w) = some (c :: w, rest) := by
  have hc := hw c (by simp)
  unfold scanString
  rw [dropWhile_isspace_plain c w hc]
  have h1 := (takeWhile_not_isspace (c :: w) [] hw).2
  rw [List.append_nil] at h1
  simp only [h1, List.take_of_length_le hl]
  simp

theorem beforeSemi1_append (body : List Char) (hb : ∀ c ∈ body, c ≠ ';') :
    beforeSemi1 (body ++ [';', '1']) = some body := by
  induction body with
  | nil => simp [beforeSemi1]
  | cons x body ih =>
    have hx := hb x (by simp)
    have ih := ih (fun c hc => hb c (by simp [hc]))
    cases body with
    | nil => simp [beforeSemi1, hx]
    | cons y body =>
      simp only [List.cons_append] at ih ⊢
      simp only [beforeSemi1, hx, false_and, if_false, ih]

theorem printNat_plain (base : Nat) (hb : 0 < base) (hb16 : base ≤ 16) (n : Nat) :
    ∀ c ∈ printNat base n, PlainChar c := by
  intro c hc
  rcases printDigits_mem base hb _ _ _ c hc with h | ⟨d, hd, rfl⟩
  · cases h
  · exact digitChar_plain d (by omega)

theorem scanHex_printNat (n : Nat) (hn : n < ADR_MOD) (tl : List Char) :
    scanHex (' ' :: (printNat 16 n ++ ' ' :: tl)) = some (n, ' ' :: tl) := by
  obtain ⟨d, cs, hd, hcs⟩ := printDigits_head 16 (by decide) n n []
  have hmem := printNat_plain 16 (by decide) (by decide) n
  have hpr : printNat 16 n = digitChar d :: cs := hcs
  rw [hpr] at hmem ⊢
  obtain ⟨k, hk⟩ := hexDigits_printDigits (n + 1) n (by omega)
  have hval : hexDigits (digitChar d :: (cs ++ ' ' :: tl)) 0 = (n, ' ' :: tl) := by
    have h1 : digitChar d :: (cs ++ ' ' :: tl) = printDigits 16 (n + 1) n (' ' :: tl) := by
      rw [printDigits_append, hcs]
      rfl
    rw [h1, hk]
    simp [hexDigits, hexDigit]
  refine scanHex_plain (digitChar d) (cs ++ ' ' :: tl) ?_ (hmem _ (by simp)) ?_ n _ hval hn
  · rw [hexDigit_digitChar d hd]; rfl
  · intro x r' hx
    cases cs with
    | nil =>
      simp only [List.nil_append, List.cons.injEq] at hx
      rw [← hx.1]
      decide
    | cons y cs =>
      simp only [List.cons_append, List.cons.injEq] at hx
      have := hmem y (by simp)
      rw [← hx.1]
      exact ⟨this.2.2.2.1, this.2.2.2.2.1⟩

theorem scanDecInt_printNat (n : Nat) (hn : n < 2 ^ 31) (tl : List Char) :
    scanDecInt (' ' :: (printNat 10 n ++ ' ' :: tl)) = some (n, ' ' :: tl) := by
  obtain ⟨d, cs, hd, hcs⟩ := printDigits_head 10 (by decide) n n []
  have hmem := printNat_plain 10 (by decide) (by decide) n
  have hpr : printNat 10 n = digitChar d :: cs := hcs
  rw [hpr] at hmem ⊢
  obtain ⟨k, hk⟩ := decDigits_printDigits (n + 1) n (by omega)
  have hval : decDigits (digitChar d :: (cs ++ ' ' :: tl)) 0 = (n, ' ' :: tl) := by
    have h1 : digitChar d :: (cs ++ ' ' :: tl) = printDigits 10 (n + 1) n (' ' :: tl) := by
      rw [printDigits_append, hcs]
      rfl
    rw [h1, hk]
    simp [decDigits, decDigit]
  refine scanDecInt_plain (digitChar d) (cs ++ ' ' :: tl) ?_ (hmem _ (by simp)) n _ hval hn
  rw [decDigit_digitChar d hd]; rfl


theorem printDec_chars (z : Int) (hlo : -(2 ^ 31) ≤ z) (hhi : z < 2 ^ 31) :
    (∀ c ∈ printDec z, isspace c = false ∧ c ≠ '\x00' ∧ c ≠ ';') ∧ (printDec z).length ≤ 11 := by
  unfold printDec
  split
  · constructor
    · intro c hc
      rcases List.mem_cons.mp hc with rfl | hc
      · decide
      · have := printNat_plain 10 (by decide) (by decide) _ c hc
        exact ⟨this.1, this.2.1, this.2.2.1⟩
    · have := printDigits_length 10 ((-z).toNat + 1) (-z).toNat 10 [] (by decide) (by omega)
      simp only [List.length_cons, printNat]
      simp only [List.length_nil] at this
      omega
  · constructor
    · intro c hc
      have := printNat_plain 10 (by decide) (by decide) _ c hc
      exact ⟨this.1, this.2.1, this.2.2.1⟩
    · have := printDigits_length 10 (z.toNat + 1) z.toNat 10 [] (by decide) (by omega)
      simp only [printNat]
      simp only [List.length_nil] at this
      omega

theorem catalogLine_recordLine (r : JpgRecord) (fName0 : List Char) (m : FileDescMap_t)
    (hl : 0 ≤ r.jpgFileLength) (hl2 : r.jpgFileLength < 2 ^ 31)
    (hn : -(2 ^ 31) ≤ r.fileCount) (hn2 : r.fileCount < 2 ^ 31) :
    catalogLine fName0 m (recordLine r) =
      catalogAssign m (String.mk (recordName r))
        { pos := (r.jpgFileBlockNum % 2 ^ 32).toNat * CDROM_BLOCK_SIZE,
          len := r.jpgFileLength.toNat } := by
  obtain ⟨hNc, hNl⟩ := printDec_chars r.fileCount hn hn2
  have hhex : printHex r.jpgFileBlockNum = printNat 16 (r.jpgFileBlockNum % 2 ^ 64).toNat := rfl
  have hlow : (r.jpgFileBlockNum % 2 ^ 64).toNat % 2 ^ 32 = (r.jpgFileBlockNum % 2 ^ 32).toNat := by
    omega
  have hdec : printDec r.jpgFileLength = printNat 10 r.jpgFileLength.toNat := by
    unfold printDec
    rw [if_neg (by omega)]
  have hH := printNat_plain 16 (by decide) (by decide) (r.jpgFileBlockNum % 2 ^ 64).toNat
  have hD := printNat_plain 10 (by decide) (by decide) r.jpgFileLength.toNat
  have hname : ∀ c ∈ recordName r, isspace c = false ∧ c ≠ '\x00' ∧ c ≠ ';' := by
    intro c hc
    simp only [recordName, List.mem_append, List.mem_cons, List.mem_singleton,
      List.not_mem_nil, or_false] at hc
    rcases hc with (h | h) | h
    · rcases h with rfl | rfl | rfl | rfl <;> decide
    · exact hNc c h
    · rcases h with rfl | rfl | rfl | rfl <;> decide
  -- the line, as the bracket, the fields and the mark that ends them
  have hline : recordLine r = ']' :: ((' ' :: (printNat 16 (r.jpgFileBlockNum % 2 ^ 64).toNat ++
      ' ' :: (printNat 10 r.jpgFileLength.toNat ++
        ' ' :: '0' :: (['0', '/'] ++ ' ' :: recordName r)))) ++ [';', '1']) := by
    simp [recordLine, recordName, hhex, hdec]
  have hbody : ∀ c ∈ (' ' :: (printNat 16 (r.jpgFileBlockNum % 2 ^ 64).toNat ++
      ' ' :: (printNat 10 r.jpgFileLength.toNat ++
        ' ' :: '0' :: (['0', '/'] ++ ' ' :: recordName r)))), c ≠ '\x00' ∧ c ≠ ';' := by
    intro c hc
    simp only [List.mem_append, List.mem_cons, List.mem_singleton, List.not_mem_nil,
      or_false] at hc
    rcases hc with rfl | h | rfl | h | rfl | rfl | (rfl | rfl) | rfl | h
    · decide
    · exact ⟨(hH c h).2.1, (hH c h).2.2.1⟩
    · decide
    · exact ⟨(hD c h).2.1, (hD c h).2.2.1⟩
    · decide
    · decide
    · decide
    · decide
    · decide
    · exact (hname c h).2
  unfold catalogLine
  have hfilter : (recordLine r).filter (fun c => decide (c ≠ '\x00')) = recordLine r := by
    rw [List.filter_eq_self]
    intro c hc
    rw [hline] at hc
    rcases List.mem_cons.mp hc with rfl | hc
    · decide
    · rcases List.mem_append.mp hc with hc | hc
      · simpa using (hbody c hc).1
      · simp only [List.mem_cons, List.mem_singleton, List.not_mem_nil, or_false] at hc
        rcases hc with rfl | rfl <;> decide
  simp only [hfilter]
  rw [hline]
  simp only [afterChar, if_true]
  unfold catalogFields
  rw [beforeSemi1_append _ (fun c hc => (hbody c hc).2)]
  simp only []
  have hscan : sscanfCatalog (' ' :: (printNat 16 (r.jpgFileBlockNum % 2 ^ 64).toNat ++
      ' ' :: (printNat 10 r.jpgFileLength.toNat ++
        ' ' :: '0' :: (['0', '/'] ++ ' ' :: recordName r)))) fName0 =
      (3, (r.jpgFileBlockNum % 2 ^ 32).toNat, r.jpgFileLength.toNat, recordName r) := by
    unfold sscanfCatalog scanHexInt
    rw [scanHex_printNat _ (by simp only [ADR_MOD]; omega)]
    simp only []
    rw [scanDecInt_printNat _ (by omega)]
    simp only []
    have h3 : scanString none (' ' :: '0' :: (['0', '/'] ++ ' ' :: recordName r)) =
        some (['0', '0', '/'], ' ' :: recordName r) :=
      scanString_word '0' ['0', '/'] (recordName r) (by decide)
    rw [h3]
    simp only []
    obtain ⟨rest, hrest⟩ := scanString_last 'F' (['i', 'l', 'e'] ++ printDec r.fileCount ++
      ['.', 'j', 'p', 'g']) (by
        intro x hx
        exact (hname x (by simpa [recordName] using hx)).1) (by
        simp only [List.length_cons, List.length_append, List.length_nil]
        omega)
    have hrn : recordName r = 'F' :: (['i', 'l', 'e'] ++ printDec r.fileCount ++
      ['.', 'j', 'p', 'g']) := by simp [recordName]
    rw [hrn, hrest]
    simp only []
    rw [hlow]
  rw [hscan]
  simp only []
  congr 2
  have : (r.jpgFileBlockNum % 2 ^ 32).toNat * CDROM_BLOCK_SIZE < ADR_MOD := by
    simp only [CDROM_BLOCK_SIZE, ADR_MOD]
    omega
  exact Nat.mod_eq_of_lt this


theorem afterChar_append (b : Char) (pre rest : List Char) (hpre : ∀ c ∈ pre, c ≠ b) :
    afterChar b (pre ++ b :: rest) = some rest := by
  induction pre with
  | nil => simp [afterChar]
  | cons x pre ih =>
    have hx := hpre x (by simp)
    simp only [List.cons_append, afterChar, hx, if_false]
    exact ih (fun c hc => hpre c (by simp [hc]))

/-! ## C13: the round trip between the scanner and the catalog parser -/

/-- C13: for a start block `b` below `2 ^ 32`, a length `L` with
`0 ≤ L < 2 ^ 31` and a file count `N` of type `int`, take the record the
scanner emits: its block number went through the cast `(int)` of line 432, so
the field is `toInt32 b`, negative from `b = 2 ^ 31` on.  The line the scanner
writes for it is `] <hex> <decimal L> 00/ File<N>.jpg;1`, where `<hex>` is the
64-bit representation of the field: the digits of `b` when `b < 2 ^ 31`, of
`2 ^ 64 - 2 ^ 32 + b` otherwise.  The catalog parser parses that line into the
entry of name `File<N>.jpg`, position `b * 2048` and length `L`: a catalog that
holds this one line is that one entry, and on a catalog in progress the line
assigns that entry, whatever the array `fName` holds before. -/
theorem recordLine_round_trip (b : Nat) (L N : Int) (hb : b < 2 ^ 32)
    (hl : 0 ≤ L) (hl2 : L < 2 ^ 31) (hn : -(2 ^ 31) ≤ N) (hn2 : N < 2 ^ 31) :
    recordLine { jpgFileBlockNum := toInt32 b, jpgFileLength := L, fileCount := N } =
        [']', ' '] ++ printNat 16 (if b < 2 ^ 31 then b else 2 ^ 64 - 2 ^ 32 + b) ++ [' '] ++
          printNat 10 L.toNat ++ [' ', '0', '0', '/', ' '] ++
          (['F', 'i', 'l', 'e'] ++ printDec N ++ ['.', 'j', 'p', 'g']) ++ [';', '1'] ∧
      (∀ indet, readCatalog indet [String.mk (recordLine
          { jpgFileBlockNum := toInt32 b, jpgFileLength := L, fileCount := N })] =
        [(String.mk (['F', 'i', 'l', 'e'] ++ printDec N ++ ['.', 'j', 'p', 'g']),
          { pos := b * 2048, len := L.toNat })]) ∧
      ∀ fName0 m, catalogLine fName0 m (recordLine
          { jpgFileBlockNum := toInt32 b, jpgFileLength := L, fileCount := N }) =
        catalogAssign m
          (String.mk (['F', 'i', 'l', 'e'] ++ printDec N ++ ['.', 'j', 'p', 'g']))
          { pos := b * 2048, len := L.toNat } := by
  have hmod : b % 2 ^ 32 = b := Nat.mod_eq_of_lt hb
  have hhex : printHex (toInt32 b) =
      printNat 16 (if b < 2 ^ 31 then b else 2 ^ 64 - 2 ^ 32 + b) := by
    unfold printHex toInt32
    rw [hmod]
    congr 1
    split <;> omega
  have hdec : printDec L = printNat 10 L.toNat := by
    unfold printDec
    rw [if_neg (by omega)]
  have hlow : (toInt32 b % 2 ^ 32).toNat = b := by
    unfold toInt32
    rw [hmod]
    split <;> omega
  have hcat : ∀ fName0 m, catalogLine fName0 m (recordLine
        { jpgFileBlockNum := toInt32 b, jpgFileLength := L, fileCount := N }) =
      catalogAssign m
        (String.mk (['F', 'i', 'l', 'e'] ++ printDec N ++ ['.', 'j', 'p', 'g']))
        { pos := b * 2048, len := L.toNat } := by
    intro fName0 m
    have := catalogLine_recordLine
      { jpgFileBlockNum := toInt32 b, jpgFileLength := L, fileCount := N } fName0 m
      hl hl2 hn hn2
    simp only [hlow] at this
    exact this
  refine ⟨by simp [recordLine, hhex, hdec], fun indet => ?_, hcat⟩
  simp only [readCatalog, List.map, catalogLoop]
  exact hcat (indet 0) []

/-- Witness for C13: the record of block `0x1159`, length 4096 and count 3, and
the record of block `2 ^ 31`, whose field is negative and whose line holds the
sixteen digits `ffffffff80000000`. -/
theorem recordLine_round_trip_witness :
    (recordLine { jpgFileBlockNum := toInt32 0x1159, jpgFileLength := 4096, fileCount := 3 } =
        "] 1159 4096 00/ File3.jpg;1".toList ∧
      readCatalog (fun _ => []) ["] 1159 4096 00/ File3.jpg;1"] =
        [("File3.jpg", { pos := 0x1159 * 2048, len := 4096 })] ∧
      ∀ indet, readCatalog indet
          [String.mk (recordLine { jpgFileBlockNum := toInt32 0x1159, jpgFileLength := 4096,
                                   fileCount := 3 })] =
        [(String.mk (['F', 'i', 'l', 'e'] ++ printDec 3 ++ ['.', 'j', 'p', 'g']),
          { pos := 0x1159 * 2048, len := 4096 })]) ∧
    (toInt32 0x80000000 = -0x80000000 ∧
      recordLine { jpgFileBlockNum := toInt32 0x80000000, jpgFileLength := 4096,
                   fileCount := 3 } =
        "] ffffffff80000000 4096 00/ File3.jpg;1".toList ∧
      readCatalog (fun _ => []) ["] ffffffff80000000 4096 00/ File3.jpg;1"] =
        [("File3.jpg", { pos := 0x80000000 * 2048, len := 4096 })] ∧
      ∀ indet, readCatalog indet
          [String.mk (recordLine { jpgFileBlockNum := toInt32 0x80000000, jpgFileLength := 4096,
                                   fileCount := 3 })] =
        [(String.mk (['F', 'i', 'l', 'e'] ++ printDec 3 ++ ['.', 'j', 'p', 'g']),
          { pos := 0x80000000 * 2048, len := 4096 })]) :=
  ⟨⟨by decide, by decide,
    (recordLine_round_trip 0x1159 4096 3
      (by decide) (by decide) (by decide) (by decide) (by decide)).2.1⟩,
   ⟨by decide, by decide, by decide,
    (recordLine_round_trip 0x80000000 4096 3
      (by decide) (by decide) (by decide) (by decide) (by decide)).2.1⟩⟩

/-! ## C17: the example line of the catalog -/

/-- Counterexample to C17: the line `XYZ [ 1159 4096 00/FILE1.TXT;1` holds no
`]`, and the parser passes it over: the catalog is empty.  With `]` in place of
`[` the conversion `%*s` takes `00/FILE1.TXT` and the name is not read: the
entry is stored under what the array `fName` held before, here `?`. -/
theorem readCatalog_example_line :
    readCatalog (fun _ => ['?']) ["XYZ [ 1159 4096 00/FILE1.TXT;1"] = [] ∧
      readCatalog (fun _ => ['?']) ["XYZ ] 1159 4096 00/FILE1.TXT;1"] =
        [("?", { pos := 0x1159 * 2048, len := 4096 })] := by
  decide

/-- C17, amended: parsing a catalog text that is the single line
`XYZ ] 1159 4096 00/ FILE1.TXT;1` gives the catalog of the one entry of name
`FILE1.TXT`, position `0x1159 * 2048` and length 4096. -/
theorem readCatalog_example_line_bracket (indet : Nat → List Char) :
    readCatalog indet ["XYZ ] 1159 4096 00/ FILE1.TXT;1"] =
      [("FILE1.TXT", { pos := 0x1159 * 2048, len := 4096 })] := by
  rfl

/-! ## C18: the bracket the parser looks for -/

/-- Counterexample to C18: on a line with two `]` the fields are parsed from
the text after the first one; the text after the last one would give the
entry `B`. -/
theorem catalogLine_two_brackets :
    readCatalog (fun _ => ['?']) ["] 10 20 00/ A;1 ] 30 40 00/ B;1"] =
        [("A", { pos := 0x10 * 2048, len := 20 })] ∧
      readCatalog (fun _ => ['?']) [" 30 40 00/ B;1"] = [] ∧
      readCatalog (fun _ => ['?']) ["] 30 40 00/ B;1"] =
        [("B", { pos := 0x30 * 2048, len := 40 })] := by
  decide

/-- C18, amended: for every catalog line, the parser locates the first `]` of
the line, after the NUL characters are erased, and discards everything up to
and including it before it looks for `;1` and parses the fields: when the line
without its NUL characters is `pre ++ ']' :: rest` with no `]` in `pre`, the
line is handled as lines 221-235 handle `rest`. -/
theorem catalogLine_first_bracket (fName0 : List Char) (m : FileDescMap_t)
    (lineBuf pre rest : List Char)
    (hsplit : lineBuf.filter (fun c => c ≠ '\x00') = pre ++ ']' :: rest)
    (hpre : ∀ c ∈ pre, c ≠ ']') :
    catalogLine fName0 m lineBuf = catalogFields fName0 m rest := by
  unfold catalogLine
  simp only [hsplit, afterChar_append ']' pre rest hpre]

/-- Witness for C18: a line with a NUL character and two `]`. -/
theorem catalogLine_first_bracket_witness :
    "a\x00b] 10 20 00/ A;1 ] 30 40 00/ B;1".toList.filter (fun c => c ≠ '\x00') =
        "ab".toList ++ ']' :: " 10 20 00/ A;1 ] 30 40 00/ B;1".toList ∧
      catalogLine ['?'] [] "a\x00b] 10 20 00/ A;1 ] 30 40 00/ B;1".toList =
        catalogFields ['?'] [] " 10 20 00/ A;1 ] 30 40 00/ B;1".toList :=
  ⟨by decide, catalogLine_first_bracket ['?'] [] _ "ab".toList _ (by decide) (by decide)⟩

/-! ## C19: a line that does not give the three fields -/

/-- C19, the code at a failing input: the text between `]` and `;1` of the line
`] zz;1` gives none of the three fields, and `sscanf` assigns nothing; the
parser stores an entry of position and length zero all the same, under what
the array `fName` held before.  When that is the name `A` of the line before,
the entry of `A` is overwritten. -/
theorem readCatalog_stores_malformed_line :
    sscanfCatalog " zz".toList ['?'] = (0, 0, 0, ['?']) ∧
      readCatalog (fun _ => ['?']) ["] zz;1"] = [("?", { pos := 0, len := 0 })] ∧
      readCatalog (fun _ => ['A']) ["] 1159 4096 00/ A;1"] =
        [("A", { pos := 0x1159 * 2048, len := 4096 })] ∧
      readCatalog (fun _ => ['A']) ["] 1159 4096 00/ A;1", "] zz;1"] =
        [("A", { pos := 0, len := 0 })] := by
  decide


/-! ## C20: the map and the total of `readLog` -/

theorem sum_lengths_le (m : AdrMap_t) (hg : Gapped m) (lo B : Nat)
    (hlo : ∀ e ∈ m, lo ≤ e.1) (hB : ∀ e ∈ m, e.1 + e.2 ≤ B) (hlB : lo ≤ B) :
    lo + (m.map Prod.snd).sum ≤ B := by
  induction m generalizing lo with
  | nil => simpa using hlB
  | cons e rest ih =>
    have hg' := List.pairwise_cons.mp hg
    have h1 := hlo e (by simp)
    have h2 := hB e (by simp)
    have := ih hg'.2 (e.1 + e.2) (fun x hx => Nat.le_of_lt (hg'.1 x hx))
      (fun x hx => hB x (by simp [hx])) h2
    simp only [List.map_cons, List.sum_cons]
    omega

theorem sum_lengths_lt (m : AdrMap_t) (hi : LogInv m) : (m.map Prod.snd).sum < ADR_MOD := by
  have hpos : 0 < ADR_MOD := by decide
  have h := sum_lengths_le m hi.1 0 (ADR_MOD - 1) (fun _ _ => Nat.zero_le _)
    (fun e he => by have := hi.2.2 e he; omega) (Nat.zero_le _)
  omega

theorem readLogLine_ranges (st st' : LogState) (line : List Char) (hi : LogInv st.res)
    (hno : lineFits line = true) (htot : st.totalBytes = (st.res.map Prod.snd).sum)
    (h : readLogLine st line = .ok st') :
    st'.totalBytes = (st'.res.map Prod.snd).sum ∧
      ((isContent line = false ∧ st' = st) ∨
       (isContent line = true ∧ st.skippedOne = false ∧ st' = { st with skippedOne := true }) ∨
       (isContent line = true ∧ st.skippedOne = true ∧ st'.skippedOne = true ∧
          List.Perm st'.res ((plusRange line).toList ++ st.res))) := by
  have hinv := readLogLine_inv st st' line hi hno h
  unfold readLogLine at h
  split at h
  · cases h; exact ⟨htot, Or.inl ⟨rfl, rfl⟩⟩
  · rename_i c cs
    split at h
    · rename_i hc
      cases h
      exact ⟨htot, Or.inl ⟨by simp [isContent, hc], rfl⟩⟩
    · rename_i hc
      have hcont : isContent (c :: cs) = true := by simp [isContent, hc]
      split at h
      · rename_i hsk
        cases h
        exact ⟨htot, Or.inr (Or.inl ⟨hcont, by simpa using hsk, rfl⟩)⟩
      · rename_i hsk
        have hsk' : st.skippedOne = true := by simpa using hsk
        split at h
        · rename_i hs
          cases h
          exact ⟨htot, Or.inr (Or.inr ⟨hcont, hsk', hsk', by simp [plusRange, hs]⟩)⟩
        · rename_i addr len stat hs
          split at h
          · rename_i hstat
            cases h
            have : stat ≠ '+' := by simpa using hstat
            exact ⟨htot, Or.inr (Or.inr ⟨hcont, hsk', hsk', by simp [plusRange, hs, this]⟩)⟩
          · rename_i hstat
            have hstat' : stat = '+' := by simpa using hstat
            subst hstat'
            split at h
            · cases h
            · rename_i res hres
              cases h
              have hfit : addr + len < ADR_MOD := by
                simpa [lineFits, hs] using hno
              obtain ⟨h0, l, r, hm, hm', -⟩ :=
                insertRange_ok_gapped st.res addr len res hi.1 hi.2.2 hfit hres
              have hperm : List.Perm res ((addr, len) :: st.res) := by
                rw [hm, hm']
                exact List.perm_middle
              have hsum : (res.map Prod.snd).sum = len + (st.res.map Prod.snd).sum := by
                rw [(hperm.map Prod.snd).sum_eq]
                simp
              have hlt := sum_lengths_lt res hinv
              refine ⟨?_, Or.inr (Or.inr ⟨hcont, hsk', hsk', by simpa [plusRange, hs] using hperm⟩)⟩
              simp only
              rw [htot, hsum, Nat.add_comm]
              exact Nat.mod_eq_of_lt (by omega)

theorem readLogLoop_ranges (lines : List (List Char)) (st st' : LogState) (hi : LogInv st.res)
    (hno : NoWrap lines) (htot : st.totalBytes = (st.res.map Prod.snd).sum)
    (h : readLogLoop st lines = .ok st') :
    st'.totalBytes = (st'.res.map Prod.snd).sum ∧
      List.Perm st'.res
        (st.res ++ ((lines.filter isContent).drop (if st.skippedOne then 0 else 1)).filterMap
          plusRange) := by
  induction lines generalizing st with
  | nil =>
    simp only [readLogLoop, Except.ok.injEq] at h
    subst h
    exact ⟨htot, by simp⟩
  | cons l ls ih =>
    simp only [readLogLoop] at h
    split at h
    · cases h
    · rename_i st1 h1
      have hi1 := readLogLine_inv st st1 l hi (hno l (by simp)) h1
      obtain ⟨htot1, hcase⟩ := readLogLine_ranges st st1 l hi (hno l (by simp)) htot h1
      obtain ⟨ht, hp⟩ := ih st1 hi1 (fun x hx => hno x (by simp [hx])) htot1 h
      refine ⟨ht, ?_⟩
      rcases hcase with ⟨hc, rfl⟩ | ⟨hc, hsk, rfl⟩ | ⟨hc, hsk, hsk1, hperm⟩
      · simpa [List.filter_cons, hc] using hp
      · simpa [List.filter_cons, hc, hsk] using hp
      · rw [hsk1] at hp
        simp only [List.filter_cons, hc, hsk, if_true, List.drop_zero, List.filterMap_cons] at hp ⊢
        refine hp.trans ?_
        cases hr : plusRange l with
        | none =>
          rw [hr] at hperm
          simpa using hperm.append_right _
        | some e =>
          rw [hr] at hperm
          simp only [Option.toList, List.singleton_append] at hperm
          refine (hperm.append_right _).trans ?_
          simp only [List.cons_append]
          exact List.perm_middle.symm

/-- Counterexample to C20, in two logs.  In the first the line before the data
holds one space: it is not empty, so `readLog` takes it for the line to skip
and stores the range of `0 400 +`, which the claim, for which that line is
blank, counts as the skipped first line.  In the second the last line holds a
range whose end wraps to 0, so the test against the entry of the same address
passes and the assignment overwrites that entry: the map does not hold the pair
of the first data line, and the total `0x18` is not the sum `0x10` of the
lengths in the map. -/
theorem readLog_blank_line_and_wrap :
    (readLog [" ", "0 400 +", "600 300 +"] [] = .ok ([(0, 0x400), (0x600, 0x300)], 0x700) ∧
      statedRanges ([" ", "0 400 +", "600 300 +"].map String.toList) = [(0x600, 0x300)]) ∧
    (readLog ["hdr", "fffffffffffffff0 8 +", "fffffffffffffff0 10 +"] [] =
        .ok ([(0xfffffffffffffff0, 0x10)], 0x18) ∧
      statedRanges (["hdr", "fffffffffffffff0 8 +", "fffffffffffffff0 10 +"].map String.toList) =
        [(0xfffffffffffffff0, 8), (0xfffffffffffffff0, 0x10)] ∧
      0x18 ≠ (([(0xfffffffffffffff0, 0x10)] : AdrMap_t).map Prod.snd).sum) := by
  decide

/-- C20, amended: for every rescue log that `readLog` accepts and in which no
line holding a rescued (`+`) range has `addr + len` reaching `2 ^ 64`, the
resulting map holds exactly the `(address, length)` pairs of the lines on which
`sscanf` converts a hexadecimal address, a hexadecimal length and a status
character, with the status `+`, and that come after the first line that is
neither empty nor starting with `#` (a line of white space is such a line),
each pair once, and the total reported is the sum of the lengths in the
map. -/
theorem readLog_map_and_total (lines : List String) (m : AdrMap_t) (total : Nat)
    (hno : NoWrap (lines.map String.toList)) (h : readLog lines [] = .ok (m, total)) :
    List.Perm m (plusRanges (lines.map String.toList)) ∧ total = (m.map Prod.snd).sum := by
  unfold readLog at h
  split at h
  · cases h
  · rename_i st hst
    cases h
    have hi : LogInv ([] : AdrMap_t) :=
      ⟨List.Pairwise.nil, fun e he => by simp at he, fun e he => by simp at he⟩
    obtain ⟨ht, hp⟩ := readLogLoop_ranges _ _ st hi hno rfl hst
    exact ⟨by simpa [plusRanges, dataLines] using hp, ht⟩

/-- Witness for C20: the log of the claim, with the map `{0: 0x400, 0x600:
0x300}` and the total `0x400 + 0x300`; the log whose first line holds one
space; and a log whose data line starts with a bare `0x`, which `sscanf` reads
as the address 0. -/
theorem readLog_map_and_total_witness :
    (readLog ["hdr", "0 400 +", "400 200 -", "600 300 +"] [] =
        .ok ([(0, 0x400), (0x600, 0x300)], 0x400 + 0x300) ∧
      plusRanges (["hdr", "0 400 +", "400 200 -", "600 300 +"].map String.toList) =
        [(0, 0x400), (0x600, 0x300)] ∧
      List.Perm [(0, 0x400), (0x600, 0x300)]
        (plusRanges (["hdr", "0 400 +", "400 200 -", "600 300 +"].map String.toList)) ∧
      0x400 + 0x300 = (([(0, 0x400), (0x600, 0x300)] : AdrMap_t).map Prod.snd).sum) ∧
    (readLog [" ", "0 400 +", "600 300 +"] [] = .ok ([(0, 0x400), (0x600, 0x300)], 0x700) ∧
      plusRanges ([" ", "0 400 +", "600 300 +"].map String.toList) =
        [(0, 0x400), (0x600, 0x300)] ∧
      List.Perm [(0, 0x400), (0x600, 0x300)]
        (plusRanges ([" ", "0 400 +", "600 300 +"].map String.toList)) ∧
      0x700 = (([(0, 0x400), (0x600, 0x300)] : AdrMap_t).map Prod.snd).sum) ∧
    (readLog ["hdr", "0x 10 +"] [] = .ok ([(0, 0x10)], 0x10) ∧
      plusRanges (["hdr", "0x 10 +"].map String.toList) = [(0, 0x10)] ∧
      List.Perm [(0, 0x10)] (plusRanges (["hdr", "0x 10 +"].map String.toList)) ∧
      0x10 = (([(0, 0x10)] : AdrMap_t).map Prod.snd).sum) :=
  ⟨⟨by decide, by decide,
    readLog_map_and_total ["hdr", "0 400 +", "400 200 -", "600 300 +"]
      [(0, 0x400), (0x600, 0x300)] (0x400 + 0x300) (by decide) (by decide)⟩,
   ⟨by decide, by decide,
    readLog_map_and_total [" ", "0 400 +", "600 300 +"]
      [(0, 0x400), (0x600, 0x300)] 0x700 (by decide) (by decide)⟩,
   ⟨by decide, by decide,
    readLog_map_and_total ["hdr", "0x 10 +"] [(0, 0x10)] 0x10 (by decide) (by decide)⟩⟩


/-! ## C21: the overlaps of `(A, B)` and of `(B, A)` -/

theorem mem_walk (f1First f1Last : Nat) (bs : AdrMap_t) (hs : SortedKeys bs) (x : Nat × Nat) :
    x ∈ walk f1First f1Last bs ↔
      ∃ b ∈ bs, b.1 < f1Last ∧ f1First < modEnd b ∧
        x = (max f1First b.1, min f1Last (modEnd b)) := by
  induction bs with
  | nil => simp [walk]
  | cons b bs ih =>
    have hs' := List.pairwise_cons.mp hs
    have ih' := ih hs'.2
    simp only [walk]
    by_cases h1 : b.1 ≥ f1Last
    · rw [if_pos h1]
      constructor
      · intro h; cases h
      · rintro ⟨b', hb', h2, -, -⟩
        rcases List.mem_cons.mp hb' with rfl | hb'
        · omega
        · have := hs'.1 b' hb'
          omega
    · rw [if_neg h1]
      by_cases h2 : b.1 < f1Last ∧ (b.1 + b.2) % ADR_MOD > f1First
      · rw [if_pos h2, List.mem_cons, ih']
        constructor
        · rintro (rfl | ⟨b', hb', h3⟩)
          · exact ⟨b, by simp, h2.1, h2.2, rfl⟩
          · exact ⟨b', by simp [hb'], h3⟩
        · rintro ⟨b', hb', h3⟩
          rcases List.mem_cons.mp hb' with rfl | hb'
          · exact Or.inl h3.2.2
          · exact Or.inr ⟨b', hb', h3⟩
      · rw [if_neg h2, ih']
        constructor
        · rintro ⟨b', hb', h3⟩
          exact ⟨b', by simp [hb'], h3⟩
        · rintro ⟨b', hb', h3⟩
          rcases List.mem_cons.mp hb' with rfl | hb'
          · exact absurd ⟨h3.1, h3.2.1⟩ h2
          · exact ⟨b', hb', h3⟩

theorem walkStart_split_sorted (B : AdrMap_t) (k : Nat) (hs : SortedKeys B)
    (hd : DisjointRuns B) :
    ∃ pre, B = pre ++ walkStart B k ∧ ∀ e ∈ pre, e.1 + e.2 < k := by
  obtain ⟨l, r, rfl, hl, h1, _⟩ := lower_bound_split B k hs
  unfold walkStart
  simp only [hl]
  rcases List.eq_nil_or_concat l with h | ⟨l', p, h⟩
  · subst h
    exact ⟨[], by simp, by simp⟩
  · rw [List.concat_eq_append] at h
    subst h
    refine ⟨l', ?_, ?_⟩
    · have hne : (l' ++ [p]).length ≠ 0 := by simp
      rw [if_pos hne]
      have hlen : l'.length = (l' ++ [p]).length - 1 := by simp
      rw [List.append_assoc, List.drop_left' hlen]
    · intro e he
      have h3 := (List.pairwise_append.mp (List.pairwise_append.mp hd).1).2.2 e he p (by simp)
      have h4 := h1 p (by simp)
      omega

theorem mem_overlapsOf (B : AdrMap_t) (a : Nat × Nat) (hs : SortedKeys B)
    (hd : DisjointRuns B) (x : Nat × Nat) :
    x ∈ overlapsOf B a ↔
      ∃ b ∈ B, b.1 < modEnd a ∧ a.1 < modEnd b ∧
        x = (max a.1 b.1, min (modEnd a) (modEnd b)) := by
  obtain ⟨pre, hB, hpre⟩ := walkStart_split_sorted B a.1 hs hd
  have hs' : SortedKeys (walkStart B a.1) := by
    have : SortedKeys (pre ++ walkStart B a.1) := by rw [← hB]; exact hs
    exact (List.pairwise_append.mp this).2.1
  unfold overlapsOf
  rw [mem_walk _ _ _ hs']
  constructor
  · rintro ⟨b, hb, h⟩
    exact ⟨b, by rw [hB]; exact List.mem_append_right _ hb, h⟩
  · rintro ⟨b, hb, h⟩
    rw [hB] at hb
    rcases List.mem_append.mp hb with hb | hb
    · have h1 := hpre b hb
      have h2 : modEnd b ≤ b.1 + b.2 := Nat.mod_le _ _
      have := h.2.1
      omega
    · exact ⟨b, hb, h⟩

theorem mem_intersectRuns (A B : AdrMap_t) (hs : SortedKeys B) (hd : DisjointRuns B)
    (x : Nat × Nat) :
    x ∈ intersectRuns A B ↔
      ∃ a ∈ A, ∃ b ∈ B, b.1 < modEnd a ∧ a.1 < modEnd b ∧
        x = (max a.1 b.1, min (modEnd a) (modEnd b)) := by
  induction A with
  | nil => simp [intersectRuns]
  | cons a A ih =>
    simp only [intersectRuns, List.mem_append, mem_overlapsOf B a hs hd, ih, List.mem_cons]
    constructor
    · rintro (⟨b, hb, h⟩ | ⟨a', ha', h⟩)
      · exact ⟨a, Or.inl rfl, b, hb, h⟩
      · exact ⟨a', Or.inr ha', h⟩
    · rintro ⟨a', rfl | ha', h⟩
      · exact Or.inl h
      · exact Or.inr ⟨a', ha', h⟩

/-- C21: for all maps `A` and `B` that are each sorted and pairwise
non-overlapping, the overlaps `(begin, end)` the walk of the comparator yields
for `(A, B)` are those it yields for `(B, A)`, and so are the ranges
`(start, length)` it reports for them. -/
theorem intersectRuns_symmetric (A B : AdrMap_t) (hsA : SortedKeys A) (hdA : DisjointRuns A)
    (hsB : SortedKeys B) (hdB : DisjointRuns B) :
    (∀ x, x ∈ intersectRuns A B ↔ x ∈ intersectRuns B A) ∧
      ∀ y, y ∈ (intersectRuns A B).map reported ↔ y ∈ (intersectRuns B A).map reported := by
  have key : ∀ x, x ∈ intersectRuns A B ↔ x ∈ intersectRuns B A := by
    intro x
    rw [mem_intersectRuns A B hsB hdB, mem_intersectRuns B A hsA hdA]
    constructor
    · rintro ⟨a, ha, b, hb, h1, h2, rfl⟩
      exact ⟨b, hb, a, ha, h2, h1, by rw [max_comm, min_comm]⟩
    · rintro ⟨b, hb, a, ha, h1, h2, rfl⟩
      exact ⟨a, ha, b, hb, h2, h1, by rw [max_comm, min_comm]⟩
  refine ⟨key, fun y => ?_⟩
  simp only [List.mem_map]
  constructor
  · rintro ⟨x, hx, rfl⟩
    exact ⟨x, (key x).mp hx, rfl⟩
  · rintro ⟨x, hx, rfl⟩
    exact ⟨x, (key x).mpr hx, rfl⟩

/-- Witness for C21: two maps with three overlaps; the last interval of `B` ends
at `2 ^ 64`. -/
theorem intersectRuns_symmetric_witness :
    intersectRuns [(0, 10), (10, 5), (20, 10)] [(5, 10), (18, 4), (0xfffffffffffffff0, 16)] =
        [(5, 10), (10, 15), (20, 22)] ∧
      intersectRuns [(5, 10), (18, 4), (0xfffffffffffffff0, 16)] [(0, 10), (10, 5), (20, 10)] =
        [(5, 10), (10, 15), (20, 22)] ∧
      ((∀ x, x ∈ intersectRuns [(0, 10), (10, 5), (20, 10)]
            [(5, 10), (18, 4), (0xfffffffffffffff0, 16)] ↔
          x ∈ intersectRuns [(5, 10), (18, 4), (0xfffffffffffffff0, 16)]
            [(0, 10), (10, 5), (20, 10)]) ∧
        ∀ y, y ∈ (intersectRuns [(0, 10), (10, 5), (20, 10)]
            [(5, 10), (18, 4), (0xfffffffffffffff0, 16)]).map reported ↔
          y ∈ (intersectRuns [(5, 10), (18, 4), (0xfffffffffffffff0, 16)]
            [(0, 10), (10, 5), (20, 10)]).map reported) :=
  ⟨by decide, by decide,
    intersectRuns_symmetric [(0, 10), (10, 5), (20, 10)]
      [(5, 10), (18, 4), (0xfffffffffffffff0, 16)]
      (by decide) (by decide) (by decide) (by decide)⟩


/-! ## C22: images that agree inside the overlaps -/

theorem readAt_length (iso : List Nat) (pos n : Nat) (h : pos + n ≤ iso.length) :
    (readAt iso pos n).length = n := by
  unfold readAt
  rw [List.length_take, List.length_drop]
  omega

theorem readAt_eq_of_forall (f1 f2 : List Nat) (pos n : Nat) (h1 : pos + n ≤ f1.length)
    (h2 : pos + n ≤ f2.length) (h : ∀ d, pos ≤ d → d < pos + n → f1[d]? = f2[d]?) :
    readAt f1 pos n = readAt f2 pos n := by
  apply List.ext_getElem?
  intro k
  by_cases hk : k < n
  · rw [getElem?_readAt f1 pos n k hk, getElem?_readAt f2 pos n k hk]
    exact h (pos + k) (by omega) (by omega)
  · rw [List.getElem?_eq_none (by rw [readAt_length f1 pos n h1]; omega),
      List.getElem?_eq_none (by rw [readAt_length f2 pos n h2]; omega)]

theorem longLoop_same (sz : Nat) (buf : List Nat) (n i : Nat) :
    longLoop sz buf buf n i = none := by
  induction n generalizing i with
  | zero => rfl
  | succ n ih => simp [longLoop, ih]

theorem compareLoop_succeeds (sz : Nat) (f1 f2 : List Nat) (fuel begin_ end_ : Nat)
    (h : ∀ d, begin_ ≤ d → d < end_ → d < f1.length ∧ d < f2.length ∧ f1[d]? = f2[d]?) :
    compareLoop sz f1 f2 fuel begin_ end_ = .ok () := by
  induction fuel generalizing begin_ with
  | zero => rfl
  | succ fuel ih =>
    simp only [compareLoop]
    split
    · rename_i hlt
      have hB : 0 < BUFSIZE := by decide
      have hpos : 0 < min BUFSIZE (end_ - begin_) := by
        rw [Nat.lt_min]; exact ⟨hB, by omega⟩
      have hle : min BUFSIZE (end_ - begin_) ≤ end_ - begin_ := Nat.min_le_right _ _
      have hlast := h (begin_ + min BUFSIZE (end_ - begin_) - 1) (by omega) (by omega)
      have hl1 : begin_ + min BUFSIZE (end_ - begin_) ≤ f1.length := by omega
      have hl2 : begin_ + min BUFSIZE (end_ - begin_) ≤ f2.length := by omega
      rw [if_neg (by rw [readAt_length f1 _ _ hl1]; simp),
        if_neg (by rw [readAt_length f2 _ _ hl2]; simp),
        readAt_eq_of_forall f1 f2 _ _ hl1 hl2
          (fun d hd1 hd2 => (h d (by omega) (by omega)).2.2),
        longLoop_same]
      exact ih _ (fun d hd1 hd2 => h d (by omega) hd2)
    · rfl

theorem compareWalk_succeeds (sz : Nat) (f1 f2 : List Nat) (a : Nat × Nat) (bs : AdrMap_t)
    (h : ∀ b ∈ bs, ∀ d, inRange a d → inRange b d →
      d < f1.length ∧ d < f2.length ∧ f1[d]? = f2[d]?) :
    compareWalk sz f1 f2 a.1 ((a.1 + a.2) % ADR_MOD) bs = .ok () := by
  induction bs with
  | nil => rfl
  | cons b bs ih =>
    have ih' := ih (fun b' hb' => h b' (by simp [hb']))
    simp only [compareWalk]
    split
    · rfl
    · split
      · rw [compareLoop_succeeds]
        · exact ih'
        · intro d hd1 hd2
          have ha : (a.1 + a.2) % ADR_MOD ≤ a.1 + a.2 := Nat.mod_le _ _
          have hb : (b.1 + b.2) % ADR_MOD ≤ b.1 + b.2 := Nat.mod_le _ _
          apply h b (by simp) d
          · unfold inRange; omega
          · unfold inRange; omega
      · exact ih'

/-- C22: for every pair of maps and every pair of images that both hold every
address inside an overlap of the two maps and have the same byte there, the
comparator runs to its end without an exception, whatever the images hold
elsewhere. -/
theorem compareMaps_succeeds (sz : Nat) (f1Iso f2Iso : List Nat) (A B : AdrMap_t)
    (h : ∀ d, inOverlap A B d →
      d < f1Iso.length ∧ d < f2Iso.length ∧ f1Iso[d]? = f2Iso[d]?) :
    compareMaps sz f1Iso f2Iso A B = .ok () := by
  induction A with
  | nil => rfl
  | cons a A ih =>
    simp only [compareMaps]
    rw [compareWalk_succeeds sz f1Iso f2Iso a (walkStart B a.1)]
    · exact ih (fun d ⟨a', ha', hb⟩ => h d ⟨a', by simp [ha'], hb⟩)
    · intro b hb d h1 h2
      have hbB : b ∈ B := by
        unfold walkStart at hb
        exact List.mem_of_mem_drop hb
      exact h d ⟨a, by simp, b, hbB, h1, h2⟩

/-- Witness for C22: the overlaps of the maps are `[2, 4)` and `[10, 12)`; the
images are the same there and differ at the addresses 0, 1 and 4 to 9, and in
their lengths. -/
theorem compareMaps_succeeds_witness :
    compareMaps 8 [1, 2, 3, 4, 5, 6, 7, 8, 9, 10, 11, 12]
        [9, 9, 3, 4, 0, 0, 0, 0, 0, 0, 11, 12, 13] [(0, 4), (8, 4)] [(2, 4), (10, 100)] =
      .ok () :=
  compareMaps_succeeds 8 [1, 2, 3, 4, 5, 6, 7, 8, 9, 10, 11, 12]
    [9, 9, 3, 4, 0, 0, 0, 0, 0, 0, 11, 12, 13] [(0, 4), (8, 4)] [(2, 4), (10, 100)] (by
      rintro d ⟨a, ha, b, hb, h1, h2⟩
      simp only [List.mem_cons, List.mem_singleton, List.not_mem_nil, or_false] at ha hb
      unfold inRange at h1 h2
      have hd : d = 2 ∨ d = 3 ∨ d = 10 ∨ d = 11 := by
        rcases ha with rfl | rfl <;> rcases hb with rfl | rfl <;> simp only at h1 h2 <;> omega
      rcases hd with rfl | rfl | rfl | rfl <;> decide)


/-! ## C24: compaction after `readLog` -/

theorem mapAssign_overwrite (l r : AdrMap_t) (k v0 v : Nat) (h1 : ∀ e ∈ l, e.1 < k) :
    mapAssign (l ++ (k, v0) :: r) k v = l ++ (k, v) :: r := by
  induction l with
  | nil => simp [mapAssign]
  | cons a l ih =>
    have ha := h1 a (by simp)
    have : ¬ k < a.1 := by omega
    have : ¬ k = a.1 := by omega
    simp [mapAssign, *]
    exact ih (fun e he => h1 e (by simp [he]))

theorem insertRange_modGapped (m : AdrMap_t) (addr len : Nat) (m' : AdrMap_t)
    (hs : SortedKeys m) (hg : ModGapped m) (h : insertRange m addr len = .ok m') :
    SortedKeys m' ∧ ModGapped m' := by
  obtain ⟨l, r, rfl, hl, h1, h2⟩ := lower_bound_split m addr hs
  obtain ⟨-, hn, hp, rfl⟩ := (insertRange_ok_iff l r addr len m' hl).mp h
  have hsl := (List.pairwise_append.mp hs).1
  have hsr := (List.pairwise_append.mp hs).2.1
  have hgl := (List.chain'_append.mp hg).1
  have hgr := (List.chain'_append.mp hg).2.1
  have hlink : ∀ x ∈ l.getLast?, ∀ y ∈ ((addr, len) :: ([] : AdrMap_t)).head?,
      (x.1 + x.2) % ADR_MOD < y.1 := by
    intro x hx y hy
    simp only [List.head?_cons, Option.mem_def, Option.some.injEq] at hy
    subst hy
    exact hp x hx
  cases r with
  | nil =>
    rw [mapAssign_split l [] addr len h1 (by simp)]
    constructor
    · refine List.pairwise_append.mpr ⟨hsl, List.pairwise_singleton _ _, ?_⟩
      intro a ha b hb
      simp only [List.mem_singleton] at hb
      subst hb
      exact h1 a ha
    · exact List.chain'_append.mpr ⟨hgl, List.chain'_singleton _, hlink⟩
  | cons e r' =>
    have he := hn e rfl
    have hsr' := List.pairwise_cons.mp hsr
    by_cases hk : e.1 = addr
    · -- the entry of the same key is overwritten
      obtain ⟨ek, ev⟩ := e
      simp only at hk he
      subst hk
      rw [mapAssign_overwrite l r' ek ev len h1]
      constructor
      · refine List.pairwise_append.mpr ⟨hsl, List.pairwise_cons.mpr ⟨hsr'.1, hsr'.2⟩, ?_⟩
        intro a ha b hb
        rcases List.mem_cons.mp hb with rfl | hb
        · exact h1 a ha
        · exact (List.pairwise_append.mp hs).2.2 a ha b (by simp [hb])
      · refine List.chain'_append.mpr ⟨hgl, ?_, ?_⟩
        · cases r' with
          | nil => exact List.chain'_singleton _
          | cons b r'' =>
            have hb := hsr'.1 b (by simp)
            simp only at hb
            refine List.chain'_cons.mpr ⟨?_, (List.chain'_cons.mp hgr).2⟩
            simp only
            omega
        · intro x hx y hy
          simp only [List.head?_cons, Option.mem_def, Option.some.injEq] at hy
          subst hy
          exact hp x hx
    · have hlt : addr < e.1 := by
        have := h2 e (by simp)
        omega
      have hr : ∀ x ∈ e :: r', addr < x.1 := by
        intro x hx
        rcases List.mem_cons.mp hx with rfl | hx
        · exact hlt
        · have := hsr'.1 x hx
          omega
      rw [mapAssign_split l (e :: r') addr len h1 hr]
      constructor
      · refine List.pairwise_append.mpr ⟨hsl, List.pairwise_cons.mpr ⟨hr, hsr⟩, ?_⟩
        intro a ha b hb
        rcases List.mem_cons.mp hb with rfl | hb
        · exact h1 a ha
        · exact (List.pairwise_append.mp hs).2.2 a ha b hb
      · refine List.chain'_append.mpr ⟨hgl, List.chain'_cons.mpr ⟨he, hgr⟩, ?_⟩
        intro x hx y hy
        simp only [List.head?_cons, Option.mem_def, Option.some.injEq] at hy
        subst hy
        exact hp x hx

theorem readLogLine_modGapped (st st' : LogState) (line : List Char)
    (hs : SortedKeys st.res) (hg : ModGapped st.res)
    (h : readLogLine st line = .ok st') : SortedKeys st'.res ∧ ModGapped st'.res := by
  unfold readLogLine at h
  split at h
  · cases h; exact ⟨hs, hg⟩
  · split at h
    · cases h; exact ⟨hs, hg⟩
    · split at h
      · cases h; exact ⟨hs, hg⟩
      · split at h
        · cases h; exact ⟨hs, hg⟩
        · rename_i addr len stat hsc
          split at h
          · cases h; exact ⟨hs, hg⟩
          · split at h
            · cases h
            · rename_i res hres
              cases h
              exact insertRange_modGapped _ addr len res hs hg hres

theorem readLogLoop_modGapped (lines : List (List Char)) (st st' : LogState)
    (hs : SortedKeys st.res) (hg : ModGapped st.res)
    (h : readLogLoop st lines = .ok st') : SortedKeys st'.res ∧ ModGapped st'.res := by
  induction lines generalizing st with
  | nil => simp [readLogLoop] at h; subst h; exact ⟨hs, hg⟩
  | cons l ls ih =>
    simp only [readLogLoop] at h
    split at h
    · cases h
    · rename_i st1 h1
      obtain ⟨hs1, hg1⟩ := readLogLine_modGapped st st1 l hs hg h1
      exact ih st1 hs1 hg1 h

theorem compact_of_modGapped (m : AdrMap_t) (hg : ModGapped m) : compact m = m := by
  induction m with
  | nil => rfl
  | cons a m ih =>
    cases m with
    | nil => rfl
    | cons b rest =>
      have h := List.chain'_cons.mp hg
      have hne : ¬ (a.1 + a.2) % ADR_MOD = b.1 := by
        have := h.1
        simp only at this
        omega
      rw [compact, if_neg hne, ih h.2]

/-- Counterexample to C24: `readLog` accepts the log, and in the map it builds
the consecutive intervals `[0xfffffffffffffff0, 2 ^ 64)` and
`[0xfffffffffffffff8, 0xfffffffffffffffc)` overlap: `prev.start + prev.length`
is not below `next.start`.  Compaction leaves the map as it is all the same. -/
theorem readLog_no_gap_at_wrap :
    readLog ["hdr", "fffffffffffffff0 10 +", "fffffffffffffff8 4 +"] [] =
        .ok ([(0xfffffffffffffff0, 0x10), (0xfffffffffffffff8, 4)], 0x14) ∧
      ¬ (0xfffffffffffffff0 + 0x10 < 0xfffffffffffffff8) ∧
      ¬ Gapped [(0xfffffffffffffff0, 0x10), (0xfffffffffffffff8, 4)] ∧
      compact [(0xfffffffffffffff0, 0x10), (0xfffffffffffffff8, 4)] =
        [(0xfffffffffffffff0, 0x10), (0xfffffffffffffff8, 4)] := by
  decide

/-- C24, amended: for every rescue log that `readLog` accepts, the compaction
pass applied to the resulting map is the identity, because for every pair of
consecutive intervals of the map the end of the first as the program computes
it, `(prev.start + prev.length) mod 2 ^ 64`, is below `next.start`; when no
line holding a rescued (`+`) range has `addr + len` reaching `2 ^ 64`, every
such pair is separated by a gap of at least one byte
(`prev.start + prev.length < next.start`). -/
theorem readLog_compact_id (lines : List String) (m : AdrMap_t) (total : Nat)
    (h : readLog lines [] = .ok (m, total)) :
    compact m = m ∧ ModGapped m ∧ (NoWrap (lines.map String.toList) → Gapped m) := by
  have hm : ModGapped m := by
    unfold readLog at h
    split at h
    · cases h
    · rename_i st hst
      cases h
      exact (readLogLoop_modGapped _ { skippedOne := false, totalBytes := 0, res := [] } st
        (show SortedKeys [] from List.Pairwise.nil)
        (show ModGapped [] from List.chain'_nil) hst).2
  exact ⟨compact_of_modGapped m hm, hm, fun hno => (readLog_inv lines m total hno h).1⟩

/-- Witness for C24: a log of three rescued ranges given out of order, the
last one ending at `2 ^ 64`. -/
theorem readLog_compact_id_witness :
    readLog ["hdr", "600 300 +", "fffffffffffffff0 10 +", "0 400 +"] [] =
        .ok ([(0, 0x400), (0x600, 0x300), (0xfffffffffffffff0, 0x10)], 0x710) ∧
      compact [(0, 0x400), (0x600, 0x300), (0xfffffffffffffff0, 0x10)] =
        [(0, 0x400), (0x600, 0x300), (0xfffffffffffffff0, 0x10)] ∧
      ModGapped [(0, 0x400), (0x600, 0x300), (0xfffffffffffffff0, 0x10)] ∧
      (NoWrap (["hdr", "600 300 +", "fffffffffffffff0 10 +", "0 400 +"].map String.toList) →
        Gapped [(0, 0x400), (0x600, 0x300), (0xfffffffffffffff0, 0x10)]) :=
  ⟨by decide,
    readLog_compact_id ["hdr", "600 300 +", "fffffffffffffff0 10 +", "0 400 +"]
      [(0, 0x400), (0x600, 0x300), (0xfffffffffffffff0, 0x10)] 0x710 (by decide)⟩


/-! ## The compaction pass on the map of an accepted log: claims C9, C10 and C11

The compaction is the loop of lines 308-326 of `main`.  It has one run, on the
map `f1Map` that `readLog` has just filled from the rescue log of the primary
image, so the maps it meets are the maps of the logs `readLog` accepts. -/

theorem scanHex_lt (s : List Char) (v : Nat) (rest : List Char)
    (h : scanHex s = some (v, rest)) : v < ADR_MOD := by
  have hpos : 0 < ADR_MOD := by decide
  unfold scanHex at h
  simp only at h
  split at h
  · split at h
    · cases h; exact hpos
    · cases h
  · split at h
    · split at h
      · cases h; omega
      · split at h
        · cases h
          exact Nat.mod_lt _ hpos
        · cases h
          omega
    · split at h
      · cases h; exact hpos
      · cases h

theorem sscanfLog_lt (l : List Char) (addr len : Nat) (stat : Char)
    (h : sscanfLog l = some (addr, len, stat)) : addr < ADR_MOD ∧ len < ADR_MOD := by
  unfold sscanfLog at h
  split at h
  · cases h
  · rename_i a r1 h1
    split at h
    · cases h
    · rename_i n r2 h2
      split at h
      · cases h
      · cases h
        exact ⟨scanHex_lt _ _ _ h1, scanHex_lt _ _ _ h2⟩

theorem mapAssign_mem (m : AdrMap_t) (k v : Nat) :
    ∀ e ∈ mapAssign m k v, e = (k, v) ∨ e ∈ m := by
  induction m with
  | nil => intro e he; simpa [mapAssign] using he
  | cons a m ih =>
    intro e he
    unfold mapAssign at he
    split at he
    · rcases List.mem_cons.mp he with h | h
      · exact Or.inl h
      · exact Or.inr h
    · split at he
      · rcases List.mem_cons.mp he with h | h
        · exact Or.inl h
        · exact Or.inr (List.mem_cons_of_mem _ h)
      · rcases List.mem_cons.mp he with h | h
        · exact Or.inr (by simp [h])
        · rcases ih e h with h | h
          · exact Or.inl h
          · exact Or.inr (List.mem_cons_of_mem _ h)

theorem insertRange_mem (m : AdrMap_t) (addr len : Nat) (m' : AdrMap_t)
    (h : insertRange m addr len = .ok m') : ∀ e ∈ m', e = (addr, len) ∨ e ∈ m := by
  unfold insertRange at h
  split at h
  · cases h
  · split at h
    · cases h; exact mapAssign_mem m addr len
    · split at h
      · cases h
      · split at h
        · cases h
        · cases h; exact mapAssign_mem m addr len

theorem readLogLine_typed (st st' : LogState) (line : List Char) (ht : Typed st.res)
    (h : readLogLine st line = .ok st') : Typed st'.res := by
  unfold readLogLine at h
  split at h
  · cases h; exact ht
  · split at h
    · cases h; exact ht
    · split at h
      · cases h; exact ht
      · split at h
        · cases h; exact ht
        · rename_i addr len stat hsc
          split at h
          · cases h; exact ht
          · split at h
            · cases h
            · rename_i res hres
              cases h
              intro e he
              rcases insertRange_mem _ addr len res hres e he with rfl | hm
              · exact sscanfLog_lt _ _ _ _ hsc
              · exact ht e hm

theorem readLogLoop_typed (lines : List (List Char)) (st st' : LogState) (ht : Typed st.res)
    (h : readLogLoop st lines = .ok st') : Typed st'.res := by
  induction lines generalizing st with
  | nil => simp [readLogLoop] at h; subst h; exact ht
  | cons l ls ih =>
    simp only [readLogLoop] at h
    split at h
    · cases h
    · rename_i st1 h1
      exact ih st1 (readLogLine_typed st st1 l ht h1) h

/-- The map of an accepted log: its keys are sorted, the end of every interval
as the program computes it is below the start of the next one, and every
address and length is below `2 ^ 64`. -/
theorem readLog_modGapped (lines : List String) (m : AdrMap_t) (total : Nat)
    (h : readLog lines [] = .ok (m, total)) : SortedKeys m ∧ ModGapped m ∧ Typed m := by
  unfold readLog at h
  split at h
  · cases h
  · rename_i st hst
    cases h
    obtain ⟨hs, hg⟩ := readLogLoop_modGapped _ { skippedOne := false, totalBytes := 0, res := [] }
      st (show SortedKeys [] from List.Pairwise.nil) (show ModGapped [] from List.chain'_nil) hst
    exact ⟨hs, hg, readLogLoop_typed _ { skippedOne := false, totalBytes := 0, res := [] } st
      (fun e he => by simp at he) hst⟩

/-- A list of three touching intervals is the map of no log: `readLog` throws
on a range that touches an interval of its map.  On such a list one pass of
`compact` merges the first two intervals and steps over the third, and a second
pass merges again. -/
theorem compact_three_touching :
    compact [(0, 1), (1, 1), (2, 1)] = [(0, 2), (2, 1)] ∧
      compact [(0, 2), (2, 1)] = [(0, 3)] ∧
      ∀ lines total, readLog lines [] ≠ .ok ([(0, 1), (1, 1), (2, 1)], total) := by
  refine ⟨by rfl, by rfl, fun lines total h => ?_⟩
  have hg := (readLog_modGapped lines _ total h).2.1
  have h1 : ((0 : Nat) + 1) % ADR_MOD < 1 := (List.chain'_cons.mp hg).1
  revert h1
  decide

theorem toOption_cases {ε α : Type} (x y : Except ε α) (h : x.toOption = y.toOption) :
    (∃ v, x = .ok v ∧ y = .ok v) ∨ (∃ e e', x = .error e ∧ y = .error e') := by
  cases x with
  | error e =>
    cases y with
    | error e' => exact Or.inr ⟨e, e', rfl, rfl⟩
    | ok w => simp [Except.toOption] at h
  | ok v =>
    cases y with
    | error e' => simp [Except.toOption] at h
    | ok w =>
      simp only [Except.toOption, Option.some.injEq] at h
      subst h
      exact Or.inl ⟨v, rfl, rfl⟩

theorem switchCase_indep (f i f' i' : Nat) (block : List Nat) (st : ScanState) (p : Nat)
    (hs : st.jpgfileInProgress ≠ .NO_FILE) :
    switchCase f i block st p = switchCase f' i' block st p := by
  unfold switchCase
  split
  · rename_i h; exact absurd h hs
  · rfl
  · rfl

theorem blockLoop_indep (f i f' i' : Nat) (block : List Nat) (fuel : Nat) (st : ScanState)
    (p : Nat) (hs : st.jpgfileInProgress ≠ .NO_FILE) :
    blockLoop f i block fuel st p = blockLoop f' i' block fuel st p := by
  induction fuel generalizing st p with
  | zero => rfl
  | succ fuel ih =>
    rw [blockLoop_succ, blockLoop_succ, switchCase_indep f i f' i' block st p hs]
    split
    · cases switchCase f' i' block st p with
      | error e => rfl
      | ok v =>
        obtain ⟨st1, p1⟩ := v
        simp only
        split
        · rfl
        · split
          · rfl
          · rename_i h1 h2
            exact ih st1 p1 h2
    · rfl

theorem noFileCase_shift (f i : Nat) (block : List Nat) (st : ScanState) (p : Nat)
    (hb : (f + i * CDROM_BLOCK_SIZE) / CDROM_BLOCK_SIZE < 2 ^ 31) :
    noFileCase f i block st p = noFileCase (f + i * CDROM_BLOCK_SIZE) 0 block st p ∨
      ∃ x y, noFileCase f i block st p = .error (.notOnBoundary x) ∧
        noFileCase (f + i * CDROM_BLOCK_SIZE) 0 block st p = .error (.notOnBoundary y) := by
  have hpos : 0 < CDROM_BLOCK_SIZE := by decide
  have e1 : (f + i * CDROM_BLOCK_SIZE) % CDROM_BLOCK_SIZE = f % CDROM_BLOCK_SIZE :=
    Nat.add_mul_mod_self_right _ _ _
  have e0 : (f + i * CDROM_BLOCK_SIZE) / CDROM_BLOCK_SIZE = f / CDROM_BLOCK_SIZE + i :=
    Nat.add_mul_div_right _ _ hpos
  have e2 : toInt32 ((f + i * CDROM_BLOCK_SIZE) / CDROM_BLOCK_SIZE) + ((0 : Nat) : Int) =
      toInt32 (f / CDROM_BLOCK_SIZE) + (i : Int) := by
    rw [toInt32_of_lt _ hb, toInt32_of_lt _ (by omega), e0]
    push_cast
    ring
  unfold noFileCase
  simp only [e1, e2]
  split
  · exact Or.inl rfl
  · split
    · exact Or.inl rfl
    · split
      · exact Or.inl rfl
      · split
        · exact Or.inl rfl
        · split
          · split
            · exact Or.inr ⟨_, _, rfl, rfl⟩
            · exact Or.inl rfl
          · exact Or.inl rfl

theorem blockLoop_shift (f i : Nat) (block : List Nat) (fuel : Nat) (st : ScanState) (p : Nat)
    (hb : (f + i * CDROM_BLOCK_SIZE) / CDROM_BLOCK_SIZE < 2 ^ 31) :
    (blockLoop f i block fuel st p).toOption =
      (blockLoop (f + i * CDROM_BLOCK_SIZE) 0 block fuel st p).toOption := by
  by_cases hs : st.jpgfileInProgress = .NO_FILE
  · cases fuel with
    | zero => rfl
    | succ fuel =>
      rw [blockLoop_succ, blockLoop_succ, switchCase_noFile _ _ _ _ _ hs,
        switchCase_noFile _ _ _ _ _ hs]
      split
      · rcases noFileCase_shift f i block st p hb with h | ⟨x, y, hx, hy⟩
        · rw [h]
          cases noFileCase (f + i * CDROM_BLOCK_SIZE) 0 block st p with
          | error e => rfl
          | ok v =>
            obtain ⟨st1, p1⟩ := v
            simp only
            split
            · rfl
            · split
              · rfl
              · rename_i h1 h2
                rw [blockLoop_indep f i (f + i * CDROM_BLOCK_SIZE) 0 block fuel st1 p1 h2]
        · rw [hx, hy]
          rfl
      · rfl
  · rw [blockLoop_indep f i (f + i * CDROM_BLOCK_SIZE) 0 block fuel st p hs]

theorem scanBlock_shift (f i : Nat) (block : List Nat) (st : ScanState)
    (hb : (f + i * CDROM_BLOCK_SIZE) / CDROM_BLOCK_SIZE < 2 ^ 31) :
    (scanBlock f i block st).toOption =
      (scanBlock (f + i * CDROM_BLOCK_SIZE) 0 block st).toOption := by
  unfold scanBlock
  rcases toOption_cases _ _ (blockLoop_shift f i block (CDROM_BLOCK_SIZE + 1) st 0 hb) with
    ⟨v, h1, h2⟩ | ⟨e, e', h1, h2⟩
  · rw [h1, h2]
  · rw [h1, h2]
    rfl


theorem blockOf_readAt (f1Iso : List Nat) (f1First toRead i : Nat)
    (hi : (i + 1) * CDROM_BLOCK_SIZE ≤ toRead) :
    blockOf (readAt f1Iso f1First toRead) i =
      readAt f1Iso (f1First + i * CDROM_BLOCK_SIZE) CDROM_BLOCK_SIZE := by
  unfold blockOf readAt
  have h1 : (i + 1) * CDROM_BLOCK_SIZE = i * CDROM_BLOCK_SIZE + CDROM_BLOCK_SIZE := by ring
  have hmin : min CDROM_BLOCK_SIZE (toRead - i * CDROM_BLOCK_SIZE) = CDROM_BLOCK_SIZE := by
    omega
  rw [List.drop_take, List.drop_drop, List.take_take, hmin]

theorem sameScan_refl (r : List JpgRecord × Except ScanError ScanState) : SameScan r r :=
  ⟨rfl, rfl⟩

theorem sameScan_trans {r1 r2 r3 : List JpgRecord × Except ScanError ScanState}
    (h1 : SameScan r1 r2) (h2 : SameScan r2 r3) : SameScan r1 r3 :=
  ⟨h1.1.trans h2.1, h1.2.trans h2.2⟩

theorem sameScan_andThen {r1 r2 : List JpgRecord × Except ScanError ScanState}
    {g1 g2 : ScanState → List JpgRecord × Except ScanError ScanState}
    (h : SameScan r1 r2) (hg : ∀ st, SameScan (g1 st) (g2 st)) :
    SameScan (andThenScan r1 g1) (andThenScan r2 g2) := by
  obtain ⟨recs1, res1⟩ := r1
  obtain ⟨recs2, res2⟩ := r2
  obtain ⟨h1, h2⟩ := h
  simp only at h1 h2
  subst h1
  rcases toOption_cases _ _ h2 with ⟨v, rfl, rfl⟩ | ⟨e, e', rfl, rfl⟩
  · have := hg v
    unfold andThenScan
    exact ⟨by simp only; rw [this.1], by simp only; exact this.2⟩
  · exact ⟨rfl, rfl⟩

theorem blocksWritten_succ (f1First : Nat) (buf1 : List Nat) (n i : Nat) (st : ScanState) :
    blocksWritten f1First buf1 (n + 1) i st =
      andThenScan
        (match scanBlock f1First i (blockOf buf1 i) st with
          | .error e => ([], .error e)
          | .ok (st1, rec) => (rec.toList, .ok st1))
        (fun st1 => blocksWritten f1First buf1 n (i + 1) st1) := by
  rw [blocksWritten]
  cases scanBlock f1First i (blockOf buf1 i) st with
  | error e => rfl
  | ok v => rfl

theorem blocksRef_succ (f1Iso : List Nat) (n a : Nat) (st : ScanState) :
    blocksRef f1Iso (n + 1) a st =
      andThenScan
        (match scanBlock a 0 (readAt f1Iso a CDROM_BLOCK_SIZE) st with
          | .error e => ([], .error e)
          | .ok (st1, rec) => (rec.toList, .ok st1))
        (fun st1 => blocksRef f1Iso n (a + CDROM_BLOCK_SIZE) st1) := by
  rw [blocksRef]
  cases scanBlock a 0 (readAt f1Iso a CDROM_BLOCK_SIZE) st with
  | error e => rfl
  | ok v => rfl

/-- The loop over the blocks of a buffer is the scan of those blocks one after
another. -/
theorem blocksWritten_ref (f1Iso : List Nat) (f1First toRead : Nat)
    (hb : (f1First + toRead) / CDROM_BLOCK_SIZE ≤ 2 ^ 31) (n i : Nat) (st : ScanState)
    (hn : (i + n) * CDROM_BLOCK_SIZE ≤ toRead) :
    SameScan (blocksWritten f1First (readAt f1Iso f1First toRead) n i st)
      (blocksRef f1Iso n (f1First + i * CDROM_BLOCK_SIZE) st) := by
  induction n generalizing i st with
  | zero => exact ⟨rfl, rfl⟩
  | succ n ih =>
    have hpos : 0 < CDROM_BLOCK_SIZE := by decide
    have hi : (i + 1) * CDROM_BLOCK_SIZE ≤ toRead := by
      have : (i + (n + 1)) * CDROM_BLOCK_SIZE =
        (i + 1) * CDROM_BLOCK_SIZE + n * CDROM_BLOCK_SIZE := by ring
      omega
    have hblk : (f1First + i * CDROM_BLOCK_SIZE) / CDROM_BLOCK_SIZE < 2 ^ 31 := by
      have h1 : (f1First + (i + 1) * CDROM_BLOCK_SIZE) / CDROM_BLOCK_SIZE =
          f1First / CDROM_BLOCK_SIZE + (i + 1) := Nat.add_mul_div_right _ _ hpos
      have h2 : (f1First + i * CDROM_BLOCK_SIZE) / CDROM_BLOCK_SIZE =
          f1First / CDROM_BLOCK_SIZE + i := Nat.add_mul_div_right _ _ hpos
      have h3 : (f1First + (i + 1) * CDROM_BLOCK_SIZE) / CDROM_BLOCK_SIZE ≤
          (f1First + toRead) / CDROM_BLOCK_SIZE := Nat.div_le_div_right (by omega)
      omega
    rw [blocksWritten_succ, blocksRef_succ, blockOf_readAt f1Iso f1First toRead i hi]
    apply sameScan_andThen
    · rcases toOption_cases _ _ (scanBlock_shift f1First i
        (readAt f1Iso (f1First + i * CDROM_BLOCK_SIZE) CDROM_BLOCK_SIZE) st hblk) with
        ⟨v, h1, h2⟩ | ⟨e, e', h1, h2⟩
      · rw [h1, h2]
        exact ⟨rfl, rfl⟩
      · rw [h1, h2]
        exact ⟨rfl, rfl⟩
    · intro st1
      have := ih (i + 1) st1 (by
        have : (i + 1 + n) = i + (n + 1) := by omega
        rw [this]; exact hn)
      have ha : f1First + (i + 1) * CDROM_BLOCK_SIZE =
          f1First + i * CDROM_BLOCK_SIZE + CDROM_BLOCK_SIZE := by ring
      rw [ha] at this
      exact this

theorem blocksRef_add (f1Iso : List Nat) (n1 n2 a : Nat) (st : ScanState) :
    blocksRef f1Iso (n1 + n2) a st =
      andThenScan (blocksRef f1Iso n1 a st)
        (fun st1 => blocksRef f1Iso n2 (a + n1 * CDROM_BLOCK_SIZE) st1) := by
  induction n1 generalizing a st with
  | zero =>
    simp only [Nat.zero_add, Nat.zero_mul, Nat.add_zero, blocksRef, andThenScan, List.nil_append]
  | succ n1 ih =>
    have h : n1 + 1 + n2 = (n1 + n2) + 1 := by omega
    rw [h, blocksRef_succ, blocksRef_succ]
    cases scanBlock a 0 (readAt f1Iso a CDROM_BLOCK_SIZE) st with
    | error e => rfl
    | ok v =>
      obtain ⟨st1, rec⟩ := v
      simp only [andThenScan]
      rw [ih]
      have ha : a + CDROM_BLOCK_SIZE + n1 * CDROM_BLOCK_SIZE = a + (n1 + 1) * CDROM_BLOCK_SIZE := by
        ring
      rw [ha]
      cases blocksRef f1Iso n1 (a + CDROM_BLOCK_SIZE) st1 with
      | mk recs res =>
        cases res with
        | error e => rfl
        | ok st2 =>
          simp only [andThenScan, List.append_assoc]


theorem scanWritten_succ (bufsize : Nat) (f1Iso : List Nat) (fuel f1First f1Last : Nat)
    (st : ScanState) :
    scanWritten bufsize f1Iso (fuel + 1) f1First f1Last st =
      if f1First < f1Last then
        if (readAt f1Iso f1First (min (f1Last - f1First) bufsize)).length ≠
            min (f1Last - f1First) bufsize then
          ([], .error (.failedRead f1First (min (f1Last - f1First) bufsize)))
        else
          andThenScan
            (blocksWritten f1First (readAt f1Iso f1First (min (f1Last - f1First) bufsize))
              (toInt32 (min (f1Last - f1First) bufsize / CDROM_BLOCK_SIZE)).toNat 0 st)
            (fun st1 => scanWritten bufsize f1Iso fuel
              (f1First + min (f1Last - f1First) bufsize) f1Last st1)
      else ([], .ok st) := by
  rw [scanWritten]
  split
  · simp only []
    split
    · rfl
    · cases blocksWritten f1First (readAt f1Iso f1First (min (f1Last - f1First) bufsize))
          (toInt32 (min (f1Last - f1First) bufsize / CDROM_BLOCK_SIZE)).toNat 0 st with
      | mk recs res =>
        cases res with
        | error e => rfl
        | ok st1 => rfl
  · rfl

theorem scanWritten_done (bufsize : Nat) (f1Iso : List Nat) (fuel f1First f1Last : Nat)
    (st : ScanState) (h : f1Last ≤ f1First) :
    scanWritten bufsize f1Iso fuel f1First f1Last st = ([], .ok st) := by
  cases fuel with
  | zero => rfl
  | succ fuel => rw [scanWritten_succ, if_neg (by omega)]

/-- The loop over the buffers of an interval that lies in the image and ends
below `2 ^ 42` is the scan of the whole blocks of the interval one after
another, for a buffer of `k` blocks. -/
theorem scanWritten_ref (k : Nat) (hk : 0 < k) (f1Iso : List Nat) (f1Last : Nat)
    (hlen : f1Last ≤ f1Iso.length) (hb : f1Last < 2 ^ 42) (fuel f1First : Nat)
    (st : ScanState) (hfuel : f1Last - f1First ≤ fuel) :
    SameScan (scanWritten (k * CDROM_BLOCK_SIZE) f1Iso fuel f1First f1Last st)
      (blocksRef f1Iso ((f1Last - f1First) / CDROM_BLOCK_SIZE) f1First st) := by
  have hC : CDROM_BLOCK_SIZE = 2048 := rfl
  induction fuel generalizing f1First st with
  | zero =>
    have h0 : f1Last - f1First = 0 := by omega
    rw [h0, Nat.zero_div]
    exact ⟨rfl, rfl⟩
  | succ fuel ih =>
    by_cases hlt : f1First < f1Last
    · have hpos : 0 < min (f1Last - f1First) (k * CDROM_BLOCK_SIZE) := by
        rw [Nat.lt_min]
        exact ⟨by omega, Nat.mul_pos hk (by decide)⟩
      have hle : min (f1Last - f1First) (k * CDROM_BLOCK_SIZE) ≤ f1Last - f1First :=
        Nat.min_le_left _ _
      have hrl := readAt_length f1Iso f1First (min (f1Last - f1First) (k * CDROM_BLOCK_SIZE))
        (by omega)
      have hdiv : min (f1Last - f1First) (k * CDROM_BLOCK_SIZE) / CDROM_BLOCK_SIZE < 2 ^ 31 := by
        rw [hC]; omega
      have hnum : (toInt32 (min (f1Last - f1First) (k * CDROM_BLOCK_SIZE) /
          CDROM_BLOCK_SIZE)).toNat =
          min (f1Last - f1First) (k * CDROM_BLOCK_SIZE) / CDROM_BLOCK_SIZE := by
        rw [toInt32_of_lt _ hdiv]
        exact Int.toNat_ofNat _
      rw [scanWritten_succ, if_pos hlt, if_neg (by rw [hrl]; simp), hnum]
      have hB := blocksWritten_ref f1Iso f1First
        (min (f1Last - f1First) (k * CDROM_BLOCK_SIZE)) (by rw [hC]; omega)
        (min (f1Last - f1First) (k * CDROM_BLOCK_SIZE) / CDROM_BLOCK_SIZE) 0 st
        (by rw [Nat.zero_add]; exact Nat.div_mul_le_self _ _)
      rw [Nat.zero_mul, Nat.add_zero] at hB
      by_cases hcase : k * CDROM_BLOCK_SIZE ≤ f1Last - f1First
      · -- a whole buffer of `k` blocks
        have hmin : min (f1Last - f1First) (k * CDROM_BLOCK_SIZE) = k * CDROM_BLOCK_SIZE :=
          Nat.min_eq_right hcase
        rw [hmin] at hB ⊢
        have hkd : k * CDROM_BLOCK_SIZE / CDROM_BLOCK_SIZE = k :=
          Nat.mul_div_cancel _ (by decide)
        rw [hkd] at hB ⊢
        have hN : (f1Last - f1First) / CDROM_BLOCK_SIZE =
            k + (f1Last - (f1First + k * CDROM_BLOCK_SIZE)) / CDROM_BLOCK_SIZE := by
          have h1 : f1Last - f1First =
              (f1Last - (f1First + k * CDROM_BLOCK_SIZE)) + k * CDROM_BLOCK_SIZE := by omega
          rw [h1, Nat.add_mul_div_right _ _ (by decide : 0 < CDROM_BLOCK_SIZE), Nat.add_comm]
        rw [hN, blocksRef_add]
        exact sameScan_andThen hB (fun st1 => ih (f1First + k * CDROM_BLOCK_SIZE) st1 (by omega))
      · -- the last buffer, which holds the rest of the interval
        have hmin : min (f1Last - f1First) (k * CDROM_BLOCK_SIZE) = f1Last - f1First :=
          Nat.min_eq_left (by omega)
        rw [hmin] at hB ⊢
        have hN : (f1Last - f1First) / CDROM_BLOCK_SIZE =
            (f1Last - f1First) / CDROM_BLOCK_SIZE + 0 := rfl
        rw [hN, blocksRef_add]
        refine sameScan_andThen hB (fun st1 => ?_)
        rw [scanWritten_done _ _ _ _ _ _ (by omega)]
        exact ⟨rfl, rfl⟩
    · rw [scanWritten_succ, if_neg hlt]
      have h0 : f1Last - f1First = 0 := by omega
      rw [h0, Nat.zero_div]
      exact ⟨rfl, rfl⟩

theorem blocksLoop_written (f1First : Nat) (buf1 : List Nat) (n i : Nat) (st : ScanState) :
    blocksLoop f1First buf1 n i st =
      match blocksWritten f1First buf1 n i st with
      | (_, .error e) => .error e
      | (recs, .ok st1) => .ok (st1, recs) := by
  induction n generalizing i st with
  | zero => rfl
  | succ n ih =>
    rw [blocksLoop, blocksWritten]
    cases scanBlock f1First i (blockOf buf1 i) st with
    | error e => rfl
    | ok v =>
      obtain ⟨st1, rec⟩ := v
      simp only
      rw [ih]
      cases blocksWritten f1First buf1 n (i + 1) st1 with
      | mk recs res =>
        cases res with
        | error e => rfl
        | ok st2 => rfl

theorem scanLoop_written (bufsize : Nat) (f1Iso : List Nat) (fuel f1First f1Last : Nat)
    (st : ScanState) :
    scanLoop bufsize f1Iso fuel f1First f1Last st =
      match scanWritten bufsize f1Iso fuel f1First f1Last st with
      | (_, .error e) => .error e
      | (recs, .ok st1) => .ok (st1, recs) := by
  induction fuel generalizing f1First st with
  | zero => rfl
  | succ fuel ih =>
    rw [scanLoop_succ, scanWritten_succ]
    split
    · split
      · rfl
      · rw [blocksLoop_written]
        cases blocksWritten f1First (readAt f1Iso f1First (min (f1Last - f1First) bufsize))
            (toInt32 (min (f1Last - f1First) bufsize / CDROM_BLOCK_SIZE)).toNat 0 st with
        | mk recs res =>
          cases res with
          | error e => rfl
          | ok st1 =>
            simp only [andThenScan]
            rw [ih]
            cases scanWritten bufsize f1Iso fuel
                (f1First + min (f1Last - f1First) bufsize) f1Last st1 with
            | mk recs2 res2 =>
              cases res2 with
              | error e => rfl
              | ok st2 => rfl
    · rfl

/-- The scan of an interval that ends without an exception has written the
records `scanInterval` gives. -/
theorem scanInterval_written (bufsize : Nat) (f1Iso : List Nat) (fileCount : Int)
    (itor : Nat × Nat) :
    scanInterval bufsize f1Iso fileCount itor =
      match intervalWritten bufsize f1Iso fileCount itor with
      | (_, .error e) => .error e
      | (recs, .ok st1) => .ok (st1.fileCount, recs) := by
  unfold scanInterval intervalWritten
  simp only []
  rw [scanLoop_written]
  cases scanWritten bufsize f1Iso ((itor.1 + itor.2) % ADR_MOD - itor.1) itor.1
      ((itor.1 + itor.2) % ADR_MOD)
      { jpgfileInProgress := .NO_FILE, jpgFileLength := 0, jpgFileBlockNum := 0, skipping := 0,
        fileCount := fileCount } with
  | mk recs res =>
    cases res with
    | error e => rfl
    | ok st1 => rfl

theorem readAt_prefix (blk rest : List Nat) (n : Nat) (hl : blk.length = n) :
    readAt (blk ++ rest) 0 n = blk := by
  unfold readAt
  rw [List.drop_zero, ← hl, List.take_left]

theorem readAt_beyond (iso : List Nat) (pos n : Nat) (h : iso.length ≤ pos) :
    (readAt iso pos n).length = 0 := by
  unfold readAt
  rw [List.length_take, List.length_drop]
  omega

theorem blocksWritten_one (f1First : Nat) (blk : List Nat) (st st1 : ScanState)
    (rec : Option JpgRecord) (hl : blk.length = CDROM_BLOCK_SIZE)
    (h : scanBlock f1First 0 blk st = .ok (st1, rec)) :
    blocksWritten f1First blk 1 0 st = (rec.toList, .ok st1) := by
  show blocksWritten f1First blk (0 + 1) 0 st = _
  rw [blocksWritten_succ, blockOf_zero blk hl, h]
  simp only [andThenScan, blocksWritten, List.append_nil]

/-- The scan of the interval `[0, 4096)` of an image of one block, for a buffer
of one block and for a buffer of two: the first writes the record found in the
block before the read of the second block fails, the second fails at once. -/
theorem intervalWritten_short_image (blk : List Nat) (fileCount : Int) (st1 : ScanState)
    (rec : Option JpgRecord) (hl : blk.length = CDROM_BLOCK_SIZE)
    (h : scanBlock 0 0 blk
      { jpgfileInProgress := .NO_FILE, jpgFileLength := 0, jpgFileBlockNum := 0, skipping := 0,
        fileCount := fileCount } = .ok (st1, rec)) :
    intervalWritten (1 * CDROM_BLOCK_SIZE) blk fileCount (0, 2 * CDROM_BLOCK_SIZE) =
        (rec.toList, .error (.failedRead CDROM_BLOCK_SIZE CDROM_BLOCK_SIZE)) ∧
      intervalWritten (2 * CDROM_BLOCK_SIZE) blk fileCount (0, 2 * CDROM_BLOCK_SIZE) =
        ([], .error (.failedRead 0 (2 * CDROM_BLOCK_SIZE))) := by
  have hmod : (0 + 2 * CDROM_BLOCK_SIZE) % ADR_MOD = 2 * CDROM_BLOCK_SIZE := by decide
  have hfuel : 2 * CDROM_BLOCK_SIZE - 0 = 4095 + 1 := by decide
  have hmin1 : min (4095 + 1) (1 * CDROM_BLOCK_SIZE) = CDROM_BLOCK_SIZE := by decide
  have hmin2 : min (4095 + 1) (2 * CDROM_BLOCK_SIZE) = 2 * CDROM_BLOCK_SIZE := by decide
  have hnum : (toInt32 (CDROM_BLOCK_SIZE / CDROM_BLOCK_SIZE)).toNat = 1 := by decide
  have hr1 : readAt blk 0 CDROM_BLOCK_SIZE = blk := by
    have := readAt_prefix blk [] CDROM_BLOCK_SIZE hl
    rwa [List.append_nil] at this
  have hr2 : (readAt blk 0 (2 * CDROM_BLOCK_SIZE)).length = CDROM_BLOCK_SIZE := by
    unfold readAt
    rw [List.drop_zero, List.length_take, hl]
    decide
  constructor
  · unfold intervalWritten
    simp only [hmod]
    rw [hfuel, scanWritten_succ, if_pos (by decide), hfuel, hmin1, hr1,
      if_neg (by simp [hl]), hnum, blocksWritten_one 0 blk _ st1 rec hl h]
    simp only [andThenScan]
    have hrest : 2 * CDROM_BLOCK_SIZE - (0 + CDROM_BLOCK_SIZE) = CDROM_BLOCK_SIZE := by decide
    have hmin3 : min CDROM_BLOCK_SIZE (1 * CDROM_BLOCK_SIZE) = CDROM_BLOCK_SIZE := by decide
    rw [scanWritten_succ, if_pos (by decide), hrest, hmin3,
      if_pos (by rw [readAt_beyond blk _ _ (by rw [hl]; decide)]; decide)]
    simp only [List.append_nil, Nat.zero_add]
  · unfold intervalWritten
    simp only [hmod]
    rw [hfuel, scanWritten_succ, if_pos (by decide), hfuel, hmin2,
      if_pos (by rw [hr2]; decide)]

/-- The scan of the interval `[0, 2 ^ 42)` of an image that holds it, for a
buffer of one block and for a buffer of `2 ^ 31` blocks: the first writes the
record found in the first block, for the second the number of blocks of the
buffer is converted to a negative `int` and no block is scanned. -/
theorem intervalWritten_huge_buffer (blk rest : List Nat) (fileCount : Int) (st1 : ScanState)
    (r : JpgRecord) (hl : blk.length = CDROM_BLOCK_SIZE)
    (hlen : (blk ++ rest).length = 0x40000000000)
    (h : scanBlock 0 0 blk
      { jpgfileInProgress := .NO_FILE, jpgFileLength := 0, jpgFileBlockNum := 0, skipping := 0,
        fileCount := fileCount } = .ok (st1, some r)) :
    (∃ more res, intervalWritten (1 * CDROM_BLOCK_SIZE) (blk ++ rest) fileCount
        (0, 0x40000000000) = (r :: more, res)) ∧
      intervalWritten (0x80000000 * CDROM_BLOCK_SIZE) (blk ++ rest) fileCount
          (0, 0x40000000000) =
        ([], .ok { jpgfileInProgress := .NO_FILE, jpgFileLength := 0, jpgFileBlockNum := 0,
                   skipping := 0, fileCount := fileCount }) := by
  have hmod : (0 + 0x40000000000) % ADR_MOD = 0x40000000000 := by decide
  have hfuel : 0x40000000000 - 0 = 0x3ffffffffff + 1 := by decide
  have hmin1 : min (0x3ffffffffff + 1) (1 * CDROM_BLOCK_SIZE) = CDROM_BLOCK_SIZE := by decide
  have hmin2 : min (0x3ffffffffff + 1) (0x80000000 * CDROM_BLOCK_SIZE) = 0x40000000000 := by
    decide
  have hnum1 : (toInt32 (CDROM_BLOCK_SIZE / CDROM_BLOCK_SIZE)).toNat = 1 := by decide
  have hnum2 : (toInt32 (0x40000000000 / CDROM_BLOCK_SIZE)).toNat = 0 := by decide
  constructor
  · unfold intervalWritten
    simp only [hmod]
    rw [hfuel, scanWritten_succ, if_pos (by decide), hfuel, hmin1,
      readAt_prefix blk rest _ hl, if_neg (by simp [hl]), hnum1,
      blocksWritten_one 0 blk _ st1 (some r) hl h]
    simp only [andThenScan, Option.toList, List.singleton_append]
    exact ⟨_, _, rfl⟩
  · unfold intervalWritten
    simp only [hmod]
    rw [hfuel, scanWritten_succ, if_pos (by decide), hfuel, hmin2,
      if_neg (by
        have := readAt_length (blk ++ rest) 0 0x40000000000 (by rw [hlen])
        omega), hnum2]
    simp only [blocksWritten, andThenScan, List.nil_append,
      scanWritten_done _ _ _ _ _ _ (show 0x40000000000 ≤ 0 + 0x40000000000 by decide)]

/-! ## The records written before an exception -/

theorem blocksWritten_spec (f1Iso : List Nat) (s len f1First toRead : Nat) (buf1 : List Nat)
    (hbuf : buf1 = readAt f1Iso f1First toRead) (hlen : buf1.length = toRead)
    (hs : s ≤ f1First) (hend : f1First + toRead ≤ s + len)
    (n i : Nat) (st : ScanState)
    (hn : (i + n) * CDROM_BLOCK_SIZE ≤ toRead)
    (hinv : ScanInv f1Iso s st (f1First + i * CDROM_BLOCK_SIZE)) :
    (∀ r ∈ (blocksWritten f1First buf1 n i st).1, RecordOK f1Iso s len r) ∧
      ∀ st', (blocksWritten f1First buf1 n i st).2 = .ok st' →
        ScanInv f1Iso s st' (f1First + (i + n) * CDROM_BLOCK_SIZE) := by
  induction n generalizing i st with
  | zero =>
    refine ⟨fun r hr => by simp [blocksWritten] at hr, fun st' h => ?_⟩
    simp only [blocksWritten, Except.ok.injEq] at h
    subst h
    exact hinv
  | succ n ih =>
    have hmul : (i + (n + 1)) * CDROM_BLOCK_SIZE =
        (i + 1 + n) * CDROM_BLOCK_SIZE := by ring
    have hmul1 : (i + 1 + n) * CDROM_BLOCK_SIZE =
        (i + 1) * CDROM_BLOCK_SIZE + n * CDROM_BLOCK_SIZE := by ring
    have hmul2 : (i + 1) * CDROM_BLOCK_SIZE = i * CDROM_BLOCK_SIZE + CDROM_BLOCK_SIZE := by
      ring
    rw [blocksWritten]
    cases hblk : scanBlock f1First i (blockOf buf1 i) st with
    | error e =>
      exact ⟨fun r hr => by simp at hr, fun st' h => by simp at h⟩
    | ok v =>
      obtain ⟨st1, rec⟩ := v
      obtain ⟨hinv1, hrec1⟩ := scanBlock_spec f1Iso s len f1First i
        (f1First + i * CDROM_BLOCK_SIZE) (blockOf buf1 i) st st1 rec rfl
        (fun j hj => blockOf_getD f1Iso buf1 f1First toRead i j hbuf hlen (by omega) hj)
        (by omega) (by omega) hinv hblk
      have hinv1' : ScanInv f1Iso s st1 (f1First + (i + 1) * CDROM_BLOCK_SIZE) := by
        rw [hmul2, ← Nat.add_assoc]; exact hinv1
      obtain ⟨hrec2, hinv2⟩ := ih (i + 1) st1 (by omega) hinv1'
      simp only
      refine ⟨fun r hr => ?_, fun st' h => ?_⟩
      · rcases List.mem_append.mp hr with hr | hr
        · cases rec with
          | none => simp at hr
          | some r0 =>
            have : r = r0 := by simpa using hr
            subst this
            exact hrec1 r rfl
        · exact hrec2 r hr
      · rw [hmul]
        exact hinv2 st' h

theorem scanWritten_spec (bufsize : Nat) (hb1 : CDROM_BLOCK_SIZE ∣ bufsize)
    (hb2 : bufsize / CDROM_BLOCK_SIZE < 2 ^ 31) (f1Iso : List Nat) (s len f1Last : Nat)
    (hlast : f1Last ≤ s + len) (fuel f1First : Nat) (st : ScanState)
    (hs : s ≤ f1First) (hinv : ScanInv f1Iso s st f1First) :
    ∀ r ∈ (scanWritten bufsize f1Iso fuel f1First f1Last st).1, RecordOK f1Iso s len r := by
  induction fuel generalizing f1First st with
  | zero => intro r hr; simp [scanWritten] at hr
  | succ fuel ih =>
    rw [scanWritten_succ]
    split
    · rename_i hlt
      have hle : min (f1Last - f1First) bufsize ≤ f1Last - f1First := Nat.min_le_left _ _
      have hcase : min (f1Last - f1First) bufsize = bufsize ∨
          min (f1Last - f1First) bufsize = f1Last - f1First := by
        rcases Nat.le_total (f1Last - f1First) bufsize with hc | hc
        · exact Or.inr (Nat.min_eq_left hc)
        · exact Or.inl (Nat.min_eq_right hc)
      generalize min (f1Last - f1First) bufsize = toRead at hle hcase
      split
      · intro r hr; simp at hr
      · rename_i hlen
        have hlen' : (readAt f1Iso f1First toRead).length = toRead := by
          simpa using hlen
        have hnb : (toInt32 (toRead / CDROM_BLOCK_SIZE)).toNat * CDROM_BLOCK_SIZE ≤ toRead :=
          le_trans (Nat.mul_le_mul_right _ (toInt32_toNat_le _)) (Nat.div_mul_le_self _ _)
        obtain ⟨hrec1, hinv1⟩ := blocksWritten_spec f1Iso s len f1First toRead _ rfl hlen' hs
          (by omega) (toInt32 (toRead / CDROM_BLOCK_SIZE)).toNat 0 st (by simpa using hnb)
          (by simpa using hinv)
        cases hbw : blocksWritten f1First (readAt f1Iso f1First toRead)
            (toInt32 (toRead / CDROM_BLOCK_SIZE)).toNat 0 st with
        | mk recs res =>
          rw [hbw] at hrec1 hinv1
          cases res with
          | error e =>
            intro r hr
            exact hrec1 r hr
          | ok st1 =>
            have hinv1' := hinv1 st1 rfl
            intro r hr
            simp only [andThenScan] at hr
            rcases List.mem_append.mp hr with hr | hr
            · exact hrec1 r hr
            · rcases hcase with hfull | hfin
              · have hq : (toInt32 (toRead / CDROM_BLOCK_SIZE)).toNat =
                    toRead / CDROM_BLOCK_SIZE := by
                  rw [toInt32_of_lt _ (by rw [hfull]; exact hb2)]; exact Int.toNat_ofNat _
                have hall : toRead / CDROM_BLOCK_SIZE * CDROM_BLOCK_SIZE = toRead :=
                  Nat.div_mul_cancel (by rw [hfull]; exact hb1)
                rw [Nat.zero_add, hq, hall] at hinv1'
                exact ih (f1First + toRead) st1 (by omega) hinv1' r hr
              · rw [scanWritten_done _ _ _ _ _ _ (by omega)] at hr
                cases hr
    · intro r hr; simp at hr

theorem intervalWritten_spec (bufsize : Nat) (hb1 : CDROM_BLOCK_SIZE ∣ bufsize)
    (hb2 : bufsize / CDROM_BLOCK_SIZE < 2 ^ 31) (f1Iso : List Nat) (fileCount : Int)
    (itor : Nat × Nat) :
    ∀ r ∈ (intervalWritten bufsize f1Iso fileCount itor).1, RecordOK f1Iso itor.1 itor.2 r := by
  unfold intervalWritten
  exact scanWritten_spec bufsize hb1 hb2 f1Iso itor.1 itor.2 _
    (le_trans (Nat.mod_le _ _) (le_refl _)) _ _ _ (le_refl _) (Or.inl rfl)

/-- Every record the scanner has written when it stops, with or without an
exception, stands for a file of an interval of the map. -/
theorem scanMapWrittenLoop_spec (bufsize : Nat) (hb1 : CDROM_BLOCK_SIZE ∣ bufsize)
    (hb2 : bufsize / CDROM_BLOCK_SIZE < 2 ^ 31) (f1Iso : List Nat) (fileCount : Int)
    (f1Map : AdrMap_t) :
    ∀ r ∈ (scanMapWrittenLoop bufsize f1Iso fileCount f1Map).1,
      ∃ itor ∈ f1Map, RecordOK f1Iso itor.1 itor.2 r := by
  induction f1Map generalizing fileCount with
  | nil => intro r hr; simp [scanMapWrittenLoop] at hr
  | cons itor rest ih =>
    have h1 := intervalWritten_spec bufsize hb1 hb2 f1Iso fileCount itor
    rw [scanMapWrittenLoop]
    cases hiw : intervalWritten bufsize f1Iso fileCount itor with
    | mk recs res =>
      rw [hiw] at h1
      cases res with
      | error e =>
        intro r hr
        exact ⟨itor, by simp, h1 r hr⟩
      | ok st =>
        intro r hr
        simp only at hr
        rcases List.mem_append.mp hr with hr | hr
        · exact ⟨itor, by simp, h1 r hr⟩
        · obtain ⟨it, hit, hok⟩ := ih st.fileCount r hr
          exact ⟨it, by simp [hit], hok⟩

/-- A run of the scanner that ends without an exception has written the
records `scanMap` gives. -/
theorem scanMapLoop_written (bufsize : Nat) (f1Iso : List Nat) (fileCount : Int)
    (f1Map : AdrMap_t) :
    scanMapLoop bufsize f1Iso fileCount f1Map =
      match scanMapWrittenLoop bufsize f1Iso fileCount f1Map with
      | (_, some e) => .error e
      | (recs, none) => .ok recs := by
  induction f1Map generalizing fileCount with
  | nil => rfl
  | cons itor rest ih =>
    rw [scanMapLoop, scanMapWrittenLoop, scanInterval_written]
    cases intervalWritten bufsize f1Iso fileCount itor with
    | mk recs res =>
      cases res with
      | error e => rfl
      | ok st =>
        simp only
        rw [ih]
        cases scanMapWrittenLoop bufsize f1Iso st.fileCount rest with
        | mk recs2 res2 =>
          cases res2 with
          | none => rfl
          | some e => rfl

theorem scanMap_written (f1Map : AdrMap_t) (f1Iso : List Nat) (recs : List JpgRecord)
    (h : scanMap f1Map f1Iso = .ok recs) : (scanMapWritten f1Map f1Iso).1 = recs := by
  unfold scanMap at h
  unfold scanMapWritten
  rw [scanMapLoop_written] at h
  cases hw : scanMapWrittenLoop BUFSIZE f1Iso 0 f1Map with
  | mk recs2 res2 =>
    rw [hw] at h
    cases res2 with
    | none =>
      simp only [Except.ok.injEq] at h
      exact h
    | some e => cases h


set_option maxRecDepth 100000 in
theorem scanBlock_jfifBlock_zero :
    scanBlock 0 0 jfifBlock
        { jpgfileInProgress := .NO_FILE, jpgFileLength := 0, jpgFileBlockNum := 0,
          skipping := 0, fileCount := 0 } =
      .ok ({ jpgfileInProgress := .NO_FILE, jpgFileLength := 2078, jpgFileBlockNum := 0,
             skipping := 0, fileCount := 1 },
        some { jpgFileBlockNum := 0, jpgFileLength := 30, fileCount := 1 }) := by
  decide

set_option maxRecDepth 100000 in
theorem scanBlock_eoiBlock_second :
    scanBlock 2048 0 eoiBlock
        { jpgfileInProgress := .IN_PROGRESS, jpgFileLength := 2048, jpgFileBlockNum := 0,
          skipping := 0, fileCount := 1 } =
      .ok ({ jpgfileInProgress := .NO_FILE, jpgFileLength := 2048 + 5 + 2048,
             jpgFileBlockNum := 0, skipping := 0, fileCount := 1 },
        some { jpgFileBlockNum := 0, jpgFileLength := 2048 + 5, fileCount := 1 }) := by
  decide

/-- The scan block by block of an image of two blocks, when the scan of the
first block writes nothing and the scan of the second one writes the record
`r`. -/
theorem intervalRef_two_blocks (blk1 blk2 : List Nat) (fileCount : Int) (st1 st2 : ScanState)
    (r : JpgRecord) (hl1 : blk1.length = CDROM_BLOCK_SIZE)
    (hl2 : blk2.length = CDROM_BLOCK_SIZE)
    (h1 : scanBlock 0 0 blk1
        { jpgfileInProgress := .NO_FILE, jpgFileLength := 0, jpgFileBlockNum := 0,
          skipping := 0, fileCount := fileCount } = .ok (st1, none))
    (h2 : scanBlock 2048 0 blk2 st1 = .ok (st2, some r)) :
    intervalRef (blk1 ++ blk2) fileCount (0, 2 * CDROM_BLOCK_SIZE) = ([r], .ok st2) := by
  have hn : 2 * CDROM_BLOCK_SIZE / CDROM_BLOCK_SIZE = 1 + 1 := by decide
  have hr1 : readAt (blk1 ++ blk2) 0 CDROM_BLOCK_SIZE = blk1 := readAt_prefix blk1 blk2 _ hl1
  have hr2 : readAt (blk1 ++ blk2) (0 + CDROM_BLOCK_SIZE) CDROM_BLOCK_SIZE = blk2 := by
    have := readAt_append_left blk1 blk2 CDROM_BLOCK_SIZE hl2
    rw [hl1] at this
    rw [Nat.zero_add]
    exact this
  have ha : (0 : Nat) + CDROM_BLOCK_SIZE = 2048 := rfl
  unfold intervalRef
  simp only []
  rw [hn, blocksRef_succ, hr1, h1]
  simp only [andThenScan, Option.toList, List.nil_append]
  rw [blocksRef_succ, hr2, ha, h2]
  simp only [andThenScan, Option.toList, blocksRef, List.append_nil]

/-! ### The claim -/

/-- Counterexample to C23.  The interval `[0, 4096)` of an image that holds its
first block only: with a buffer of one block the record of the JPEG file in
that block is written before the read of the second block fails, with a buffer
of two blocks the first read fails and nothing is written.  The interval
`[0, 2 ^ 42)` of an image that holds it: with a buffer of one block that record
is written, with a buffer of `2 ^ 31` blocks the number of blocks of the buffer
is converted to a negative `int`, no block is scanned and nothing is
written. -/
theorem intervalWritten_depends_on_buffer :
    intervalWritten (1 * CDROM_BLOCK_SIZE) jfifBlock 0 (0, 2 * CDROM_BLOCK_SIZE) =
        ([{ jpgFileBlockNum := 0, jpgFileLength := 30, fileCount := 1 }],
          .error (.failedRead CDROM_BLOCK_SIZE CDROM_BLOCK_SIZE)) ∧
      intervalWritten (2 * CDROM_BLOCK_SIZE) jfifBlock 0 (0, 2 * CDROM_BLOCK_SIZE) =
        ([], .error (.failedRead 0 (2 * CDROM_BLOCK_SIZE))) ∧
      (∃ more res, intervalWritten (1 * CDROM_BLOCK_SIZE)
          (jfifBlock ++ List.replicate 0x3fffffff800 0) 0 (0, 0x40000000000) =
        ({ jpgFileBlockNum := 0, jpgFileLength := 30, fileCount := 1 } :: more, res)) ∧
      intervalWritten (0x80000000 * CDROM_BLOCK_SIZE)
          (jfifBlock ++ List.replicate 0x3fffffff800 0) 0 (0, 0x40000000000) =
        ([], .ok { jpgfileInProgress := .NO_FILE, jpgFileLength := 0, jpgFileBlockNum := 0,
                   skipping := 0, fileCount := 0 }) := by
  have ha := intervalWritten_short_image jfifBlock 0 _ _ jfifBlock_length
    scanBlock_jfifBlock_zero
  have hlen : (jfifBlock ++ List.replicate 0x3fffffff800 0).length = 0x40000000000 := by
    rw [List.length_append, jfifBlock_length, List.length_replicate]
    decide
  have hb := intervalWritten_huge_buffer jfifBlock (List.replicate 0x3fffffff800 0) 0 _ _
    jfifBlock_length hlen scanBlock_jfifBlock_zero
  exact ⟨ha.1, ha.2, hb.1, hb.2⟩

/-- C23, amended: for every interval that lies in the image and ends below
`2 ^ 42` bytes, so that the block numbers and the number of blocks of a buffer
fit an `int`, the records the scanner writes when it reads the interval with a
buffer of `k * 2048` bytes are, for every `k ≥ 1`, the records of the scan of
the whole 2048-byte blocks of the interval one after another, with the state,
the skip counter, the start block and the length carried over; the scan ends in
the same state or in an exception in both, and the records are the same for
every other `k`. -/
theorem intervalWritten_blockwise (k : Nat) (hk : 1 ≤ k) (f1Iso : List Nat) (fileCount : Int)
    (itor : Nat × Nat) (hin : itor.1 + itor.2 ≤ f1Iso.length)
    (hb : itor.1 + itor.2 < 2 ^ 42) :
    (intervalWritten (k * CDROM_BLOCK_SIZE) f1Iso fileCount itor).1 =
        (intervalRef f1Iso fileCount itor).1 ∧
      (intervalWritten (k * CDROM_BLOCK_SIZE) f1Iso fileCount itor).2.toOption =
        (intervalRef f1Iso fileCount itor).2.toOption ∧
      ∀ j, 1 ≤ j →
        (intervalWritten (j * CDROM_BLOCK_SIZE) f1Iso fileCount itor).1 =
          (intervalWritten (k * CDROM_BLOCK_SIZE) f1Iso fileCount itor).1 := by
  have key : ∀ j, 1 ≤ j → SameScan (intervalWritten (j * CDROM_BLOCK_SIZE) f1Iso fileCount itor)
      (intervalRef f1Iso fileCount itor) := by
    intro j hj
    have hmod : (itor.1 + itor.2) % ADR_MOD = itor.1 + itor.2 :=
      Nat.mod_eq_of_lt (by simp only [ADR_MOD]; omega)
    have h := scanWritten_ref j hj f1Iso (itor.1 + itor.2) hin hb (itor.1 + itor.2 - itor.1)
      itor.1 { jpgfileInProgress := .NO_FILE, jpgFileLength := 0, jpgFileBlockNum := 0,
               skipping := 0, fileCount := fileCount } (le_refl _)
    unfold intervalWritten intervalRef
    simp only [hmod]
    rw [Nat.add_sub_cancel_left] at h ⊢
    exact h
  exact ⟨(key k hk).1, (key k hk).2, fun j hj => (key j hj).1.trans (key k hk).1.symm⟩

/-- Witness for C23: the image of `headerBlock` and `eoiBlock`, read with a
buffer of three blocks; the scan block by block writes one record, of block 0
and length `2048 + 5`. -/
theorem intervalWritten_blockwise_witness :
    intervalRef (headerBlock ++ eoiBlock) 0 (0, 2 * CDROM_BLOCK_SIZE) =
        ([{ jpgFileBlockNum := 0, jpgFileLength := 2048 + 5, fileCount := 1 }],
          .ok { jpgfileInProgress := .NO_FILE, jpgFileLength := 2048 + 5 + 2048,
                jpgFileBlockNum := 0, skipping := 0, fileCount := 1 }) ∧
      ((intervalWritten (3 * CDROM_BLOCK_SIZE) (headerBlock ++ eoiBlock) 0
            (0, 2 * CDROM_BLOCK_SIZE)).1 =
          (intervalRef (headerBlock ++ eoiBlock) 0 (0, 2 * CDROM_BLOCK_SIZE)).1 ∧
        (intervalWritten (3 * CDROM_BLOCK_SIZE) (headerBlock ++ eoiBlock) 0
            (0, 2 * CDROM_BLOCK_SIZE)).2.toOption =
          (intervalRef (headerBlock ++ eoiBlock) 0 (0, 2 * CDROM_BLOCK_SIZE)).2.toOption ∧
        ∀ j, 1 ≤ j →
          (intervalWritten (j * CDROM_BLOCK_SIZE) (headerBlock ++ eoiBlock) 0
              (0, 2 * CDROM_BLOCK_SIZE)).1 =
            (intervalWritten (3 * CDROM_BLOCK_SIZE) (headerBlock ++ eoiBlock) 0
              (0, 2 * CDROM_BLOCK_SIZE)).1) :=
  ⟨intervalRef_two_blocks headerBlock eoiBlock 0 _ _ _ headerBlock_length eoiBlock_length
      scanBlock_headerBlock scanBlock_eoiBlock_second,
    intervalWritten_blockwise 3 (by decide) (headerBlock ++ eoiBlock) 0
      (0, 2 * CDROM_BLOCK_SIZE)
      (by rw [List.length_append, headerBlock_length, eoiBlock_length]; decide) (by decide)⟩


/-! ## C12: the records lie inside the interval of their header -/

/-- Counterexample to C12: the compacted map holds the single interval of one
block at address `2 ^ 43`, which the image fills with a whole JPEG file of 30
bytes.  The scanner writes the block number `0`, the conversion to `int` of
`2 ^ 32`: the range `[0, 30)` the record describes is not inside the interval
`[2 ^ 43, 2 ^ 43 + 2048)`. -/
theorem scanMap_block_number_truncated :
    compact [(0x80000000000, CDROM_BLOCK_SIZE)] = [(0x80000000000, CDROM_BLOCK_SIZE)] ∧
      scanMap [(0x80000000000, CDROM_BLOCK_SIZE)] (List.replicate 0x80000000000 0 ++ jfifBlock) =
        .ok [{ jpgFileBlockNum := 0, jpgFileLength := 30, fileCount := 1 }] ∧
      ¬ ((0x80000000000 : Int) ≤ (0 : Int) * 2048) := by
  refine ⟨by decide, ?_, by decide⟩
  have h := scanMap_jfifBlock_at (List.replicate 0x80000000000 0) 0x80000000000
    (List.length_replicate _ _) (by decide) _ _ scanBlock_jfifBlock_far
  simpa only [Option.toList] using h

theorem recordOK_inside (f1Iso : List Nat) (s len : Nat) (r : JpgRecord)
    (hok : RecordOK f1Iso s len r) (hb : s + len ≤ 2 ^ 42) :
    (s : Int) ≤ r.jpgFileBlockNum * 2048 ∧
      r.jpgFileBlockNum * 2048 + r.jpgFileLength ≤ ((s + len : Nat) : Int) := by
  obtain ⟨hd, a, k, h1, h2, ⟨q, hq⟩, h4, h5, h6, -, -, h9, h10⟩ := hok
  simp only [CDROM_BLOCK_SIZE] at *
  have hq' : hd / 2048 = q := by omega
  have hlt : hd / 2048 < 2 ^ 31 := by omega
  rw [h10 hlt, h9, hq']
  constructor <;> · push_cast; omega

/-- C12, amended: when every interval of the map ends at or below `2 ^ 42`
bytes, so that its block numbers fit an `int`, every record the scanner has
written when it stops, with or without an exception, belongs to one interval
`[s, s + len)` of the map: the header of the file and the byte `D9` of its
end-of-image marker are both in whole blocks of that interval (a file whose
marker is not reached before the interval ends gives no record), and the range
`[startBlock * 2048, startBlock * 2048 + length)` the record describes lies
inside the interval. -/
theorem scanMap_records_inside (f1Map : AdrMap_t) (f1Iso : List Nat)
    (hfit : ∀ itor ∈ f1Map, itor.1 + itor.2 ≤ 2 ^ 42) :
    ∀ r ∈ (scanMapWritten f1Map f1Iso).1, ∃ itor ∈ f1Map, RecordOK f1Iso itor.1 itor.2 r ∧
      (itor.1 : Int) ≤ r.jpgFileBlockNum * 2048 ∧
      r.jpgFileBlockNum * 2048 + r.jpgFileLength ≤ ((itor.1 + itor.2 : Nat) : Int) := by
  intro r hr
  obtain ⟨itor, hmem, hok⟩ :=
    scanMapWrittenLoop_spec BUFSIZE (by decide) (by decide) f1Iso 0 f1Map r hr
  exact ⟨itor, hmem, hok, recordOK_inside f1Iso itor.1 itor.2 r hok (hfit itor hmem)⟩

/-- Witness for C12: the interval `[4096, 6144)` holds a whole JPEG file of 30
bytes; the record written is block 2, length 30. -/
theorem scanMap_records_inside_witness :
    scanMap [(4096, CDROM_BLOCK_SIZE)] (List.replicate 4096 0 ++ jfifBlock) =
        .ok [{ jpgFileBlockNum := 2, jpgFileLength := 30, fileCount := 1 }] ∧
      (scanMapWritten [(4096, CDROM_BLOCK_SIZE)] (List.replicate 4096 0 ++ jfifBlock)).1 =
        [{ jpgFileBlockNum := 2, jpgFileLength := 30, fileCount := 1 }] ∧
      ∀ r ∈ (scanMapWritten [(4096, CDROM_BLOCK_SIZE)]
          (List.replicate 4096 0 ++ jfifBlock)).1,
        ∃ itor ∈ [(4096, CDROM_BLOCK_SIZE)],
          RecordOK (List.replicate 4096 0 ++ jfifBlock) itor.1 itor.2 r ∧
          (itor.1 : Int) ≤ r.jpgFileBlockNum * 2048 ∧
          r.jpgFileBlockNum * 2048 + r.jpgFileLength ≤ ((itor.1 + itor.2 : Nat) : Int) := by
  have h : scanMap [(4096, CDROM_BLOCK_SIZE)] (List.replicate 4096 0 ++ jfifBlock) =
      .ok [{ jpgFileBlockNum := 2, jpgFileLength := 30, fileCount := 1 }] := by
    have h := scanMap_jfifBlock_at (List.replicate 4096 0) 4096
      (List.length_replicate _ _) (by decide) _ _ scanBlock_jfifBlock_near
    simpa only [Option.toList] using h
  exact ⟨h, scanMap_written _ _ _ h, scanMap_records_inside _ _ (by
    intro itor hi
    simp only [List.mem_singleton] at hi
    subst hi
    decide)⟩

/-! ## C15: the length written -/

theorem recordOK_length (f1Iso : List Nat) (s len : Nat) (r : JpgRecord)
    (hok : RecordOK f1Iso s len r) :
    ∃ b e k, b ≤ e ∧ k < 2048 ∧ s ≤ 2048 * b ∧ 2048 * (e + 1) ≤ s + len ∧
      headerAt f1Iso (2048 * b) ∧ f1Iso[2048 * e + k]? = some 0xD9 ∧
      (b < 2 ^ 31 → r.jpgFileBlockNum = (b : Int)) ∧
      r.jpgFileLength = ((2048 * (e - b) + k + 1 : Nat) : Int) ∧
      2048 * (e - b) + k + 1 = (2048 * e + k) - 2048 * b + 1 := by
  obtain ⟨hd, a, k, h1, h2, ⟨b, hb⟩, ⟨e, he⟩, h5, h6, h7, h8, h9, h10⟩ := hok
  simp only [CDROM_BLOCK_SIZE] at *
  subst hb he
  have hdiv : 2048 * b / 2048 = b := by omega
  rw [hdiv] at h10
  refine ⟨b, e, k, by omega, h5, h1, by omega, h7, h8, h10, ?_, by omega⟩
  rw [h9]
  congr 1
  omega

/-- C15: every record the scanner has written when it stops, with or without
an exception, comes from one interval of the map, a block `b` of it that starts
with a JPEG header and a block `e ≥ b` of it whose byte `k` is the `D9` that
completed the file; the length written is `2048 * (e - b) + k + 1`, the number
of bytes from the first byte of the header to that byte inclusive, and the
block number written is `b` whenever `b` fits an `int`. -/
theorem scanMap_record_length (f1Map : AdrMap_t) (f1Iso : List Nat) :
    ∀ r ∈ (scanMapWritten f1Map f1Iso).1, ∃ itor ∈ f1Map, ∃ b e k, b ≤ e ∧ k < 2048 ∧
      itor.1 ≤ 2048 * b ∧ 2048 * (e + 1) ≤ itor.1 + itor.2 ∧
      headerAt f1Iso (2048 * b) ∧ f1Iso[2048 * e + k]? = some 0xD9 ∧
      (b < 2 ^ 31 → r.jpgFileBlockNum = (b : Int)) ∧
      r.jpgFileLength = ((2048 * (e - b) + k + 1 : Nat) : Int) ∧
      2048 * (e - b) + k + 1 = (2048 * e + k) - 2048 * b + 1 := by
  intro r hr
  obtain ⟨itor, hmem, hok⟩ :=
    scanMapWrittenLoop_spec BUFSIZE (by decide) (by decide) f1Iso 0 f1Map r hr
  exact ⟨itor, hmem, recordOK_length f1Iso itor.1 itor.2 r hok⟩

/-- Witness for C15: the header is in block 0 of the image and the byte `D9` of
the marker at offset 4 of block 1; the length written is
`2048 * (1 - 0) + 4 + 1`. -/
theorem scanMap_record_length_witness :
    scanMap [(0, 2 * CDROM_BLOCK_SIZE)] ([] ++ (headerBlock ++ eoiBlock)) =
        .ok [{ jpgFileBlockNum := 0, jpgFileLength := 2048 + 5, fileCount := 1 }] ∧
      (scanMapWritten [(0, 2 * CDROM_BLOCK_SIZE)] ([] ++ (headerBlock ++ eoiBlock))).1 =
        [{ jpgFileBlockNum := 0, jpgFileLength := 2048 + 5, fileCount := 1 }] ∧
      ∀ r ∈ (scanMapWritten [(0, 2 * CDROM_BLOCK_SIZE)]
          ([] ++ (headerBlock ++ eoiBlock))).1,
        ∃ itor ∈ [(0, 2 * CDROM_BLOCK_SIZE)], ∃ b e k, b ≤ e ∧ k < 2048 ∧
          itor.1 ≤ 2048 * b ∧ 2048 * (e + 1) ≤ itor.1 + itor.2 ∧
          headerAt ([] ++ (headerBlock ++ eoiBlock)) (2048 * b) ∧
          ([] ++ (headerBlock ++ eoiBlock))[2048 * e + k]? = some 0xD9 ∧
          (b < 2 ^ 31 → r.jpgFileBlockNum = (b : Int)) ∧
          r.jpgFileLength = ((2048 * (e - b) + k + 1 : Nat) : Int) ∧
          2048 * (e - b) + k + 1 = (2048 * e + k) - 2048 * b + 1 :=
  ⟨scanMap_two_block_file, scanMap_written _ _ _ scanMap_two_block_file,
    scanMap_record_length _ _⟩

/-! ## C16: a block that starts with a header -/

/-- Counterexample to C16: the interval starts at the block-aligned address
`2 ^ 43` and its first block starts with the header bytes; the case `NO_FILE`
records the block number `0`, not `2 ^ 43 / 2048 = 2 ^ 32`. -/
theorem switchCase_block_number_truncated :
    0x80000000000 % CDROM_BLOCK_SIZE = 0 ∧
      switchCase 0x80000000000 0
        [0xFF, 0xD8, 0xFF, 0xE0, 0x00, 0x10, 0x4A, 0x46, 0x49, 0x46, 0x00]
        { jpgfileInProgress := .NO_FILE, jpgFileLength := 0, jpgFileBlockNum := 0,
          skipping := 0, fileCount := 0 } 0 =
        .ok ({ jpgfileInProgress := .IN_PROGRESS, jpgFileLength := 0, jpgFileBlockNum := 0,
               skipping := 0, fileCount := 1 }, 20) ∧
      (0 : Int) ≠ ((0x80000000000 / CDROM_BLOCK_SIZE : Nat) : Int) := by
  decide

/-- C16, amended: for an interval that starts at the block-aligned address
`f1First` with `f1First / 2048` below `2 ^ 31`, and whose first block starts
with the bytes `FF D8 FF E0 00 10 4A 46 49 46 00`, the first round of the loop
over that block in the state `NO_FILE` adds one to `fileCount`, sets
`jpgFileLength` to zero, makes the state `IN_PROGRESS`, leaves the position at
20 and records the block number `f1First / 2048`; the rest of the block leaves
`fileCount` and the block number as they are, so the block counts one file. -/
theorem header_block_starts_one_file (f1First : Nat) (rest : List Nat) (st : ScanState)
    (hal : f1First % CDROM_BLOCK_SIZE = 0) (hfit : f1First / CDROM_BLOCK_SIZE < 2 ^ 31)
    (hs : st.jpgfileInProgress = .NO_FILE) :
    switchCase f1First 0
        ([0xFF, 0xD8, 0xFF, 0xE0, 0x00, 0x10, 0x4A, 0x46, 0x49, 0x46, 0x00] ++ rest) st 0 =
      .ok ({ st with jpgFileBlockNum := ((f1First / CDROM_BLOCK_SIZE : Nat) : Int),
                     jpgFileLength := 0, jpgfileInProgress := .IN_PROGRESS,
                     fileCount := st.fileCount + 1 }, 20) ∧
    ∃ st' rec, scanBlock f1First 0
        ([0xFF, 0xD8, 0xFF, 0xE0, 0x00, 0x10, 0x4A, 0x46, 0x49, 0x46, 0x00] ++ rest) st =
          .ok (st', rec) ∧
      st'.fileCount = st.fileCount + 1 ∧
      st'.jpgFileBlockNum = ((f1First / CDROM_BLOCK_SIZE : Nat) : Int) := by
  have hh : blockHeader
      ([0xFF, 0xD8, 0xFF, 0xE0, 0x00, 0x10, 0x4A, 0x46, 0x49, 0x46, 0x00] ++ rest) := by
    simp [blockHeader]
  have hk : headerSkip
      ([0xFF, 0xD8, 0xFF, 0xE0, 0x00, 0x10, 0x4A, 0x46, 0x49, 0x46, 0x00] ++ rest) = 20 := by
    simp [headerSkip]
    decide
  have hst : headerState f1First 0 st =
      { st with jpgFileBlockNum := ((f1First / CDROM_BLOCK_SIZE : Nat) : Int),
                jpgFileLength := 0, jpgfileInProgress := .IN_PROGRESS,
                fileCount := st.fileCount + 1 } := by
    simp [headerState, toInt32_of_lt _ hfit]
  have hsw : switchCase f1First 0
      ([0xFF, 0xD8, 0xFF, 0xE0, 0x00, 0x10, 0x4A, 0x46, 0x49, 0x46, 0x00] ++ rest) st 0 =
      .ok ({ st with jpgFileBlockNum := ((f1First / CDROM_BLOCK_SIZE : Nat) : Int),
                     jpgFileLength := 0, jpgfileInProgress := .IN_PROGRESS,
                     fileCount := st.fileCount + 1 }, 20) := by
    rw [switchCase_noFile _ _ _ _ _ hs, noFileCase_header _ _ _ _ hh,
      if_neg (by simpa using hal), hk, hst]
  refine ⟨hsw, ?_⟩
  obtain ⟨st', p', rec, hrun, hbn, hfc, -⟩ := blockLoop_active f1First 0
    ([0xFF, 0xD8, 0xFF, 0xE0, 0x00, 0x10, 0x4A, 0x46, 0x49, 0x46, 0x00] ++ rest)
    CDROM_BLOCK_SIZE
    { st with jpgFileBlockNum := ((f1First / CDROM_BLOCK_SIZE : Nat) : Int),
              jpgFileLength := 0, jpgfileInProgress := .IN_PROGRESS,
              fileCount := st.fileCount + 1 } 20 (by simp [Active])
  refine ⟨{ st' with jpgFileLength := st'.jpgFileLength + CDROM_BLOCK_SIZE }, rec, ?_, hfc, hbn⟩
  unfold scanBlock
  rw [blockLoop_succ, if_pos (by decide), hsw]
  simp only [reduceCtorEq, if_false]
  rw [hrun]

/-- Witness for C16: the interval starts at address 4096, block 2. -/
theorem header_block_starts_one_file_witness :
    4096 % CDROM_BLOCK_SIZE = 0 ∧ 4096 / CDROM_BLOCK_SIZE < 2 ^ 31 ∧
      switchCase 4096 0
          ([0xFF, 0xD8, 0xFF, 0xE0, 0x00, 0x10, 0x4A, 0x46, 0x49, 0x46, 0x00] ++ [7, 7])
          { jpgfileInProgress := .NO_FILE, jpgFileLength := 5, jpgFileBlockNum := 0,
            skipping := 0, fileCount := 3 } 0 =
        .ok ({ jpgfileInProgress := .IN_PROGRESS, jpgFileLength := 0,
               jpgFileBlockNum := ((4096 / CDROM_BLOCK_SIZE : Nat) : Int),
               skipping := 0, fileCount := 3 + 1 }, 20) :=
  ⟨by decide, by decide,
    (header_block_starts_one_file 4096 [7, 7]
      { jpgfileInProgress := .NO_FILE, jpgFileLength := 5, jpgFileBlockNum := 0,
        skipping := 0, fileCount := 3 } (by decide) (by decide) rfl).1⟩

end DdrescueCmp
